import Mathlib

/-!
# Ford–Fulkerson maximum flow (`MaxFlow_Ford-Fulkerson.c`)

A shallow embedding of the C program and a verification of its behaviour.

Modelling conventions

* C `int` values that are capacities, flows, needs, queue items and `parent`
  entries are integers (`Int`); a value of the program lies between `INT_MIN`
  and `INT_MAX`.  Where the program computes with them and the result can
  leave that range, the result is wrapped to 32 bits (`wrapInt`): the residual
  capacity `c - f` of line 481, the sums `net_need` of lines 368–371 and
  516–517, the merged capacity of lines 159 and 167, and the negated need of
  line 402 (`negInt`).  The flow updates `f + newFlow`, `f - newFlow` of lines
  301 and 305 are exact: in the states reached from a valid network the flow
  of an edge stays between minus the capacity of the opposite edge and its own
  capacity.  The total `maxFlow` of line 292 is the exact sum of the
  augmentations; totals beyond `INT_MAX` are outside the model.  Vertex ids
  and array indices are natural numbers.
* A linked adjacency list `EDGE *p` is the `List EDGE` of its nodes in link
  order; the array `H[0..V]` is a `List VERTEX` (slot `0` is never
  initialised by the program and is carried along untouched).  Reading a slot
  that does not exist yields an empty list, a zero need, or `0` from `parent`;
  writing to it does nothing, except in `ReadGraph`, which returns `none` when
  the program writes outside `adjList` or `H`.
* The ring buffer of `struct queue` is modelled field by field; `Queue.items`
  lists its live items.
* The augmentation loop `while(newFlow = BFS(..))` takes explicit fuel and
  returns `none` when it runs out.  The other `while` loops are unrolled under
  a bound computed from the network (`V + 2` rounds of the outer loop of
  `BFS`, `V + 1` steps of the walk back along `parent`, `3 * length + 1` steps
  of the walk of the reverse-edge pass) and return `none` when the bound is
  hit; `reverseInner_total`, `BFS_spec` and `loop_step` show that this does not
  happen.  A walk that would run past the end of a list
  (`pointer->next` of the last node) also returns `none`.
* The file read by `ReadGraph` is given by the numbers it holds: `V`, `E`, the
  needs and the edge triples.
* `bfsCalls` lists the calls of `enqueue` made by a run of `BFS`, with the
  queues as they are at each call; it follows the branches of `bfsScan` and
  `bfsLoop` and is used to state what happens during a run.
-/

namespace FordFulkerson

/-! ## Data model (source lines 9–49) -/

/-- The constant `#define MAX 10000`: capacity of the BFS queues. -/
def MAX : Nat := 10000

/-- The constant `INT_MAX` of `<limits.h>` for a 32-bit `int`. -/
def INT_MAX : Int := 2147483647

/-- The constant `INT_MIN` of `<limits.h>` for a 32-bit `int`. -/
def INT_MIN : Int := -2147483648

/-- The value of type `int` that holds the result `x` of an addition or
subtraction: `x` itself when it lies between `INT_MIN` and `INT_MAX`,
otherwise `x` wrapped around modulo `2^32`. -/
def wrapInt (x : Int) : Int := (x + 2147483648) % 4294967296 - 2147483648

/-- The value of the expression `-n` of type `int`: the negation, except that
`-INT_MIN` wraps around to `INT_MIN`. -/
def negInt (n : Int) : Int := if n = INT_MIN then INT_MIN else -n

/-- The record `struct edge`: endpoint `y`, capacity `c`, flow `f`
(the `next` link is the list structure). -/
structure EDGE where
  y : Nat
  c : Int
  f : Int
deriving DecidableEq

/-- The record `struct vertex`: id `x`, need `n`, adjacency list `p`. -/
structure VERTEX where
  x : Nat
  n : Int
  p : List EDGE
deriving DecidableEq

/-- The record `struct graph`: vertex count `V`, edge count `E`, vertex array `H`. -/
structure GRAPH where
  V : Nat
  E : Nat
  H : List VERTEX
deriving DecidableEq

/-- The record `struct queue`: a ring buffer over `array`. -/
structure Queue where
  front : Nat
  rear : Nat
  size : Nat
  capacity : Nat
  array : List Int
deriving DecidableEq

/-- The adjacency list `G->H[i].p` (empty when `i` is not a slot of `H`). -/
def adj (G : GRAPH) (i : Nat) : List EDGE :=
  match G.H[i]? with
  | some v => v.p
  | none => []

/-- The need `G->H[i].n` (zero when `i` is not a slot of `H`). -/
def need (G : GRAPH) (i : Nat) : Int :=
  match G.H[i]? with
  | some v => v.n
  | none => 0

/-- The assignment `G->H[i].p = L` (also the effect of writing through a
pointer into the list of vertex `i`). -/
def setAdj (G : GRAPH) (i : Nat) (L : List EDGE) : GRAPH :=
  match G.H[i]? with
  | some v => { G with H := G.H.set i { v with p := L } }
  | none => G

/-! ## Loader `ReadGraph` (source lines 105–187) -/

/-- The loop `while(p->next!=NULL)` of lines 164–172 followed by lines 174–175:
a node other than the last that points to `temp->y` absorbs the capacity and
becomes the last node (`p->next=NULL`); otherwise `temp` is linked behind the
last node, which is never compared. -/
def insertScan (temp : EDGE) : List EDGE → List EDGE
  | [] => [temp]
  | [p] => [p, temp]
  | p :: q :: rest =>
    if p.y = temp.y then [{ p with c := wrapInt (p.c + temp.c) }]
    else p :: insertScan temp (q :: rest)

/-- Lines 154–176: insertion of the node `temp` into the list `adjList[x]`. -/
def insertEdge (temp : EDGE) : List EDGE → List EDGE
  | [] => [temp]
  | p :: rest =>
    if p.y = temp.y then { p with c := wrapInt (p.c + temp.c) } :: rest
    else insertScan temp (p :: rest)

/-- The loop of lines 142–177 over the triples `x y c` read from the file;
`none` when a triple has `x` beyond the last slot of `adjList` (the program
then writes outside the array). -/
def fillAdjList : List (Nat × Nat × Int) → List (List EDGE) → Option (List (List EDGE))
  | [], adjList => some adjList
  | (x, y, c) :: rest, adjList =>
    if adjList.length ≤ x then none
    else
      fillAdjList rest
        (adjList.set x (insertEdge { y := y, c := c, f := 0 } (adjList.getD x [])))

/-- The function `ReadGraph` on the numbers held by the file: `V`, `E`, the
needs of the vertices `1..V` and the `E` triples `x y c`.  The array `adjList`
has `E + 1` slots (line 129) and is copied to `H[1..E]` (lines 179–181);
`none` when the program writes outside `adjList` or, for `E > V`, outside
`H`. -/
def ReadGraph (V E : Nat) (needs : List Int) (triples : List (Nat × Nat × Int)) :
    Option GRAPH :=
  match fillAdjList triples (List.replicate (E + 1) []) with
  | none => none
  | some adjList =>
    if V < E then none
    else
      let H : List VERTEX :=
        { x := 0, n := 0, p := [] } ::
          (List.range' 1 V).map (fun i => { x := i, n := needs.getD (i - 1) 0, p := [] })
      some ((List.range' 1 E).foldl (fun G i => setAdj G i (adjList.getD i []))
        { V := V, E := E, H := H })

/-! ## Queue (source lines 539–581) -/

/-- The function `createQueue`. -/
def createQueue (capacity : Nat) : Queue :=
  { capacity := capacity, front := 0, size := 0, rear := capacity - 1,
    array := List.replicate capacity 0 }

/-- The function `isFull`. -/
def isFull (queue : Queue) : Bool := queue.size == queue.capacity

/-- The function `isEmpty`. -/
def isEmpty (queue : Queue) : Bool := queue.size == 0

/-- The function `enqueue`: a full queue silently drops the item. -/
def enqueue (queue : Queue) (item : Int) : Queue :=
  if isFull queue then queue
  else
    let rear := (queue.rear + 1) % queue.capacity
    { queue with rear := rear, array := queue.array.set rear item, size := queue.size + 1 }

/-- The function `dequeue`: returns the item (or `-1` on an empty queue) and the
queue after the call. -/
def dequeue (queue : Queue) : Int × Queue :=
  if isEmpty queue then (-1, queue)
  else
    let item := queue.array.getD queue.front 0
    (item, { queue with front := (queue.front + 1) % queue.capacity, size := queue.size - 1 })

/-! ## Breadth-first search (source lines 443–504) -/

/-- Local state of `BFS`: the `parent` array, `maxFlow_path` and the two queues. -/
structure BFSState where
  parent : List Int
  maxFlow_path : Int
  vertexQueue : Queue
  flowQueue : Queue

/-- The inner loop of `BFS` (`while(pointer!=NULL)`, lines 478–500) over the
adjacency list of the dequeued vertex. -/
def bfsScan (t : Nat) (currentVertex currentFlow : Int) : List EDGE → BFSState → BFSState
  | [], st => st
  | pointer :: rest, st =>
    let nextVertex := pointer.y
    let residualCapacity := wrapInt (pointer.c - pointer.f)
    if nextVertex = t then
      let newFlow := if currentFlow < residualCapacity then currentFlow else residualCapacity
      if st.maxFlow_path < newFlow then
        bfsScan t currentVertex currentFlow rest
          { st with maxFlow_path := newFlow, parent := st.parent.set nextVertex currentVertex }
      else bfsScan t currentVertex currentFlow rest st
    else if st.parent.getD nextVertex 0 = -1 ∧ residualCapacity > 0 then
      let newFlow := if currentFlow < residualCapacity then currentFlow else residualCapacity
      bfsScan t currentVertex currentFlow rest
        { st with parent := st.parent.set nextVertex currentVertex,
                  vertexQueue := enqueue st.vertexQueue nextVertex,
                  flowQueue := enqueue st.flowQueue newFlow }
    else bfsScan t currentVertex currentFlow rest st

/-- The outer loop of `BFS` (`while(!isEmpty(vertexQueue))`, lines 471–501),
unrolled at most `fuel` times. -/
def bfsLoop (G : GRAPH) (t : Nat) : Nat → BFSState → Option BFSState
  | 0, _ => none
  | fuel + 1, st =>
    if isEmpty st.vertexQueue then some st
    else
      let dv := dequeue st.vertexQueue
      let df := dequeue st.flowQueue
      bfsLoop G t fuel
        (bfsScan t dv.1 df.1 (adj G dv.1.toNat)
          { st with vertexQueue := dv.2, flowQueue := df.2 })

/-- The state of `BFS` when its outer loop is entered (lines 460–469): every
slot `0..V` of `parent` is `-1` except `parent[s] = 0`, and the queues hold
`s` and `INT_MAX`. -/
def bfsInit (G : GRAPH) (s : Nat) : BFSState :=
  { parent := (List.replicate (G.V + 1) (-1)).set s 0,
    maxFlow_path := 0,
    vertexQueue := enqueue (createQueue MAX) s,
    flowQueue := enqueue (createQueue MAX) INT_MAX }

/-- The function `BFS`: returns the value returned by the C function together
with the contents of the caller's `parent` array afterwards.  The outer loop
is given `V + 2` rounds. -/
def BFS (s t : Nat) (G : GRAPH) (parent : List Int) : Option (Int × List Int) :=
  if s = t then some (0, parent)
  else
    match bfsLoop G t (G.V + 2) (bfsInit G s) with
    | none => none
    | some st => some (st.maxFlow_path, st.parent)

/-! ## Reverse-edge pass of `ComputeMaxFlow` (source lines 244–283) -/

/-- Lines 258–279: for an edge `x → y` of non-zero capacity, append the edge
`(x, 0, 0)` to the list of `y` unless a node other than the last one of that
list already points to `x`. -/
def addReverse (G : GRAPH) (x y : Nat) : GRAPH :=
  let reverseEdge : EDGE := { y := x, c := 0, f := 0 }
  match adj G y with
  | [] => setAdj G y [reverseEdge]
  | e :: es =>
    if (e :: es).dropLast.any (fun q => q.y == x) then G
    else setAdj G y ((e :: es) ++ [reverseEdge])

/-- The loop `while(pointer!=NULL)` of lines 250–282 for vertex `x`; the
pointer is the index `j` into the current list of `x` (the list can grow
while it is walked). -/
def reverseInner (x : Nat) : Nat → Nat → GRAPH → Option GRAPH
  | 0, _, _ => none
  | fuel + 1, j, G =>
    match (adj G x)[j]? with
    | none => some G
    | some pointer =>
      if pointer.c = 0 then reverseInner x fuel (j + 1) G
      else reverseInner x fuel (j + 1) (addReverse G x pointer.y)

/-- The loop `for(int i=1;i<=G->V;i++)` of lines 245–283 over the given vertex ids. -/
def reverseOuter : List Nat → GRAPH → Option GRAPH
  | [], G => some G
  | i :: rest, G =>
    match reverseInner i (3 * (adj G i).length + 1) 0 G with
    | none => none
    | some G1 => reverseOuter rest G1

/-- The whole reverse-edge pass (lines 244–283). -/
def addReverseEdges (G : GRAPH) : Option GRAPH :=
  reverseOuter (List.range' 1 G.V) G

/-! ## Augmentation loop of `ComputeMaxFlow` (source lines 286–309) -/

/-- The walk `while (pointer->y != cur) pointer=pointer->next;` followed by
`pointer->f = pointer->f + d`; `none` when no node of the list points to `cur`. -/
def addFlow (cur : Nat) (d : Int) : List EDGE → Option (List EDGE)
  | [] => none
  | e :: es =>
    if e.y = cur then some ({ e with f := e.f + d } :: es)
    else (addFlow cur d es).map (fun r => e :: r)

/-- The loop `while (cur != s)` of lines 295–308, unrolled at most `fuel` times. -/
def augment (parent : List Int) (s : Nat) (newFlow : Int) : Nat → Nat → GRAPH → Option GRAPH
  | 0, _, _ => none
  | fuel + 1, cur, G =>
    if cur = s then some G
    else
      let prev := (parent.getD cur 0).toNat
      match addFlow cur newFlow (adj G prev) with
      | none => none
      | some L1 =>
        let G1 := setAdj G prev L1
        match addFlow prev (-newFlow) (adj G1 cur) with
        | none => none
        | some L2 => augment parent s newFlow fuel prev (setAdj G1 cur L2)

/-- The loop `while(newFlow = BFS(s,t,G,parent))` of lines 290–309, unrolled at
most `fuel` times; returns the network and `maxFlow` at loop exit. -/
def maxFlowLoop (s t : Nat) : Nat → GRAPH → List Int → Int → Option (GRAPH × Int)
  | 0, _, _, _ => none
  | fuel + 1, G, parent, maxFlow =>
    match BFS s t G parent with
    | none => none
    | some (newFlow, parent1) =>
      if newFlow = 0 then some (G, maxFlow)
      else
        match augment parent1 s newFlow (G.V + 1) t G with
        | none => none
        | some G1 => maxFlowLoop s t fuel G1 parent1 (maxFlow + newFlow)

/-- The function `ComputeMaxFlow`: returns the network it leaves behind and the
value of `maxFlow` it prints. -/
def ComputeMaxFlow (fuel : Nat) (G : GRAPH) (s t : Nat) : Option (GRAPH × Int) :=
  match addReverseEdges G with
  | none => none
  | some G1 => maxFlowLoop s t fuel G1 (List.replicate (G1.V + 1) 0) 0

/-! ## Need-based flow (source lines 353–441, 505–535) -/

/-- The sum `net_need` of lines 368–371 and 516–517. -/
def netNeed (G : GRAPH) : Int :=
  (List.range' 1 G.V).foldl (fun net_need i => wrapInt (net_need + need G i)) 0

/-- Lines 406–414 and 426–433: append `temp` at the tail of the list of vertex `u`. -/
def appendEdge (G : GRAPH) (u : Nat) (temp : EDGE) : GRAPH :=
  match adj G u with
  | [] => setAdj G u [temp]
  | e :: es => setAdj G u ((e :: es) ++ [temp])

/-- The loop of lines 393–435 over the given vertex ids. -/
def addNeedEdges (source sink : Nat) : List Nat → GRAPH → GRAPH
  | [], G => G
  | i :: rest, G =>
    if need G i = 0 then addNeedEdges source sink rest G
    else if need G i < 0 then
      addNeedEdges source sink rest
        (appendEdge G source { y := i, c := negInt (need G i), f := 0 })
    else
      addNeedEdges source sink rest (appendEdge G i { y := sink, c := need G i, f := 0 })

/-- Lines 376–390: `V` grows by two, `H` is reallocated to `V + 1` slots and
the two new slots are filled in. -/
def addTerminals (G : GRAPH) : GRAPH :=
  let V := G.V + 2
  let blank : VERTEX := { x := 0, n := 0, p := [] }
  let H := (G.H ++ List.replicate (V + 1 - G.H.length) blank).take (V + 1)
  let H := H.set (V - 1) { x := V - 1, n := 0, p := [] }
  let H := H.set V { x := V, n := 0, p := [] }
  { G with V := V, H := H }

/-- The network handed to `ComputeMaxFlow` on line 437. -/
def needNetwork (G : GRAPH) : GRAPH :=
  let G1 := addTerminals G
  addNeedEdges (G1.V - 1) G1.V (List.range' 1 G1.V) G1

/-- The function `NeedBasedFlow`: returns the network it leaves behind. -/
def NeedBasedFlow (fuel : Nat) (G : GRAPH) : Option GRAPH :=
  if netNeed G ≠ 0 then some G
  else
    let G1 := needNetwork G
    (ComputeMaxFlow fuel G1 (G1.V - 1) G1.V).map (fun r => r.1)

/-- The loops of lines 522–525 and 529–532: `false` as soon as a node has
`f != c`. -/
def allSaturated : List EDGE → Bool
  | [] => true
  | p :: rest => if p.f ≠ p.c then false else allSaturated rest

/-- The function `checkFeasibility`; the index `G->V-1` is a natural number
(for `V = 0` the C program would read `H[-1]`). -/
def checkFeasibility (G : GRAPH) : Int :=
  if netNeed G ≠ 0 then 0
  else if allSaturated (adj G (G.V - 1)) = false then 0
  else if allSaturated (adj G (G.V - 1)) = false then 0
  else 1

/-! ## Specification vocabulary -/

/-- The live items of the ring buffer, oldest first. -/
def Queue.items (q : Queue) : List Int :=
  (List.range q.size).map (fun i => q.array.getD ((q.front + i) % q.capacity) 0)

/-- Representation invariant of the ring buffer. -/
def Queue.WF (q : Queue) : Prop :=
  0 < q.capacity ∧ q.array.length = q.capacity ∧ q.size ≤ q.capacity ∧
  q.front < q.capacity ∧ (q.rear + 1) % q.capacity = (q.front + q.size) % q.capacity

/-- The first node of a list that points to `v`: the node at which the walks
of lines 300 and 304 stop. -/
def firstEdge (L : List EDGE) (v : Nat) : Option EDGE :=
  L.find? (fun e => e.y == v)

/-- Flow on the first edge `u → v` of the network (zero when there is none). -/
def Fl (G : GRAPH) (u v : Nat) : Int :=
  match firstEdge (adj G u) v with
  | some e => e.f
  | none => 0

/-- Capacity of the first edge `u → v` of the network (zero when there is none). -/
def Cp (G : GRAPH) (u v : Nat) : Int :=
  match firstEdge (adj G u) v with
  | some e => e.c
  | none => 0

/-- Every node that is not the first of its list to point to its endpoint has
capacity and flow zero. -/
def DupInert (L : List EDGE) : Prop :=
  L.Pairwise (fun a b => a.y = b.y → b.c = 0 ∧ b.f = 0)

/-- Two networks with the same vertices, needs, and the same endpoints and
capacities along every adjacency list (only flows may differ). -/
structure SameShape (G G1 : GRAPH) : Prop where
  V : G1.V = G.V
  E : G1.E = G.E
  len : G1.H.length = G.H.length
  need : ∀ u, need G1 u = need G u
  ys : ∀ u, (adj G1 u).map EDGE.y = (adj G u).map EDGE.y
  cs : ∀ u, (adj G1 u).map EDGE.c = (adj G u).map EDGE.c

/-- Change of the first-edge flow on `u → v` when `b` is pushed along the
chain `cur, prev, …` walked by the loop of lines 295–308. -/
def pathDelta (b : Int) : List Nat → Nat → Nat → Int
  | [], _, _ => 0
  | [_], _, _ => 0
  | cur :: prev :: rest, u, v =>
    (if u = prev ∧ v = cur then b else 0) - (if u = cur ∧ v = prev then b else 0)
      + pathDelta b (prev :: rest) u v

/-- The chain `cur, parent[cur], parent[parent[cur]], …, s` read off the
`parent` array, along which every link `prev → cur` and its companion
`cur → prev` are present in the adjacency lists. -/
inductive ParentChain (G : GRAPH) (parent : List Int) (s : Nat) : List Nat → Prop
  | base : ParentChain G parent s [s]
  | step {cur prev : Nat} {rest : List Nat} :
      cur ≠ s → prev ≠ cur → parent.getD cur 0 = (prev : Int) →
      (∃ e ∈ adj G prev, e.y = cur) → (∃ e ∈ adj G cur, e.y = prev) →
      ParentChain G parent s (prev :: rest) → ParentChain G parent s (cur :: prev :: rest)

/-- The chain `u, parent[u], …, s` of vertices discovered by `BFS`, none of
them the sink, every link `prev → cur` having first-edge residual capacity at
least `b`. -/
inductive BfsChain (G : GRAPH) (parent : List Int) (s t : Nat) (b : Int) : List Nat → Prop
  | base : BfsChain G parent s t b [s]
  | step {cur prev : Nat} {rest : List Nat} :
      cur ≠ s → cur ≠ t → 1 ≤ cur → cur ≤ G.V → parent.getD cur 0 = (prev : Int) →
      b ≤ Cp G prev cur - Fl G prev cur → cur ∉ prev :: rest →
      BfsChain G parent s t b (prev :: rest) → BfsChain G parent s t b (cur :: prev :: rest)

/-- An edge of a scanned vertex has been dealt with: if the residual capacity
computed on line 481 is positive, its endpoint is discovered (or, for the
sink, a positive bottleneck is recorded). -/
def Handled (t : Nat) (st : BFSState) (e : EDGE) : Prop :=
  0 < wrapInt (e.c - e.f) →
    (e.y = t ∧ 0 < st.maxFlow_path) ∨ (e.y ≠ t ∧ st.parent.getD e.y 0 ≠ -1)

/-- Termination measure of the outer loop of `BFS`: queued vertices plus
undiscovered slots of `parent`. -/
def bfsMeasure (st : BFSState) : Nat :=
  st.vertexQueue.size + st.parent.count (-1)

/-- Standing assumptions on the network handed to `BFS`: `H` has `V + 1`
slots, endpoints are vertex ids, duplicate edges are inert, no difference
`c - f` lies below `INT_MIN`, the vertex count is within the range the queues
can serve, and `s ≠ t` are vertex ids. -/
structure BfsCtx (G : GRAPH) (s t : Nat) : Prop where
  hlen : G.H.length = G.V + 1
  hrange : ∀ u, 1 ≤ u → u ≤ G.V → ∀ e ∈ adj G u, 1 ≤ e.y ∧ e.y ≤ G.V
  hinert : ∀ u, 1 ≤ u → u ≤ G.V → DupInert (adj G u)
  hres : ∀ u, 1 ≤ u → u ≤ G.V → ∀ e ∈ adj G u, INT_MIN ≤ e.c - e.f
  hV : G.V ≤ MAX + 2
  hs : 1 ≤ s ∧ s ≤ G.V
  ht : 1 ≤ t ∧ t ≤ G.V
  hst : s ≠ t

/-- Invariant of the augmentation loop of `ComputeMaxFlow`, in terms of the
first-edge flow `Fl` and capacity `Cp`: the flow is skew-symmetric, bounded
by the capacity (by `0` on an edge of negative capacity, which is never used),
no capacity lies below `INT_MIN`, every used edge has a companion, and the net
outflow of a vertex is `m` at the source, `-m` at the sink and `0` elsewhere. -/
structure FlowInv (G : GRAPH) (s t : Nat) (m : Int) : Prop where
  hlen : G.H.length = G.V + 1
  hrange : ∀ u, 1 ≤ u → u ≤ G.V → ∀ e ∈ adj G u, 1 ≤ e.y ∧ e.y ≤ G.V
  hinert : ∀ u, 1 ≤ u → u ≤ G.V → DupInert (adj G u)
  skew : ∀ u v, 1 ≤ u → u ≤ G.V → 1 ≤ v → v ≤ G.V → Fl G u v = - Fl G v u
  cap : ∀ u v, 1 ≤ u → u ≤ G.V → 1 ≤ v → v ≤ G.V → Fl G u v ≤ max (Cp G u v) 0
  low : ∀ u v, 1 ≤ u → u ≤ G.V → 1 ≤ v → v ≤ G.V → INT_MIN ≤ Cp G u v
  comp : ∀ u v, 1 ≤ u → u ≤ G.V → 1 ≤ v → v ≤ G.V → (Cp G u v ≠ 0 ∨ Fl G u v ≠ 0) →
    ∃ e ∈ adj G v, e.y = u
  cons : ∀ u, 1 ≤ u → u ≤ G.V →
    ∑ v ∈ Finset.Icc 1 G.V, Fl G u v = if u = s then m else if u = t then -m else 0
  sinkOut : ∀ v, 1 ≤ v → v ≤ G.V → Fl G t v ≤ 0
  srcOut : ∀ v, 1 ≤ v → v ≤ G.V → 0 ≤ Fl G s v

/-- A set of vertices that contains `s`, not `t`, and is closed under the
edges that `BFS` follows (those for which line 481 computes a positive
residual capacity): the witness that `BFS` cannot reach `t`. -/
def ResidualCut (G : GRAPH) (s t : Nat) (S : Finset Nat) : Prop :=
  s ∈ S ∧ t ∉ S ∧ (∀ u ∈ S, 1 ≤ u ∧ u ≤ G.V) ∧
    ∀ u ∈ S, ∀ e ∈ adj G u, 0 < wrapInt (e.c - e.f) → e.y ∈ S

/-- The network and `maxFlow` after exactly `n` augmentations of the loop of
lines 290–309 (`none` when the loop stops earlier). -/
def afterAugmentations (s t : Nat) : Nat → GRAPH → List Int → Int → Option (GRAPH × Int)
  | 0, G, _, maxFlow => some (G, maxFlow)
  | n + 1, G, parent, maxFlow =>
    match BFS s t G parent with
    | none => none
    | some (newFlow, parent1) =>
      if newFlow = 0 then none
      else
        match augment parent1 s newFlow (G.V + 1) t G with
        | none => none
        | some G1 => afterAugmentations s t n G1 parent1 (maxFlow + newFlow)

/-- The network `G1` is `G` with zero-capacity, zero-flow edges appended to
some adjacency lists, each of them `(x, 0, 0)` in the list of `y` for an edge
`x → y` of non-zero capacity of `G` (what the reverse-edge pass does). -/
structure Ext (G G1 : GRAPH) : Prop where
  V : G1.V = G.V
  E : G1.E = G.E
  len : G1.H.length = G.H.length
  need : ∀ u, need G1 u = need G u
  app : ∀ u, ∃ ext, adj G1 u = adj G u ++ ext ∧
    ∀ e ∈ ext, e.c = 0 ∧ e.f = 0 ∧ 1 ≤ e.y ∧ e.y ≤ G.V ∧
      ∃ e0 ∈ adj G e.y, e0.y = u ∧ e0.c ≠ 0

/-- Termination measure of the walk of `reverseInner` at index `j`. -/
def reverseMeasure (G : GRAPH) (x j : Nat) : Nat :=
  2 * ((adj G x).drop j).countP (fun e => e.c ≠ 0) + ((adj G x).length - j)

/-- A network as the loader is meant to deliver it: `H` has `V + 1` slots and,
for every vertex `1..V`, every edge has its endpoint in `1..V`, a capacity
`≥ 0` and flow `0`, and no two edges of one list share their endpoint. -/
def WellFormed (G : GRAPH) : Prop :=
  G.H.length = G.V + 1 ∧
  ∀ u ∈ List.range' 1 G.V,
    (∀ e ∈ adj G u, 1 ≤ e.y ∧ e.y ≤ G.V ∧ 0 ≤ e.c ∧ e.f = 0) ∧ ((adj G u).map EDGE.y).Nodup

/-- A valid network: well formed, with at most `10000` vertices. -/
def ValidNetwork (G : GRAPH) : Prop :=
  WellFormed G ∧ G.V ≤ 10000

instance (G : GRAPH) : Decidable (WellFormed G) := by
  unfold WellFormed; infer_instance

/-- A network on which the augmentation loop keeps its invariant: as a
well-formed network, except that a capacity may be negative, down to `INT_MIN`
(the capacity that line 402 gives to the edge of a producer of need
`INT_MIN`). -/
def Runnable (G : GRAPH) : Prop :=
  G.H.length = G.V + 1 ∧
  ∀ u ∈ List.range' 1 G.V,
    (∀ e ∈ adj G u, 1 ≤ e.y ∧ e.y ≤ G.V ∧ INT_MIN ≤ e.c ∧ e.f = 0) ∧
      ((adj G u).map EDGE.y).Nodup

instance (G : GRAPH) : Decidable (Runnable G) := by
  unfold Runnable; infer_instance

instance (G : GRAPH) : Decidable (ValidNetwork G) := by
  unfold ValidNetwork; infer_instance

/-- The network and `maxFlow` of `ComputeMaxFlow(G, s, t)` after the
reverse-edge pass and exactly `n` augmentations (`none` when the loop stops
earlier). -/
def augmentedState (G : GRAPH) (s t n : Nat) : Option (GRAPH × Int) :=
  match addReverseEdges G with
  | none => none
  | some G0 => afterAugmentations s t n G0 (List.replicate (G0.V + 1) 0) 0

/-- The edges of vertex `u` that `PrintGraph` shows (line 214): those of
positive capacity. -/
def shown (G : GRAPH) (u : Nat) : List EDGE :=
  (adj G u).filter (fun e => 0 < e.c)

/-- Total flow on the shown edges leaving `u`. -/
def outFlow (G : GRAPH) (u : Nat) : Int :=
  ((shown G u).map EDGE.f).sum

/-- Total flow on the shown edges entering `v`. -/
def inFlow (G : GRAPH) (v : Nat) : Int :=
  ((List.range' 1 G.V).map
    (fun u => (((shown G u).filter (fun e => e.y = v)).map EDGE.f).sum)).sum

/-- No two distinct vertices are joined by edges of positive capacity in both
directions. -/
def NoAntiparallel (G : GRAPH) : Prop :=
  ∀ u ∈ List.range' 1 G.V, ∀ e ∈ adj G u, 0 < e.c → e.y ≠ u →
    ∀ e1 ∈ adj G e.y, e1.y = u → e1.c ≤ 0

instance (G : GRAPH) : Decidable (NoAntiparallel G) := by
  unfold NoAntiparallel; infer_instance

/-- An `s`-`t` flow on the edges of the network: `0 ≤ g u v ≤ capacity` (so
`g` vanishes where there is no edge) and inflow equals outflow at every vertex
other than `s` and `t`. -/
def IsFlow (G : GRAPH) (s t : Nat) (g : Nat → Nat → Int) : Prop :=
  (∀ u ∈ Finset.Icc 1 G.V, ∀ v ∈ Finset.Icc 1 G.V, 0 ≤ g u v ∧ g u v ≤ Cp G u v) ∧
  ∀ v ∈ Finset.Icc 1 G.V, v ≠ s → v ≠ t →
    ∑ u ∈ Finset.Icc 1 G.V, g u v = ∑ w ∈ Finset.Icc 1 G.V, g v w

instance (G : GRAPH) (s t : Nat) (g : Nat → Nat → Int) : Decidable (IsFlow G s t g) := by
  unfold IsFlow; infer_instance

/-- Value of a flow: what leaves `s` minus what enters `s`. -/
def flowValue (G : GRAPH) (s : Nat) (g : Nat → Nat → Int) : Int :=
  ∑ v ∈ Finset.Icc 1 G.V, g s v - ∑ u ∈ Finset.Icc 1 G.V, g u s

/-- An `s`-`t` cut: a set of vertices containing `s` and not `t`. -/
def IsCut (G : GRAPH) (s t : Nat) (S : Finset Nat) : Prop :=
  S ⊆ Finset.Icc 1 G.V ∧ s ∈ S ∧ t ∉ S

/-- Capacity of a cut: total capacity of the edges leaving `S`. -/
def cutCapacity (G : GRAPH) (S : Finset Nat) : Int :=
  ∑ u ∈ S, ∑ v ∈ Finset.Icc 1 G.V \ S, Cp G u v

/-- The number `m` is the maximum value of an `s`-`t` flow. -/
def IsMaxFlowValue (G : GRAPH) (s t : Nat) (m : Int) : Prop :=
  (∃ g, IsFlow G s t g ∧ flowValue G s g = m) ∧ ∀ g, IsFlow G s t g → flowValue G s g ≤ m

/-- The number `m` is the minimum capacity of an `s`-`t` cut. -/
def IsMinCutCapacity (G : GRAPH) (s t : Nat) (m : Int) : Prop :=
  (∃ S, IsCut G s t S ∧ cutCapacity G S = m) ∧ ∀ S, IsCut G s t S → m ≤ cutCapacity G S

/-- The synthetic edges out of the super-source: one edge `(i, -need i, 0)`
for every producer `i` among `ids`, in order (with the negation of line 402). -/
def producerEdges (G : GRAPH) (ids : List Nat) : List EDGE :=
  ids.filterMap
    (fun i => if need G i < 0 then some { y := i, c := negInt (need G i), f := 0 } else none)

/-- The synthetic edge out of vertex `u` into the super-sink `sink`, present
when `u` is among `ids` and is a consumer. -/
def consumerEdge (G : GRAPH) (sink : Nat) (ids : List Nat) (u : Nat) : List EDGE :=
  if u ∈ ids ∧ 0 < need G u then [{ y := sink, c := need G u, f := 0 }] else []

/-- A flow on the edges of the network that meets every need: `0 ≤ g u v ≤
capacity`, and at every vertex inflow minus outflow equals its need. -/
def FeasibleFlow (G : GRAPH) (g : Nat → Nat → Int) : Prop :=
  (∀ u ∈ Finset.Icc 1 G.V, ∀ v ∈ Finset.Icc 1 G.V, 0 ≤ g u v ∧ g u v ≤ Cp G u v) ∧
  ∀ v ∈ Finset.Icc 1 G.V,
    ∑ u ∈ Finset.Icc 1 G.V, g u v - ∑ w ∈ Finset.Icc 1 G.V, g v w = need G v

instance (G : GRAPH) (g : Nat → Nat → Int) : Decidable (FeasibleFlow G g) := by
  unfold FeasibleFlow; infer_instance

/-- The walk `cur, parent[cur], parent[parent[cur]], …` of lines 295–308 back
to `s`, at most `fuel` vertices long. -/
def parentWalk (parent : List Int) (s : Nat) : Nat → Nat → Option (List Nat)
  | 0, _ => none
  | fuel + 1, cur =>
    if cur = s then some [s]
    else (parentWalk parent s fuel (parent.getD cur 0).toNat).map (fun r => cur :: r)

/-- One step along an edge of positive residual capacity. -/
def ResidualStep (G : GRAPH) (u v : Nat) : Prop :=
  ∃ e ∈ adj G u, e.y = v ∧ 0 < e.c - e.f

/-- One step along an edge that `BFS` follows: the residual capacity computed
on line 481 is positive. -/
def UsableStep (G : GRAPH) (u v : Nat) : Prop :=
  ∃ e ∈ adj G u, e.y = v ∧ 0 < wrapInt (e.c - e.f)

/-- The chain `u, parent[u], …, s` of vertices discovered by `BFS`, none of
them the sink, together with the bottleneck that `BFS` carries for `u`:
`INT_MAX` at the source and, at every link `prev → cur` discovered through the
edge `e`, the smaller of the bottleneck of `prev` and the residual capacity
computed for `e` on line 481 (line 494). -/
inductive Trail (G : GRAPH) (parent : List Int) (s t : Nat) : List Nat → Int → Prop
  | base : Trail G parent s t [s] INT_MAX
  | step {cur prev : Nat} {rest : List Nat} {b : Int} {e : EDGE} :
      cur ≠ s → cur ≠ t → 1 ≤ cur → cur ≤ G.V → parent.getD cur 0 = (prev : Int) →
      e ∈ adj G prev → e.y = cur → 0 < wrapInt (e.c - e.f) → cur ∉ prev :: rest →
      Trail G parent s t (prev :: rest) b →
      Trail G parent s t (cur :: prev :: rest)
        (if b < wrapInt (e.c - e.f) then b else wrapInt (e.c - e.f))

/-- Standing assumptions on a call `BFS(s, t)`: `H` has `V + 1` slots, the
endpoints of the edges of the vertices `1..V` are vertex ids, `V` is within
the range the queues can serve (`MAX + 2` when `t` is a vertex id, which is
never enqueued, `MAX + 1` otherwise), and `s` is a vertex id other than `t`. -/
structure SearchCtx (G : GRAPH) (s t : Nat) : Prop where
  hlen : G.H.length = G.V + 1
  hrange : ∀ u, 1 ≤ u → u ≤ G.V → ∀ e ∈ adj G u, 1 ≤ e.y ∧ e.y ≤ G.V
  hV : G.V ≤ MAX + 2
  hVt : ¬ (1 ≤ t ∧ t ≤ G.V) → G.V ≤ MAX + 1
  hs : 1 ≤ s ∧ s ≤ G.V
  hst : s ≠ t

/-- Loop invariant of `BFS` on an arbitrary network state, while the adjacency
list of `cv` is being scanned with bottleneck `cf` and the edges `es` are still
to be visited; at the head of the outer loop `es = []`. -/
structure SearchInv (G : GRAPH) (s t : Nat) (cv : Nat) (cf : Int) (es : List EDGE)
    (st : BFSState) : Prop where
  plen : st.parent.length = G.V + 1
  ps : st.parent.getD s 0 = 0
  vqWF : st.vertexQueue.WF
  fqWF : st.flowQueue.WF
  vqcap : st.vertexQueue.capacity = MAX
  fqcap : st.flowQueue.capacity = MAX
  qs : List.Forall₂ (fun (v f : Int) => ∃ u : Nat, v = (u : Int) ∧ 1 ≤ u ∧ u ≤ G.V ∧ u ≠ t ∧
        ∃ rest, Trail G st.parent s t (u :: rest) f)
        st.vertexQueue.items st.flowQueue.items
  nodup : st.vertexQueue.items.Nodup
  cvq : (cv : Int) ∉ st.vertexQueue.items
  cvr : 1 ≤ cv ∧ cv ≤ G.V ∧ cv ≠ t
  cvc : ∃ rest, Trail G st.parent s t (cv :: rest) cf
  handled : ∀ u, 1 ≤ u → u ≤ G.V → u ≠ t → st.parent.getD u 0 ≠ -1 →
      (u : Int) ∉ st.vertexQueue.items → ∀ e ∈ adj G u, Handled t st e ∨ (u = cv ∧ e ∈ es)
  sink : 0 ≤ st.maxFlow_path ∧ (0 < st.maxFlow_path →
      ∃ (p : Nat) (rest : List Nat) (b : Int) (e : EDGE),
        st.parent.getD t 0 = (p : Int) ∧ Trail G st.parent s t (p :: rest) b ∧
        e ∈ adj G p ∧ e.y = t ∧
        st.maxFlow_path = (if b < wrapInt (e.c - e.f) then b else wrapInt (e.c - e.f)))

/-- The calls `enqueue(vertexQueue, nextVertex)`, `enqueue(flowQueue, newFlow)`
of lines 495–496 made while the inner loop of `BFS` walks the given list: for
each pair of calls the two queues as they are when called and the vertex. -/
def bfsScanCalls (t : Nat) (currentVertex currentFlow : Int) :
    List EDGE → BFSState → List (Queue × Queue × Nat)
  | [], _ => []
  | pointer :: rest, st =>
    (if pointer.y ≠ t ∧ st.parent.getD pointer.y 0 = -1 ∧
          wrapInt (pointer.c - pointer.f) > 0 then
        [(st.vertexQueue, st.flowQueue, pointer.y)]
      else []) ++
      bfsScanCalls t currentVertex currentFlow rest
        (bfsScan t currentVertex currentFlow [pointer] st)

/-- The calls of `enqueue` made by the outer loop of `BFS` from the given state. -/
def bfsLoopCalls (G : GRAPH) (t : Nat) : Nat → BFSState → List (Queue × Queue × Nat)
  | 0, _ => []
  | fuel + 1, st =>
    if isEmpty st.vertexQueue then []
    else
      let dv := dequeue st.vertexQueue
      let df := dequeue st.flowQueue
      bfsScanCalls t dv.1 df.1 (adj G dv.1.toNat)
          { st with vertexQueue := dv.2, flowQueue := df.2 } ++
        bfsLoopCalls G t fuel
          (bfsScan t dv.1 df.1 (adj G dv.1.toNat)
            { st with vertexQueue := dv.2, flowQueue := df.2 })

/-- All calls of `enqueue` made by `BFS(s, t)`, in order, starting with those
of lines 468–469 on the empty queues. -/
def bfsCalls (s t : Nat) (G : GRAPH) : List (Queue × Queue × Nat) :=
  if s = t then []
  else (createQueue MAX, createQueue MAX, s) :: bfsLoopCalls G t (G.V + 2) (bfsInit G s)

/-- What is shown of a list of `enqueue` calls: no vertex occurs twice, and
every vertex is a vertex id other than the sink that is undiscovered in
`parent`, and is passed to queues that hold fewer than `V` items and are not
full. -/
def CallsOK (G : GRAPH) (t : Nat) (parent : List Int) (calls : List (Queue × Queue × Nat)) :
    Prop :=
  (calls.map (fun c => c.2.2)).Nodup ∧
  ∀ c ∈ calls, c.2.2 ≠ t ∧ parent.getD c.2.2 0 = -1 ∧ c.1.size < G.V ∧
    c.2.1.size < G.V ∧ isFull c.1 = false ∧ isFull c.2.1 = false

/-- A network state on which `BFS` can be run: `H` has `V + 1` slots, there
are at most `10000` vertices, and every edge of a vertex `1..V` has its
endpoint in `1..V`. -/
def SearchState (G : GRAPH) : Prop :=
  G.H.length = G.V + 1 ∧ G.V ≤ 10000 ∧
  ∀ u ∈ List.range' 1 G.V, ∀ e ∈ adj G u, 1 ≤ e.y ∧ e.y ≤ G.V

instance (G : GRAPH) : Decidable (SearchState G) := by
  unfold SearchState; infer_instance

/-- No vertex `1..V` has two outgoing edges to the same destination. -/
def NoParallel (G : GRAPH) : Prop :=
  ∀ u ∈ List.range' 1 G.V, ((adj G u).map EDGE.y).Nodup

instance (G : GRAPH) : Decidable (NoParallel G) := by
  unfold NoParallel; infer_instance

/-- Every residual capacity `c - f` is a value of the C type `int`, as the
variable `residualCapacity` of line 481 that holds it: it lies between
`INT_MIN` and `INT_MAX`, so that line 481 computes it without overflow. -/
def ResidualsFit (G : GRAPH) : Prop :=
  ∀ u ∈ List.range' 1 G.V, ∀ e ∈ adj G u, INT_MIN ≤ e.c - e.f ∧ e.c - e.f ≤ INT_MAX

instance (G : GRAPH) : Decidable (ResidualsFit G) := by
  unfold ResidualsFit; infer_instance

/-- No capacity exceeds `INT_MAX`, and the capacities of two opposite edges
`u → v`, `v → u` add up to at most `INT_MAX`: then no residual capacity `c - f`
met by `ComputeMaxFlow` leaves the range of `int`. -/
def CapacitiesFit (G : GRAPH) : Prop :=
  ∀ u ∈ List.range' 1 G.V, ∀ v ∈ List.range' 1 G.V,
    Cp G u v ≤ INT_MAX ∧ (u ≠ v → Cp G u v + Cp G v u ≤ INT_MAX)

instance (G : GRAPH) : Decidable (CapacitiesFit G) := by
  unfold CapacitiesFit; infer_instance

/-- Every need lies above `INT_MIN` and is at most `INT_MAX`, so that the
negation of line 402 stays in the range of `int`, and the sum `net_need` of
lines 368–371 is zero only if the needs sum to zero (they do not sum to a
non-zero multiple of `2^32`). -/
def NeedsFit (G : GRAPH) : Prop :=
  (∀ i ∈ List.range' 1 G.V, INT_MIN < need G i ∧ need G i ≤ INT_MAX) ∧
  (wrapInt (∑ i ∈ Finset.Icc 1 G.V, need G i) = 0 → ∑ i ∈ Finset.Icc 1 G.V, need G i = 0)

instance (G : GRAPH) : Decidable (NeedsFit G) := by
  unfold NeedsFit; infer_instance

/-- The residual capacities `c - f` of the edges `parent[v] → v` along a chain
`v, parent[v], parent[parent[v]], …`. -/
def chainResiduals (G : GRAPH) : List Nat → List Int
  | [] => []
  | [_] => []
  | cur :: prev :: rest =>
    ((adj G prev).filter (fun e => e.y = cur)).map (fun e => e.c - e.f) ++
      chainResiduals G (prev :: rest)

/-! ## Fixtures -/

/-- Scenario 1 of the specification: two vertices and the edge `1 → 2` of capacity 5. -/
def scenario1 : GRAPH :=
  { V := 2, E := 1,
    H := [⟨0, 0, []⟩, ⟨1, 0, [⟨2, 5, 0⟩]⟩, ⟨2, 0, []⟩] }

/-- Scenario 2 of the specification: the diamond `1 → 2` (3), `1 → 3` (2),
`2 → 4` (2), `3 → 4` (3). -/
def scenario2 : GRAPH :=
  { V := 4, E := 4,
    H := [⟨0, 0, []⟩, ⟨1, 0, [⟨2, 3, 0⟩, ⟨3, 2, 0⟩]⟩, ⟨2, 0, [⟨4, 2, 0⟩]⟩,
          ⟨3, 0, [⟨4, 3, 0⟩]⟩, ⟨4, 0, []⟩] }

/-- Scenario 5 of the specification: a producer and a consumer with no edge
between them (needs `[-5, 5]`). -/
def scenario5 : GRAPH :=
  { V := 2, E := 0,
    H := [⟨0, 0, []⟩, ⟨1, -5, []⟩, ⟨2, 5, []⟩] }

/-- Two antiparallel edges of positive capacity: `1 → 2` (capacity 5) and
`2 → 1` (capacity 3). -/
def antiparallel : GRAPH :=
  { V := 2, E := 2,
    H := [⟨0, 0, []⟩, ⟨1, 0, [⟨2, 5, 0⟩]⟩, ⟨2, 0, [⟨1, 3, 0⟩]⟩] }

/-- Scenario 3 of the specification: needs `[-5, 3, 2]`, edges `1 → 2`
(capacity 3) and `1 → 3` (capacity 2). -/
def scenario3 : GRAPH :=
  { V := 3, E := 2,
    H := [⟨0, 0, []⟩, ⟨1, -5, [⟨2, 3, 0⟩, ⟨3, 2, 0⟩]⟩, ⟨2, 3, []⟩, ⟨3, 2, []⟩] }

/-- Scenario 4 of the specification: needs `[-5, 3, 1]`, which do not sum to zero. -/
def scenario4 : GRAPH :=
  { V := 3, E := 2,
    H := [⟨0, 0, []⟩, ⟨1, -5, [⟨2, 3, 0⟩, ⟨3, 2, 0⟩]⟩, ⟨2, 3, []⟩, ⟨3, 1, []⟩] }

/-- The network left by `ComputeMaxFlow(antiparallel, 1, 2)`. -/
def antiparallelFinal : GRAPH :=
  { V := 2, E := 2,
    H := [⟨0, 0, []⟩, ⟨1, 0, [⟨2, 5, 5⟩, ⟨2, 0, 0⟩]⟩, ⟨2, 0, [⟨1, 3, -5⟩, ⟨1, 0, 0⟩]⟩] }

/-- The network of scenario 1 after one augmentation. -/
def scenario1Final : GRAPH :=
  { V := 2, E := 1,
    H := [⟨0, 0, []⟩, ⟨1, 0, [⟨2, 5, 5⟩]⟩, ⟨2, 0, [⟨1, 0, -5⟩]⟩] }

/-- A direct edge `1 → 3` of capacity 1 and a detour `1 → 2 → 3` of capacity 10. -/
def detour : GRAPH :=
  { V := 3, E := 3,
    H := [⟨0, 0, []⟩, ⟨1, 0, [⟨3, 1, 0⟩, ⟨2, 10, 0⟩]⟩, ⟨2, 0, [⟨3, 10, 0⟩]⟩, ⟨3, 0, []⟩] }

/-- The network `detour` after the reverse-edge pass. -/
def detourResidual : GRAPH :=
  { V := 3, E := 3,
    H := [⟨0, 0, []⟩, ⟨1, 0, [⟨3, 1, 0⟩, ⟨2, 10, 0⟩]⟩, ⟨2, 0, [⟨3, 10, 0⟩, ⟨1, 0, 0⟩]⟩,
          ⟨3, 0, [⟨1, 0, 0⟩, ⟨2, 0, 0⟩]⟩] }

/-- Scenario 1 after the reverse-edge pass. -/
def scenario1Residual : GRAPH :=
  { V := 2, E := 1,
    H := [⟨0, 0, []⟩, ⟨1, 0, [⟨2, 5, 0⟩]⟩, ⟨2, 0, [⟨1, 0, 0⟩]⟩] }

/-- A valid network on seven vertices in which the capacities of the opposite
edges `2 → 3` (capacity 2) and `3 → 2` (capacity 2147483647) add up to more
than `INT_MAX`; the vertices 6 and 7 are isolated. -/
def cancel : GRAPH :=
  { V := 7, E := 7,
    H := [⟨0, 0, []⟩, ⟨1, 0, [⟨2, 2, 0⟩, ⟨5, 1, 0⟩]⟩, ⟨2, 0, [⟨3, 2, 0⟩, ⟨4, 1, 0⟩]⟩,
          ⟨3, 0, [⟨2, 2147483647, 0⟩, ⟨4, 2, 0⟩]⟩, ⟨4, 0, []⟩, ⟨5, 0, [⟨3, 1, 0⟩]⟩,
          ⟨6, 0, []⟩, ⟨7, 0, []⟩] }

/-- The network left by `ComputeMaxFlow(cancel, 1, 4)`. -/
def cancelFinal : GRAPH :=
  { V := 7, E := 7,
    H := [⟨0, 0, []⟩, ⟨1, 0, [⟨2, 2, 2⟩, ⟨5, 1, 0⟩]⟩,
          ⟨2, 0, [⟨3, 2, 2⟩, ⟨4, 1, 0⟩, ⟨1, 0, -2⟩]⟩,
          ⟨3, 0, [⟨2, 2147483647, -2⟩, ⟨4, 2, 2⟩, ⟨5, 0, 0⟩]⟩,
          ⟨4, 0, [⟨2, 0, 0⟩, ⟨3, 0, -2⟩]⟩, ⟨5, 0, [⟨3, 1, 0⟩, ⟨1, 0, 0⟩]⟩,
          ⟨6, 0, []⟩, ⟨7, 0, []⟩] }

/-- A flow of value 3 from 1 to 4 on the network `cancel`: one unit along each
of `1 → 2 → 4`, `1 → 2 → 3 → 4` and `1 → 5 → 3 → 4`. -/
def cancelFlow (u v : Nat) : Int :=
  if u = 1 ∧ v = 2 then 2
  else if u = 1 ∧ v = 5 then 1
  else if u = 2 ∧ v = 3 then 1
  else if u = 2 ∧ v = 4 then 1
  else if u = 3 ∧ v = 4 then 2
  else if u = 5 ∧ v = 3 then 1
  else 0

/-- Two vertices joined by the edges `1 → 2` of capacity 2147483647 and
`2 → 1` of capacity 5. -/
def big : GRAPH :=
  { V := 2, E := 2,
    H := [⟨0, 0, []⟩, ⟨1, 0, [⟨2, 2147483647, 0⟩]⟩, ⟨2, 0, [⟨1, 5, 0⟩]⟩] }

/-- The network left by `ComputeMaxFlow(big, 2, 1)`: the edge `1 → 2` has
capacity 2147483647 and flow -5. -/
def bigFinal : GRAPH :=
  { V := 2, E := 2,
    H := [⟨0, 0, []⟩, ⟨1, 0, [⟨2, 2147483647, -5⟩, ⟨2, 0, 0⟩]⟩,
          ⟨2, 0, [⟨1, 5, 5⟩, ⟨1, 0, 0⟩]⟩] }

/-- Three vertices without edges whose needs 2147483647, 2147483647 and 2 add
up to `2^32`. -/
def wrapNeeds : GRAPH :=
  { V := 3, E := 0,
    H := [⟨0, 0, []⟩, ⟨1, 2147483647, []⟩, ⟨2, 2147483647, []⟩, ⟨3, 2, []⟩] }

/-- The network left by `NeedBasedFlow(wrapNeeds)`. -/
def wrapNeedsFinal : GRAPH :=
  { V := 5, E := 0,
    H := [⟨0, 0, []⟩, ⟨1, 2147483647, [⟨5, 2147483647, 0⟩]⟩,
          ⟨2, 2147483647, [⟨5, 2147483647, 0⟩]⟩, ⟨3, 2, [⟨5, 2, 0⟩]⟩, ⟨4, 0, []⟩,
          ⟨5, 0, [⟨1, 0, 0⟩, ⟨2, 0, 0⟩, ⟨3, 0, 0⟩]⟩] }

/-- Three vertices without edges with the needs -2147483648, 2147483647 and 1,
which sum to zero. -/
def minNeed : GRAPH :=
  { V := 3, E := 0,
    H := [⟨0, 0, []⟩, ⟨1, -2147483648, []⟩, ⟨2, 2147483647, []⟩, ⟨3, 1, []⟩] }

/-- A producer of need -2147483648 with edges of capacity 1073741824 to two
consumers of need 1073741824 each. -/
def minProducer : GRAPH :=
  { V := 3, E := 2,
    H := [⟨0, 0, []⟩, ⟨1, -2147483648, [⟨2, 1073741824, 0⟩, ⟨3, 1073741824, 0⟩]⟩,
          ⟨2, 1073741824, []⟩, ⟨3, 1073741824, []⟩] }

/-- The flow on `minProducer` that meets every need. -/
def minProducerFlow (u v : Nat) : Int :=
  if u = 1 ∧ (v = 2 ∨ v = 3) then 1073741824 else 0

/-- Producers 1 and 2 and consumers 3 and 4 of one unit each, with the edges
`1 → 4`, `1 → 3`, `2 → 4` of capacity 1 and the edge `4 → 1` of capacity
2147483647. -/
def crossing : GRAPH :=
  { V := 4, E := 4,
    H := [⟨0, 0, []⟩, ⟨1, -1, [⟨4, 1, 0⟩, ⟨3, 1, 0⟩]⟩, ⟨2, -1, [⟨4, 1, 0⟩]⟩, ⟨3, 1, []⟩,
          ⟨4, 1, [⟨1, 2147483647, 0⟩]⟩] }

/-- The flow on `crossing` that meets every need: `1 → 3` and `2 → 4`. -/
def crossingFlow (u v : Nat) : Int :=
  if (u = 1 ∧ v = 3) ∨ (u = 2 ∧ v = 4) then 1 else 0

/-! ## Ring-buffer queue: abstraction to the list of live items -/

theorem Queue.items_length (q : Queue) : q.items.length = q.size := by
  simp [Queue.items]

theorem createQueue_WF {cap : Nat} (h : 0 < cap) : (createQueue cap).WF := by
  refine ⟨h, by simp [createQueue], by simp [createQueue], h, ?_⟩
  simp only [createQueue]
  have : cap - 1 + 1 = cap := by omega
  rw [this]; simp

theorem createQueue_items (cap : Nat) : (createQueue cap).items = [] := by
  simp [createQueue, Queue.items]

theorem createQueue_capacity (cap : Nat) : (createQueue cap).capacity = cap := rfl

theorem enqueue_capacity (q : Queue) (x : Int) : (enqueue q x).capacity = q.capacity := by
  unfold enqueue
  split <;> rfl

theorem enqueue_full (q : Queue) (x : Int) (h : q.size = q.capacity) : enqueue q x = q := by
  simp [enqueue, isFull, h]

theorem mod_ne_of_lt {a i k cap : Nat} (hi : i < k) (hk : k < cap) :
    (a + i) % cap ≠ (a + k) % cap := by
  intro h
  have h1 : i ≡ k [MOD cap] := Nat.ModEq.add_left_cancel' a h
  have h2 := Nat.ModEq.eq_of_lt_of_lt h1 (by omega) hk
  omega

theorem enqueue_WF (q : Queue) (x : Int) (hq : q.WF) : (enqueue q x).WF := by
  obtain ⟨h0, hlen, hsz, hfr, hrear⟩ := hq
  unfold enqueue
  by_cases hf : isFull q = true
  · simp only [hf, if_true]; exact ⟨h0, hlen, hsz, hfr, hrear⟩
  · simp only [hf]
    have hne : q.size ≠ q.capacity := by simpa [isFull] using hf
    refine ⟨h0, by simpa using hlen, by simp; omega, hfr, ?_⟩
    simp only [Bool.false_eq_true, if_false]
    rw [hrear, Nat.mod_add_mod, Nat.add_assoc]

theorem enqueue_items (q : Queue) (x : Int) (hq : q.WF) (h : q.size < q.capacity) :
    (enqueue q x).items = q.items ++ [x] := by
  obtain ⟨h0, hlen, hsz, hfr, hrear⟩ := hq
  have hf : isFull q = false := by simp [isFull]; omega
  simp only [enqueue, hf, Queue.items, List.range_succ, List.map_append, List.map_cons,
    List.map_nil, Bool.false_eq_true, if_false]
  congr 1
  · apply List.map_congr_left
    intro i hi
    rw [List.mem_range] at hi
    rw [hrear]
    simp only [List.getD_eq_getElem?_getD]
    rw [List.getElem?_set_ne]
    exact fun h' => mod_ne_of_lt hi h h'.symm
  · rw [hrear]
    simp only [List.getD_eq_getElem?_getD]
    rw [List.getElem?_set_self]
    · simp
    · rw [hlen]; exact Nat.mod_lt _ h0

theorem enqueue_size (q : Queue) (x : Int) (h : q.size < q.capacity) :
    (enqueue q x).size = q.size + 1 := by
  have hf : isFull q = false := by simp [isFull]; omega
  simp [enqueue, hf]

theorem isEmpty_iff (q : Queue) : isEmpty q = true ↔ q.items = [] := by
  rw [← List.length_eq_zero, Queue.items_length]
  simp [isEmpty]

theorem dequeue_capacity (q : Queue) : (dequeue q).2.capacity = q.capacity := by
  unfold dequeue
  split <;> rfl

theorem dequeue_WF (q : Queue) (hq : q.WF) : (dequeue q).2.WF := by
  obtain ⟨h0, hlen, hsz, hfr, hrear⟩ := hq
  unfold dequeue
  by_cases he : isEmpty q = true
  · simp only [he, if_true]; exact ⟨h0, hlen, hsz, hfr, hrear⟩
  · simp only [he]
    have hne : q.size ≠ 0 := by simpa [isEmpty] using he
    refine ⟨h0, hlen, by simp; omega, Nat.mod_lt _ h0, ?_⟩
    simp only [Bool.false_eq_true, if_false]
    rw [hrear, Nat.mod_add_mod]
    congr 1; omega

theorem dequeue_items (q : Queue) (hq : q.WF) (x : Int) (xs : List Int)
    (h : q.items = x :: xs) : (dequeue q).1 = x ∧ (dequeue q).2.items = xs := by
  obtain ⟨h0, hlen, hsz, hfr, hrear⟩ := hq
  have hs : q.size = xs.length + 1 := by
    rw [← Queue.items_length, h]; rfl
  have he : isEmpty q = false := by simp [isEmpty, hs]
  simp only [Queue.items, hs, List.range_succ_eq_map, List.map_cons, List.map_map] at h
  simp only [dequeue, he, Bool.false_eq_true, if_false, Queue.items, hs]
  injection h with h1 h2
  constructor
  · rw [← h1]; simp [Nat.mod_eq_of_lt hfr]
  · conv_rhs => rw [← h2]
    simp only [Nat.add_sub_cancel]
    apply List.map_congr_left
    intro i _
    simp only [Function.comp, Nat.mod_add_mod]
    congr 2; omega

/-! ## Accessors of the network -/

theorem adj_setAdj (G : GRAPH) (i j : Nat) (L : List EDGE) :
    adj (setAdj G i L) j = if j = i ∧ i < G.H.length then L else adj G j := by
  unfold setAdj
  by_cases hi : i < G.H.length
  · rw [List.getElem?_eq_getElem hi]
    simp only [adj, hi, and_true]
    by_cases hj : j = i
    · subst hj; simp [hi]
    · simp only [hj, if_false]
      rw [List.getElem?_set_ne (Ne.symm hj)]
  · have : G.H[i]? = none := List.getElem?_eq_none (by omega)
    simp [this, hi]

theorem adj_setAdj_self (G : GRAPH) (i : Nat) (L : List EDGE) (hi : i < G.H.length) :
    adj (setAdj G i L) i = L := by
  simp [adj_setAdj, hi]

theorem adj_setAdj_ne (G : GRAPH) (i j : Nat) (L : List EDGE) (h : j ≠ i) :
    adj (setAdj G i L) j = adj G j := by
  simp [adj_setAdj, h]

theorem need_setAdj (G : GRAPH) (i j : Nat) (L : List EDGE) :
    need (setAdj G i L) j = need G j := by
  unfold setAdj
  by_cases hi : i < G.H.length
  · rw [List.getElem?_eq_getElem hi]
    simp only [need]
    by_cases hj : j = i
    · subst hj; simp [hi]
    · rw [List.getElem?_set_ne (Ne.symm hj)]
  · have : G.H[i]? = none := List.getElem?_eq_none (by omega)
    simp [this]

theorem V_setAdj (G : GRAPH) (i : Nat) (L : List EDGE) : (setAdj G i L).V = G.V := by
  unfold setAdj; split <;> rfl

theorem E_setAdj (G : GRAPH) (i : Nat) (L : List EDGE) : (setAdj G i L).E = G.E := by
  unfold setAdj; split <;> rfl

theorem length_setAdj (G : GRAPH) (i : Nat) (L : List EDGE) :
    (setAdj G i L).H.length = G.H.length := by
  unfold setAdj; split <;> simp

theorem adj_eq_nil_of_le (G : GRAPH) (i : Nat) (h : G.H.length ≤ i) : adj G i = [] := by
  simp [adj, List.getElem?_eq_none h]

theorem setAdj_adj (G : GRAPH) (i : Nat) : setAdj G i (adj G i) = G := by
  unfold setAdj adj
  by_cases hi : i < G.H.length
  · rw [List.getElem?_eq_getElem hi]
    cases G with
    | mk V E H =>
      simp only [GRAPH.mk.injEq, true_and]
      apply List.ext_getElem?
      intro j
      by_cases hj : i = j
      · subst hj
        simp at hi
        simp [List.getElem?_set_self hi, List.getElem?_eq_getElem hi]
      · rw [List.getElem?_set_ne hj]
  · have : G.H[i]? = none := List.getElem?_eq_none (by omega)
    simp [this]

/-! ## First edges -/

theorem firstEdge_nil (v : Nat) : firstEdge [] v = none := rfl

theorem firstEdge_cons (e : EDGE) (L : List EDGE) (v : Nat) :
    firstEdge (e :: L) v = if e.y = v then some e else firstEdge L v := by
  simp only [firstEdge, List.find?_cons]
  by_cases h : e.y = v
  · simp [h]
  · have : (e.y == v) = false := by simpa using h
    simp [this, h]

theorem firstEdge_some_y {L : List EDGE} {v : Nat} {e : EDGE} (h : firstEdge L v = some e) :
    e.y = v := by
  have := List.find?_some h
  simpa using this

theorem firstEdge_some_mem {L : List EDGE} {v : Nat} {e : EDGE} (h : firstEdge L v = some e) :
    e ∈ L := List.mem_of_find?_eq_some h

theorem firstEdge_eq_none {L : List EDGE} {v : Nat} :
    firstEdge L v = none ↔ ∀ e ∈ L, e.y ≠ v := by
  simp [firstEdge, List.find?_eq_none]

theorem firstEdge_isSome {L : List EDGE} {v : Nat} :
    (firstEdge L v).isSome ↔ ∃ e ∈ L, e.y = v := by
  simp [firstEdge, List.find?_isSome]

theorem firstEdge_append (L M : List EDGE) (v : Nat) :
    firstEdge (L ++ M) v = (firstEdge L v).or (firstEdge M v) := by
  simp [firstEdge, List.find?_append]

/-! ## Arithmetic of the type `int` -/

theorem wrapInt_of_fits {x : Int} (h1 : INT_MIN ≤ x) (h2 : x ≤ INT_MAX) : wrapInt x = x := by
  unfold wrapInt
  unfold INT_MIN at h1
  unfold INT_MAX at h2
  omega

theorem wrapInt_bounds (x : Int) : INT_MIN ≤ wrapInt x ∧ wrapInt x ≤ INT_MAX := by
  unfold wrapInt INT_MIN INT_MAX
  omega

theorem wrapInt_wrapInt_add (a b : Int) : wrapInt (wrapInt a + b) = wrapInt (a + b) := by
  unfold wrapInt
  omega

theorem wrapInt_eq_zero_iff (x : Int) : wrapInt x = 0 ↔ x % 4294967296 = 0 := by
  unfold wrapInt
  omega

/-- A positive wrapped value of a number that is not below `INT_MIN` is at
most the number itself, which is positive too. -/
theorem wrapInt_pos_le {x : Int} (h1 : INT_MIN ≤ x) (h2 : 0 < wrapInt x) :
    0 < x ∧ wrapInt x ≤ x := by
  unfold wrapInt at h2 ⊢
  unfold INT_MIN at h1
  omega

theorem wrapInt_zero : wrapInt 0 = 0 := by decide

theorem negInt_of_ne {n : Int} (h : n ≠ INT_MIN) : negInt n = -n := by
  rw [negInt, if_neg h]

theorem negInt_INT_MIN : negInt INT_MIN = INT_MIN := by
  rw [negInt, if_pos rfl]

theorem foldl_wrap_eq (f : Nat → Int) (L : List Nat) (a : Int) :
    L.foldl (fun acc i => wrapInt (acc + f i)) (wrapInt a) = wrapInt (a + (L.map f).sum) := by
  induction L generalizing a with
  | nil => simp
  | cons x xs ih =>
    rw [List.foldl_cons, wrapInt_wrapInt_add, ih, List.map_cons, List.sum_cons, add_assoc]

/-! ## Sums over the vertex ids `1..V` -/

theorem sum_map_range' (f : Nat → Int) (V : Nat) :
    ((List.range' 1 V).map f).sum = ∑ i ∈ Finset.Icc 1 V, f i := by
  induction V with
  | zero => simp
  | succ n ih =>
    rw [List.range'_concat, List.map_append, List.sum_append, ih,
      Finset.sum_Icc_succ_top (by omega)]
    simp [add_comm]

theorem netNeed_eq_wrap (G : GRAPH) :
    netNeed G = wrapInt (∑ i ∈ Finset.Icc 1 G.V, need G i) := by
  have := foldl_wrap_eq (need G) (List.range' 1 G.V) 0
  rw [wrapInt_zero, zero_add, sum_map_range'] at this
  exact this

theorem netNeed_of_sum_zero {G : GRAPH} (h : ∑ i ∈ Finset.Icc 1 G.V, need G i = 0) :
    netNeed G = 0 := by
  rw [netNeed_eq_wrap, h, wrapInt_zero]

theorem netNeed_eq_zero_iff (G : GRAPH) :
    netNeed G = 0 ↔ (∑ i ∈ Finset.Icc 1 G.V, need G i) % 4294967296 = 0 := by
  rw [netNeed_eq_wrap, wrapInt_eq_zero_iff]

theorem mem_range'_one {u V : Nat} : u ∈ List.range' 1 V ↔ 1 ≤ u ∧ u ≤ V := by
  rw [List.mem_range'_1]; omega

theorem allSaturated_iff (L : List EDGE) : allSaturated L = true ↔ ∀ e ∈ L, e.f = e.c := by
  induction L with
  | nil => simp [allSaturated]
  | cons e es ih =>
    simp only [allSaturated, List.mem_cons, forall_eq_or_imp]
    by_cases h : e.f = e.c
    · simp [h, ih]
    · simp [h]

theorem checkFeasibility_eq_one_iff (G : GRAPH) :
    checkFeasibility G = 1 ↔
      netNeed G = 0 ∧ ∀ e ∈ adj G (G.V - 1), e.f = e.c := by
  unfold checkFeasibility
  rw [← allSaturated_iff]
  by_cases h1 : netNeed G = 0
  · by_cases h2 : allSaturated (adj G (G.V - 1)) = true
    · simp [h1, h2]
    · simp [h1, h2]
  · simp [h1]

/-! ## The flow update `addFlow` -/

theorem addFlow_cons_eq {cur : Nat} (d : Int) {e : EDGE} (es : List EDGE) (he : e.y = cur) :
    addFlow cur d (e :: es) = some ({ e with f := e.f + d } :: es) := by
  rw [addFlow, if_pos he]

theorem addFlow_cons_ne {cur : Nat} (d : Int) {e : EDGE} (es : List EDGE) (he : ¬ e.y = cur) :
    addFlow cur d (e :: es) = (addFlow cur d es).map (fun r => e :: r) := by
  rw [addFlow, if_neg he]

theorem addFlow_isSome {cur : Nat} {d : Int} {L : List EDGE} (h : ∃ e ∈ L, e.y = cur) :
    ∃ L1, addFlow cur d L = some L1 := by
  induction L with
  | nil => simp at h
  | cons e es ih =>
    by_cases he : e.y = cur
    · exact ⟨_, addFlow_cons_eq d es he⟩
    · have : ∃ e ∈ es, e.y = cur := by
        obtain ⟨e', hm, hy⟩ := h
        rcases List.mem_cons.1 hm with rfl | hm
        · exact absurd hy he
        · exact ⟨e', hm, hy⟩
      obtain ⟨L1, h1⟩ := ih this
      exact ⟨e :: L1, by rw [addFlow_cons_ne d es he, h1]; rfl⟩

theorem addFlow_map_y {cur : Nat} {d : Int} {L L1 : List EDGE} (h : addFlow cur d L = some L1) :
    L1.map EDGE.y = L.map EDGE.y := by
  induction L generalizing L1 with
  | nil => simp [addFlow] at h
  | cons e es ih =>
    by_cases he : e.y = cur
    · rw [addFlow_cons_eq d es he] at h
      injection h with h; subst h; simp
    · rw [addFlow_cons_ne d es he] at h
      simp only [Option.map_eq_some'] at h
      obtain ⟨r, hr, rfl⟩ := h
      simp [ih hr]

theorem addFlow_map_c {cur : Nat} {d : Int} {L L1 : List EDGE} (h : addFlow cur d L = some L1) :
    L1.map EDGE.c = L.map EDGE.c := by
  induction L generalizing L1 with
  | nil => simp [addFlow] at h
  | cons e es ih =>
    by_cases he : e.y = cur
    · rw [addFlow_cons_eq d es he] at h
      injection h with h; subst h; simp
    · rw [addFlow_cons_ne d es he] at h
      simp only [Option.map_eq_some'] at h
      obtain ⟨r, hr, rfl⟩ := h
      simp [ih hr]

theorem addFlow_firstEdge {cur : Nat} {d : Int} {L L1 : List EDGE}
    (h : addFlow cur d L = some L1) (v : Nat) :
    firstEdge L1 v =
      if v = cur then (firstEdge L cur).map (fun e => { e with f := e.f + d })
      else firstEdge L v := by
  induction L generalizing L1 with
  | nil => simp [addFlow] at h
  | cons e es ih =>
    by_cases he : e.y = cur
    · rw [addFlow_cons_eq d es he] at h
      injection h with h; subst h
      by_cases hv : v = cur
      · subst hv; simp [firstEdge_cons, he]
      · have : ¬ e.y = v := fun h' => hv (h'.symm.trans he)
        simp [firstEdge_cons, hv, this]
    · rw [addFlow_cons_ne d es he] at h
      simp only [Option.map_eq_some'] at h
      obtain ⟨r, hr, rfl⟩ := h
      rw [firstEdge_cons, firstEdge_cons, firstEdge_cons, ih hr]
      by_cases hv : v = cur
      · subst hv; simp [he]
      · simp [hv]

theorem addFlow_mem {cur : Nat} {d : Int} {L L1 : List EDGE} (h : addFlow cur d L = some L1)
    {b : EDGE} (hb : b ∈ L1) : b ∈ L ∨ b.y = cur := by
  induction L generalizing L1 with
  | nil => simp [addFlow] at h
  | cons e es ih =>
    by_cases he : e.y = cur
    · rw [addFlow_cons_eq d es he] at h
      injection h with h; subst h
      rcases List.mem_cons.1 hb with rfl | hb
      · exact Or.inr he
      · exact Or.inl (List.mem_cons_of_mem _ hb)
    · rw [addFlow_cons_ne d es he] at h
      simp only [Option.map_eq_some'] at h
      obtain ⟨r, hr, rfl⟩ := h
      rcases List.mem_cons.1 hb with rfl | hb
      · exact Or.inl (List.mem_cons_self _ _)
      · rcases ih hr hb with h1 | h1
        · exact Or.inl (List.mem_cons_of_mem _ h1)
        · exact Or.inr h1

theorem addFlow_dupInert {cur : Nat} {d : Int} {L L1 : List EDGE}
    (h : addFlow cur d L = some L1) (hL : DupInert L) : DupInert L1 := by
  induction L generalizing L1 with
  | nil => simp [addFlow] at h
  | cons e es ih =>
    unfold DupInert at hL ⊢
    rw [List.pairwise_cons] at hL
    by_cases he : e.y = cur
    · rw [addFlow_cons_eq d es he] at h
      injection h with h; subst h
      rw [List.pairwise_cons]
      exact ⟨fun b hb hy => hL.1 b hb hy, hL.2⟩
    · rw [addFlow_cons_ne d es he] at h
      simp only [Option.map_eq_some'] at h
      obtain ⟨r, hr, rfl⟩ := h
      rw [List.pairwise_cons]
      refine ⟨fun b hb hy => ?_, ih hr hL.2⟩
      rcases addFlow_mem hr hb with h1 | h1
      · exact hL.1 b h1 hy
      · exact absurd (hy.trans h1) he

theorem dupInert_first {L : List EDGE} (hL : DupInert L) {e : EDGE} (he : e ∈ L)
    (hne : e.c ≠ 0 ∨ e.f ≠ 0) : firstEdge L e.y = some e := by
  induction L with
  | nil => simp at he
  | cons a as ih =>
    unfold DupInert at hL
    rw [List.pairwise_cons] at hL
    rw [firstEdge_cons]
    rcases List.mem_cons.1 he with rfl | hm
    · simp
    · by_cases hy : a.y = e.y
      · have := hL.1 e hm hy
        rcases hne with h | h
        · exact absurd this.1 h
        · exact absurd this.2 h
      · simp only [hy, if_false]
        exact ih hL.2 hm

theorem firstEdge_of_map_y {L M : List EDGE} (h : L.map EDGE.y = M.map EDGE.y) (v : Nat) :
    (firstEdge L v).isSome = (firstEdge M v).isSome := by
  induction L generalizing M with
  | nil =>
    cases M with
    | nil => rfl
    | cons b bs => simp at h
  | cons a as ih =>
    cases M with
    | nil => simp at h
    | cons b bs =>
      simp only [List.map_cons, List.cons.injEq] at h
      rw [firstEdge_cons, firstEdge_cons, h.1]
      by_cases hb : b.y = v
      · simp [hb]
      · simp [hb, ih h.2]

/-! ## Networks of the same shape -/

theorem SameShape.refl (G : GRAPH) : SameShape G G :=
  ⟨rfl, rfl, rfl, fun _ => rfl, fun _ => rfl, fun _ => rfl⟩

theorem SameShape.trans {G G1 G2 : GRAPH} (h1 : SameShape G G1) (h2 : SameShape G1 G2) :
    SameShape G G2 :=
  ⟨h2.V.trans h1.V, h2.E.trans h1.E, h2.len.trans h1.len,
    fun u => (h2.need u).trans (h1.need u),
    fun u => (h2.ys u).trans (h1.ys u), fun u => (h2.cs u).trans (h1.cs u)⟩

theorem SameShape.symm {G G1 : GRAPH} (h : SameShape G G1) : SameShape G1 G :=
  ⟨h.V.symm, h.E.symm, h.len.symm, fun u => (h.need u).symm, fun u => (h.ys u).symm,
    fun u => (h.cs u).symm⟩

theorem firstEdge_c_of_map {L M : List EDGE} (hy : L.map EDGE.y = M.map EDGE.y)
    (hc : L.map EDGE.c = M.map EDGE.c) (v : Nat) :
    (firstEdge L v).map EDGE.c = (firstEdge M v).map EDGE.c := by
  induction L generalizing M with
  | nil =>
    cases M with
    | nil => rfl
    | cons b bs => simp at hy
  | cons a as ih =>
    cases M with
    | nil => simp at hy
    | cons b bs =>
      simp only [List.map_cons, List.cons.injEq] at hy hc
      rw [firstEdge_cons, firstEdge_cons, hy.1]
      by_cases hb : b.y = v
      · simp [hb, hc.1]
      · simp [hb, ih hy.2 hc.2]

theorem Cp_eq_map (G : GRAPH) (u v : Nat) :
    Cp G u v = ((firstEdge (adj G u) v).map EDGE.c).getD 0 := by
  unfold Cp
  cases firstEdge (adj G u) v <;> rfl

theorem Fl_eq_map (G : GRAPH) (u v : Nat) :
    Fl G u v = ((firstEdge (adj G u) v).map EDGE.f).getD 0 := by
  unfold Fl
  cases firstEdge (adj G u) v <;> rfl

theorem SameShape.Cp_eq {G G1 : GRAPH} (h : SameShape G G1) (u v : Nat) :
    Cp G1 u v = Cp G u v := by
  rw [Cp_eq_map, Cp_eq_map, firstEdge_c_of_map (h.ys u) (h.cs u)]

theorem SameShape.hasEdge {G G1 : GRAPH} (h : SameShape G G1) (u v : Nat) :
    (∃ e ∈ adj G1 u, e.y = v) ↔ ∃ e ∈ adj G u, e.y = v := by
  rw [← firstEdge_isSome, ← firstEdge_isSome, firstEdge_of_map_y (h.ys u)]

theorem sameShape_setAdj (G : GRAPH) (i : Nat) (L : List EDGE)
    (hy : L.map EDGE.y = (adj G i).map EDGE.y) (hc : L.map EDGE.c = (adj G i).map EDGE.c) :
    SameShape G (setAdj G i L) := by
  refine ⟨V_setAdj _ _ _, E_setAdj _ _ _, length_setAdj _ _ _, fun u => need_setAdj _ _ u _, ?_, ?_⟩
  · intro u
    rw [adj_setAdj]
    split
    · rename_i h; rw [hy, h.1]
    · rfl
  · intro u
    rw [adj_setAdj]
    split
    · rename_i h; rw [hc, h.1]
    · rfl

theorem addFlow_some_hasEdge {cur : Nat} {d : Int} {L L1 : List EDGE}
    (h : addFlow cur d L = some L1) : ∃ e ∈ L, e.y = cur := by
  induction L generalizing L1 with
  | nil => simp [addFlow] at h
  | cons a as ih =>
    by_cases ha : a.y = cur
    · exact ⟨a, List.mem_cons_self _ _, ha⟩
    · rw [addFlow_cons_ne d as ha] at h
      simp only [Option.map_eq_some'] at h
      obtain ⟨r, hr, _⟩ := h
      obtain ⟨e, he, hy⟩ := ih hr
      exact ⟨e, List.mem_cons_of_mem _ he, hy⟩

theorem Fl_setAdj_addFlow (G : GRAPH) (i cur : Nat) (d : Int) (L1 : List EDGE)
    (hi : i < G.H.length) (h : addFlow cur d (adj G i) = some L1) (u v : Nat) :
    Fl (setAdj G i L1) u v = Fl G u v + (if u = i ∧ v = cur then d else 0) := by
  rw [Fl_eq_map, Fl_eq_map, adj_setAdj]
  by_cases hu : u = i
  · subst hu
    simp only [hi, and_self, if_true, true_and]
    rw [addFlow_firstEdge h]
    by_cases hv : v = cur
    · subst hv
      simp only [if_true]
      have hs : (firstEdge (adj G u) v).isSome := by
        rw [firstEdge_isSome]; exact addFlow_some_hasEdge h
      obtain ⟨e, he⟩ := Option.isSome_iff_exists.1 hs
      simp [he]
    · simp [hv]
  · simp [hu]

/-! ## The backtracking loop `augment` -/

theorem lt_length_of_hasEdge {G : GRAPH} {u v : Nat} (h : ∃ e ∈ adj G u, e.y = v) :
    u < G.H.length := by
  by_contra hcon
  rw [adj_eq_nil_of_le G u (by omega)] at h
  simp at h

theorem ParentChain.sameShape {G G1 : GRAPH} {parent : List Int} {s : Nat} {chain : List Nat}
    (hs : SameShape G G1) (h : ParentChain G parent s chain) : ParentChain G1 parent s chain := by
  induction h with
  | base => exact ParentChain.base
  | step h1 h2 h3 h4 h5 _ ih =>
    exact ParentChain.step h1 h2 h3 ((hs.hasEdge _ _).2 h4) ((hs.hasEdge _ _).2 h5) ih

theorem augment_step_spec (G : GRAPH) (prev cur : Nat) (d : Int) (hne : prev ≠ cur)
    (h1 : ∃ e ∈ adj G prev, e.y = cur) (h2 : ∃ e ∈ adj G cur, e.y = prev) :
    ∃ L1 L2, addFlow cur d (adj G prev) = some L1 ∧
      addFlow prev (-d) (adj (setAdj G prev L1) cur) = some L2 ∧
      SameShape G (setAdj (setAdj G prev L1) cur L2) ∧
      (∀ u v, Fl (setAdj (setAdj G prev L1) cur L2) u v =
        Fl G u v + ((if u = prev ∧ v = cur then d else 0) - (if u = cur ∧ v = prev then d else 0))) ∧
      (∀ u, DupInert (adj G u) → DupInert (adj (setAdj (setAdj G prev L1) cur L2) u)) := by
  have hp := lt_length_of_hasEdge h1
  have hc := lt_length_of_hasEdge h2
  obtain ⟨L1, hL1⟩ := addFlow_isSome (d := d) h1
  have hadj : adj (setAdj G prev L1) cur = adj G cur := adj_setAdj_ne _ _ _ _ (Ne.symm hne)
  obtain ⟨L2, hL2⟩ := addFlow_isSome (d := -d) h2
  have hL2' : addFlow prev (-d) (adj (setAdj G prev L1) cur) = some L2 := by rw [hadj]; exact hL2
  have hc' : cur < (setAdj G prev L1).H.length := by rw [length_setAdj]; exact hc
  have s1 : SameShape G (setAdj G prev L1) :=
    sameShape_setAdj G prev L1 (addFlow_map_y hL1) (addFlow_map_c hL1)
  have s2 : SameShape (setAdj G prev L1) (setAdj (setAdj G prev L1) cur L2) :=
    sameShape_setAdj _ cur L2 (addFlow_map_y hL2') (addFlow_map_c hL2')
  refine ⟨L1, L2, hL1, hL2', s1.trans s2, ?_, ?_⟩
  · intro u v
    rw [Fl_setAdj_addFlow _ cur prev (-d) L2 hc' hL2', Fl_setAdj_addFlow G prev cur d L1 hp hL1]
    split <;> split <;> ring
  · intro u hu
    rw [adj_setAdj]
    split
    · rw [hadj] at hL2'
      rename_i h
      rw [h.1] at hu
      exact addFlow_dupInert hL2' hu
    · rw [adj_setAdj]
      split
      · rename_i h
        rw [h.1] at hu
        exact addFlow_dupInert hL1 hu
      · exact hu

theorem augment_spec {G : GRAPH} {parent : List Int} {s : Nat} (b : Int) {chain : List Nat}
    (h : ParentChain G parent s chain) :
    ∀ (cur : Nat) (rest : List Nat) (fuel : Nat), chain = cur :: rest → chain.length ≤ fuel →
    ∃ G1, augment parent s b fuel cur G = some G1 ∧ SameShape G G1 ∧
      (∀ u v, Fl G1 u v = Fl G u v + pathDelta b chain u v) ∧
      (∀ u, DupInert (adj G u) → DupInert (adj G1 u)) := by
  induction chain generalizing G with
  | nil => intro cur rest fuel hc; cases hc
  | cons c cs ih =>
    intro cur rest fuel hc hf
    injection hc with hc1 hc2
    subst hc1 hc2
    cases h with
    | base =>
      cases fuel with
      | zero => simp at hf
      | succ n =>
        refine ⟨G, by simp [augment], SameShape.refl G, ?_, fun _ h => h⟩
        intro u v; simp [pathDelta]
    | step h1 h2 h3 h4 h5 h6 =>
      rename_i prev rest
      cases fuel with
      | zero => simp at hf
      | succ n =>
        obtain ⟨L1, L2, hL1, hL2, hs, hFl, hD⟩ := augment_step_spec G prev c b h2 h4 h5
        obtain ⟨G1, hG1, hs1, hFl1, hD1⟩ :=
          ih (h6.sameShape hs) prev rest n rfl (by simpa using hf)
        refine ⟨G1, ?_, hs.trans hs1, ?_, fun u hu => hD1 u (hD u hu)⟩
        · rw [augment, if_neg h1]
          simp only [h3, Int.toNat_ofNat, hL1, hL2]
          exact hG1
        · intro u v
          rw [hFl1, hFl, pathDelta]
          ring

/-! ## Arithmetic of `pathDelta` -/

theorem pathDelta_cons2 (b : Int) (cur prev : Nat) (rest : List Nat) (u v : Nat) :
    pathDelta b (cur :: prev :: rest) u v =
      (if u = prev ∧ v = cur then b else 0) - (if u = cur ∧ v = prev then b else 0)
        + pathDelta b (prev :: rest) u v := rfl

theorem pathDelta_skew (b : Int) (chain : List Nat) (u v : Nat) :
    pathDelta b chain u v = - pathDelta b chain v u := by
  induction chain with
  | nil => simp [pathDelta]
  | cons c cs ih =>
    cases cs with
    | nil => simp [pathDelta]
    | cons p rest =>
      rw [pathDelta_cons2, pathDelta_cons2, ih]
      have e1 : (v = p ∧ u = c) ↔ (u = c ∧ v = p) := and_comm
      have e2 : (v = c ∧ u = p) ↔ (u = p ∧ v = c) := and_comm
      simp only [e1, e2]
      ring

theorem pathDelta_eq_zero_left (b : Int) (chain : List Nat) (u v : Nat) (h : u ∉ chain) :
    pathDelta b chain u v = 0 := by
  induction chain with
  | nil => simp [pathDelta]
  | cons c cs ih =>
    cases cs with
    | nil => simp [pathDelta]
    | cons p rest =>
      rw [pathDelta_cons2, ih (fun h' => h (List.mem_cons_of_mem _ h'))]
      have h1 : u ≠ c := fun h' => h (h' ▸ List.mem_cons_self _ _)
      have h2 : u ≠ p := fun h' => h (h' ▸ List.mem_cons_of_mem _ (List.mem_cons_self _ _))
      simp [h1, h2]

theorem pathDelta_eq_zero_right (b : Int) (chain : List Nat) (u v : Nat) (h : v ∉ chain) :
    pathDelta b chain u v = 0 := by
  rw [pathDelta_skew, pathDelta_eq_zero_left b chain v u h]; simp

theorem pathDelta_le_res (b : Int) (hb : 0 ≤ b) (R : Nat → Nat → Int) (hR : ∀ u v, 0 ≤ R u v)
    (chain : List Nat) (hnd : chain.Nodup)
    (hres : List.Chain' (fun cur prev => b ≤ R prev cur) chain) (u v : Nat) :
    pathDelta b chain u v ≤ R u v := by
  induction chain with
  | nil => simpa [pathDelta] using hR u v
  | cons c cs ih =>
    cases cs with
    | nil => simpa [pathDelta] using hR u v
    | cons p rest =>
      rw [pathDelta_cons2]
      rw [List.chain'_cons] at hres
      rw [List.nodup_cons] at hnd
      have hpc : p ≠ c := fun h => hnd.1 (h ▸ List.mem_cons_self _ _)
      by_cases h1 : u = p ∧ v = c
      · obtain ⟨rfl, rfl⟩ := h1
        rw [pathDelta_eq_zero_right b _ _ _ hnd.1]
        have : ¬ (u = v ∧ v = u) := fun h => hpc h.1
        simp only [and_self, if_true, this, if_false]
        simpa using hres.1
      · have := ih hnd.2 hres.2
        simp only [h1, if_false]
        split <;> omega

theorem pathDelta_head_le (b : Int) (hb : 0 ≤ b) (c : Nat) (cs : List Nat)
    (hnd : (c :: cs).Nodup) (v : Nat) : pathDelta b (c :: cs) c v ≤ 0 := by
  cases cs with
  | nil => simp [pathDelta]
  | cons p rest =>
    rw [List.nodup_cons] at hnd
    rw [pathDelta_cons2, pathDelta_eq_zero_left b _ _ _ hnd.1]
    have hpc : c ≠ p := fun h => hnd.1 (h ▸ List.mem_cons_self _ _)
    simp only [hpc, false_and, if_false, true_and]
    split <;> omega

theorem pathDelta_last_ge (b : Int) (hb : 0 ≤ b) (chain : List Nat) (s : Nat)
    (hnd : chain.Nodup) (hl : chain.getLast? = some s) (v : Nat) :
    0 ≤ pathDelta b chain s v := by
  induction chain with
  | nil => simp [pathDelta]
  | cons c cs ih =>
    cases cs with
    | nil => simp [pathDelta]
    | cons p rest =>
      rw [pathDelta_cons2]
      rw [List.nodup_cons] at hnd
      have hl' : (p :: rest).getLast? = some s := by
        rw [List.getLast?_cons_cons] at hl; exact hl
      have hs : s ∈ p :: rest := List.mem_of_getLast?_eq_some hl'
      have hsc : s ≠ c := fun h => hnd.1 (h ▸ hs)
      have := ih hnd.2 hl'
      simp only [hsc, false_and, if_false]
      split <;> omega

theorem pathDelta_row_sum (b : Int) (V : Nat) (chain : List Nat) (s : Nat)
    (hin : ∀ x ∈ chain, x ∈ Finset.Icc 1 V) (hl : chain.getLast? = some s) (c : Nat)
    (hh : chain.head? = some c) (u : Nat) :
    ∑ v ∈ Finset.Icc 1 V, pathDelta b chain u v =
      (if u = s then b else 0) - (if u = c then b else 0) := by
  induction chain generalizing c with
  | nil => simp at hh
  | cons c0 cs ih =>
    simp only [List.head?_cons, Option.some.injEq] at hh
    subst hh
    cases cs with
    | nil =>
      simp only [List.getLast?_singleton, Option.some.injEq] at hl
      subst hl
      simp [pathDelta]
    | cons p rest =>
      have hl' : (p :: rest).getLast? = some s := by
        rw [List.getLast?_cons_cons] at hl; exact hl
      have hc0 : c0 ∈ Finset.Icc 1 V := hin c0 (List.mem_cons_self _ _)
      have hp : p ∈ Finset.Icc 1 V := hin p (List.mem_cons_of_mem _ (List.mem_cons_self _ _))
      have := ih (fun x hx => hin x (List.mem_cons_of_mem _ hx)) hl' p rfl
      simp only [pathDelta_cons2, Finset.sum_add_distrib, Finset.sum_sub_distrib, this]
      have e1 : ∑ v ∈ Finset.Icc 1 V, (if u = p ∧ v = c0 then b else 0) = if u = p then b else 0 := by
        by_cases hu : u = p
        · simp [hu, Finset.sum_ite_eq', hc0]
        · simp [hu]
      have e2 : ∑ v ∈ Finset.Icc 1 V, (if u = c0 ∧ v = p then b else 0) = if u = c0 then b else 0 := by
        by_cases hu : u = c0
        · simp [hu, Finset.sum_ite_eq', hp]
        · simp [hu]
      rw [e1, e2]
      ring

/-! ## Breadth-first search: auxiliary facts -/

theorem getD_set_self {l : List Int} {i : Nat} (a d : Int) (h : i < l.length) :
    (l.set i a).getD i d = a := by
  simp [List.getD_eq_getElem?_getD, List.getElem?_set_self h]

theorem getD_set_ne {l : List Int} {i j : Nat} (a d : Int) (h : i ≠ j) :
    (l.set i a).getD j d = l.getD j d := by
  simp [List.getD_eq_getElem?_getD, List.getElem?_set_ne h]

theorem count_set_le (l : List Int) (i : Nat) (a : Int) (ha : a ≠ -1) :
    (l.set i a).count (-1) ≤ l.count (-1) := by
  induction l generalizing i with
  | nil => simp
  | cons x xs ih =>
    cases i with
    | zero =>
      simp only [List.set_cons_zero, List.count_cons]
      have : (a == -1) = false := by simpa using ha
      simp [this]
    | succ n =>
      simp only [List.set_cons_succ, List.count_cons]
      have := ih n
      omega

theorem count_set_lt (l : List Int) (i : Nat) (a : Int) (ha : a ≠ -1)
    (hi : l.getD i 0 = -1) : (l.set i a).count (-1) + 1 = l.count (-1) := by
  induction l generalizing i with
  | nil => simp at hi
  | cons x xs ih =>
    cases i with
    | zero =>
      simp only [List.getD_cons_zero] at hi
      subst hi
      simp only [List.set_cons_zero, List.count_cons]
      have : (a == -1) = false := by simpa using ha
      simp [this]
    | succ n =>
      simp only [List.getD_cons_succ] at hi
      simp only [List.set_cons_succ, List.count_cons]
      have := ih n hi
      omega

theorem BfsChain.ne_sink {G : GRAPH} {parent : List Int} {s t : Nat} {b : Int}
    {chain : List Nat} (h : BfsChain G parent s t b chain) (hst : s ≠ t) :
    ∀ x ∈ chain, x ≠ t := by
  induction h with
  | base =>
    intro x hx
    simp only [List.mem_singleton] at hx
    subst hx; exact hst
  | step h1 h2 h3 h4 h5 h6 h7 _ ih =>
    intro x hx
    rcases List.mem_cons.1 hx with rfl | hx
    · exact h2
    · exact ih x hx

theorem BfsChain.inRange {G : GRAPH} {parent : List Int} {s t : Nat} {b : Int}
    {chain : List Nat} (h : BfsChain G parent s t b chain) (hs : 1 ≤ s ∧ s ≤ G.V) :
    ∀ x ∈ chain, 1 ≤ x ∧ x ≤ G.V := by
  induction h with
  | base =>
    intro x hx
    simp only [List.mem_singleton] at hx
    subst hx; exact hs
  | step h1 h2 h3 h4 h5 h6 h7 _ ih =>
    intro x hx
    rcases List.mem_cons.1 hx with rfl | hx
    · exact ⟨h3, h4⟩
    · exact ih x hx

theorem BfsChain.nodup {G : GRAPH} {parent : List Int} {s t : Nat} {b : Int}
    {chain : List Nat} (h : BfsChain G parent s t b chain) : chain.Nodup := by
  induction h with
  | base => simp
  | step h1 h2 h3 h4 h5 h6 h7 _ ih => exact List.nodup_cons.2 ⟨h7, ih⟩

theorem BfsChain.last {G : GRAPH} {parent : List Int} {s t : Nat} {b : Int}
    {chain : List Nat} (h : BfsChain G parent s t b chain) : chain.getLast? = some s := by
  induction h with
  | base => rfl
  | step h1 h2 h3 h4 h5 h6 h7 _ ih => rw [List.getLast?_cons_cons]; exact ih

theorem BfsChain.residual {G : GRAPH} {parent : List Int} {s t : Nat} {b : Int}
    {chain : List Nat} (h : BfsChain G parent s t b chain) :
    List.Chain' (fun cur prev => b ≤ Cp G prev cur - Fl G prev cur) chain := by
  induction h with
  | base => simp
  | step h1 h2 h3 h4 h5 h6 h7 _ ih => exact List.chain'_cons.2 ⟨h6, ih⟩

theorem Handled.weaken {t : Nat} {st st1 : BFSState} {e : EDGE} (h : Handled t st e)
    (hm : st.maxFlow_path ≤ st1.maxFlow_path)
    (hp : ∀ v, st.parent.getD v 0 ≠ -1 → st1.parent.getD v 0 ≠ -1) : Handled t st1 e := by
  intro hr
  rcases h hr with h1 | h1
  · exact Or.inl ⟨h1.1, lt_of_lt_of_le h1.2 hm⟩
  · exact Or.inr ⟨h1.1, hp _ h1.2⟩

theorem getD_set_ne_neg_one (l : List Int) (w : Nat) (a : Int) (ha : a ≠ -1) (v : Nat)
    (h : l.getD v 0 ≠ -1) : (l.set w a).getD v 0 ≠ -1 := by
  by_cases hwv : w = v
  · subst hwv
    by_cases hl : w < l.length
    · rw [getD_set_self _ _ hl]; exact ha
    · rw [List.set_eq_of_length_le (Nat.le_of_not_lt hl)]; exact h
  · rw [getD_set_ne _ _ hwv]; exact h

/-! ## Breadth-first search: the scan of one adjacency list -/

theorem residual_of_mem {G : GRAPH} {u : Nat} (hD : DupInert (adj G u)) {e : EDGE}
    (he : e ∈ adj G u) (hr : 0 < e.c - e.f) : Cp G u e.y - Fl G u e.y = e.c - e.f := by
  have hne : e.c ≠ 0 ∨ e.f ≠ 0 := by
    by_contra h
    push_neg at h
    rw [h.1, h.2] at hr
    exact absurd hr (by decide)
  have := dupInert_first hD he hne
  simp [Cp, Fl, this]

theorem nodup_range_length_le (V : Nat) (L : List Nat) (hnd : L.Nodup)
    (hin : ∀ x ∈ L, 1 ≤ x ∧ x ≤ V) : L.length ≤ V := by
  have h1 : L.toFinset ⊆ Finset.Icc 1 V := by
    intro x hx
    rw [List.mem_toFinset] at hx
    rw [Finset.mem_Icc]; exact hin x hx
  have h2 := Finset.card_le_card h1
  rw [List.toFinset_card_of_nodup hnd] at h2
  simpa using h2

theorem queue_room (V : Nat) (items : List Int) (hnd : items.Nodup)
    (hitems : ∀ x ∈ items, ∃ u : Nat, x = (u : Int) ∧ 1 ≤ u ∧ u ≤ V)
    (a b c : Nat) (ha : 1 ≤ a ∧ a ≤ V) (hb : 1 ≤ b ∧ b ≤ V) (hc : 1 ≤ c ∧ c ≤ V)
    (hab : a ≠ b) (hac : a ≠ c) (hbc : b ≠ c)
    (ha' : (a : Int) ∉ items) (hb' : (b : Int) ∉ items) (hc' : (c : Int) ∉ items) :
    items.length + 3 ≤ V := by
  have hnd' : (items.map Int.toNat).Nodup := by
    apply List.Nodup.map_on _ hnd
    intro x hx y hy hxy
    obtain ⟨u, rfl, _⟩ := hitems x hx
    obtain ⟨w, rfl, _⟩ := hitems y hy
    simpa using hxy
  have hmem : ∀ n : Nat, n ∈ items.map Int.toNat → (n : Int) ∈ items := by
    intro n hn
    rw [List.mem_map] at hn
    obtain ⟨x, hx, rfl⟩ := hn
    obtain ⟨u, rfl, _⟩ := hitems x hx
    simpa using hx
  have hL : (a :: b :: c :: items.map Int.toNat).Nodup := by
    refine List.nodup_cons.2 ⟨?_, List.nodup_cons.2 ⟨?_, List.nodup_cons.2 ⟨?_, hnd'⟩⟩⟩
    · simp only [List.mem_cons, not_or]
      exact ⟨hab, hac, fun h => ha' (hmem a h)⟩
    · simp only [List.mem_cons, not_or]
      exact ⟨hbc, fun h => hb' (hmem b h)⟩
    · exact fun h => hc' (hmem c h)
  have := nodup_range_length_le V _ hL (by
    intro x hx
    simp only [List.mem_cons] at hx
    rcases hx with rfl | rfl | rfl | hx
    · exact ha
    · exact hb
    · exact hc
    · rw [List.mem_map] at hx
      obtain ⟨z, hz, rfl⟩ := hx
      obtain ⟨u, rfl, h1, h2⟩ := hitems z hz
      simpa using ⟨h1, h2⟩)
  simpa using this

theorem bfsScan_nil (t : Nat) (cv cf : Int) (st : BFSState) : bfsScan t cv cf [] st = st := rfl

theorem bfsScan_cons (t : Nat) (cv cf : Int) (e : EDGE) (es : List EDGE) (st : BFSState) :
    bfsScan t cv cf (e :: es) st =
      if e.y = t then
        if st.maxFlow_path < (if cf < wrapInt (e.c - e.f) then cf else wrapInt (e.c - e.f)) then
          bfsScan t cv cf es
            { st with maxFlow_path := (if cf < wrapInt (e.c - e.f) then cf else wrapInt (e.c - e.f)),
                      parent := st.parent.set e.y cv }
        else bfsScan t cv cf es st
      else if st.parent.getD e.y 0 = -1 ∧ wrapInt (e.c - e.f) > 0 then
        bfsScan t cv cf es
          { st with parent := st.parent.set e.y cv,
                    vertexQueue := enqueue st.vertexQueue e.y,
                    flowQueue := enqueue st.flowQueue (if cf < wrapInt (e.c - e.f) then cf else wrapInt (e.c - e.f)) }
      else bfsScan t cv cf es st := rfl

theorem count_replicate_neg_one (n : Nat) : (List.replicate n (-1 : Int)).count (-1) = n := by
  simp

theorem getD_replicate_set (n s i : Nat) (hi : i ≠ s) (hin : i < n) :
    ((List.replicate n (-1 : Int)).set s 0).getD i 0 = -1 := by
  rw [getD_set_ne _ _ (Ne.symm hi)]
  simp [List.getD_eq_getElem?_getD, List.getElem?_replicate, hin]

theorem MAX_pos : 0 < MAX := by decide

/-! ## Breadth-first search on an arbitrary network state -/

theorem Trail.pos {G : GRAPH} {parent : List Int} {s t : Nat} {b : Int} {chain : List Nat}
    (h : Trail G parent s t chain b) : 0 < b := by
  induction h with
  | base => decide
  | step _ _ _ _ _ _ _ h8 _ _ ih => split <;> omega

theorem Trail.le_INT_MAX {G : GRAPH} {parent : List Int} {s t : Nat} {b : Int}
    {chain : List Nat} (h : Trail G parent s t chain b) : b ≤ INT_MAX := by
  induction h with
  | base => exact le_refl _
  | step _ _ _ _ _ _ _ _ _ _ ih => split <;> omega

theorem Trail.found {G : GRAPH} {parent : List Int} {s t : Nat} {b : Int}
    {chain : List Nat} (h : Trail G parent s t chain b) (hs : parent.getD s 0 = 0) :
    ∀ x ∈ chain, parent.getD x 0 ≠ -1 := by
  induction h with
  | base =>
    intro x hx
    simp only [List.mem_singleton] at hx
    subst hx; rw [hs]; decide
  | step _ _ _ _ h5 _ _ _ _ _ ih =>
    intro x hx
    rcases List.mem_cons.1 hx with rfl | hx
    · rw [h5]; omega
    · exact ih x hx

theorem Trail.avoids {G : GRAPH} {parent : List Int} {s t : Nat} {b : Int}
    {chain : List Nat} (h : Trail G parent s t chain b) (hst : s ≠ t) :
    ∀ x ∈ chain, x ≠ t := by
  induction h with
  | base =>
    intro x hx
    simp only [List.mem_singleton] at hx
    subst hx; exact hst
  | step _ h2 _ _ _ _ _ _ _ _ ih =>
    intro x hx
    rcases List.mem_cons.1 hx with rfl | hx
    · exact h2
    · exact ih x hx

theorem Trail.ids {G : GRAPH} {parent : List Int} {s t : Nat} {b : Int}
    {chain : List Nat} (h : Trail G parent s t chain b) (hs : 1 ≤ s ∧ s ≤ G.V) :
    ∀ x ∈ chain, 1 ≤ x ∧ x ≤ G.V := by
  induction h with
  | base =>
    intro x hx
    simp only [List.mem_singleton] at hx
    subst hx; exact hs
  | step _ _ h3 h4 _ _ _ _ _ _ ih =>
    intro x hx
    rcases List.mem_cons.1 hx with rfl | hx
    · exact ⟨h3, h4⟩
    · exact ih x hx

theorem Trail.distinct {G : GRAPH} {parent : List Int} {s t : Nat} {b : Int}
    {chain : List Nat} (h : Trail G parent s t chain b) : chain.Nodup := by
  induction h with
  | base => simp
  | step _ _ _ _ _ _ _ _ h9 _ ih => exact List.nodup_cons.2 ⟨h9, ih⟩

/-- Writing a slot that was `-1`, or the slot of the sink, keeps every trail. -/
theorem Trail.write {G : GRAPH} {parent : List Int} {s t : Nat} {b : Int}
    {chain : List Nat} (h : Trail G parent s t chain b) (w : Nat) (a : Int)
    (hw : parent.getD w 0 = -1 ∨ w = t) :
    Trail G (parent.set w a) s t chain b := by
  induction h with
  | base => exact Trail.base
  | @step cur prev rest b e h1 h2 h3 h4 h5 h6 h7 h8 h9 _ ih =>
    have hne : w ≠ cur := by
      rintro rfl
      rcases hw with hw | hw
      · rw [h5] at hw; omega
      · exact h2 hw
    exact Trail.step h1 h2 h3 h4 (by rw [getD_set_ne _ _ hne]; exact h5) h6 h7 h8 h9 ih

/-- The vertices of a trail are joined to the source by edges that `BFS`
follows. -/
theorem Trail.reach {G : GRAPH} {parent : List Int} {s t : Nat} {b : Int}
    {chain : List Nat} (h : Trail G parent s t chain b) :
    ∀ x ∈ chain, Relation.ReflTransGen (UsableStep G) s x := by
  induction h with
  | base =>
    intro x hx
    simp only [List.mem_singleton] at hx
    subst hx; exact Relation.ReflTransGen.refl
  | @step cur prev rest b e _ _ _ _ _ h6 h7 h8 _ _ ih =>
    intro x hx
    rcases List.mem_cons.1 hx with rfl | hx
    · exact Relation.ReflTransGen.tail (ih prev (List.mem_cons_self _ _)) ⟨e, h6, h7, h8⟩
    · exact ih x hx

theorem queue_room_two (V : Nat) (items : List Int) (hnd : items.Nodup)
    (hitems : ∀ x ∈ items, ∃ u : Nat, x = (u : Int) ∧ 1 ≤ u ∧ u ≤ V)
    (a b : Nat) (ha : 1 ≤ a ∧ a ≤ V) (hb : 1 ≤ b ∧ b ≤ V)
    (hab : a ≠ b) (ha1 : (a : Int) ∉ items) (hb1 : (b : Int) ∉ items) :
    items.length + 2 ≤ V := by
  have hnd1 : (items.map Int.toNat).Nodup := by
    apply List.Nodup.map_on _ hnd
    intro x hx y hy hxy
    obtain ⟨u, rfl, _⟩ := hitems x hx
    obtain ⟨w, rfl, _⟩ := hitems y hy
    simpa using hxy
  have hmem : ∀ n : Nat, n ∈ items.map Int.toNat → (n : Int) ∈ items := by
    intro n hn
    rw [List.mem_map] at hn
    obtain ⟨x, hx, rfl⟩ := hn
    obtain ⟨u, rfl, _⟩ := hitems x hx
    simpa using hx
  have hL : (a :: b :: items.map Int.toNat).Nodup := by
    refine List.nodup_cons.2 ⟨?_, List.nodup_cons.2 ⟨?_, hnd1⟩⟩
    · simp only [List.mem_cons, not_or]
      exact ⟨hab, fun h => ha1 (hmem a h)⟩
    · exact fun h => hb1 (hmem b h)
  have := nodup_range_length_le V _ hL (by
    intro x hx
    simp only [List.mem_cons] at hx
    rcases hx with rfl | rfl | hx
    · exact ha
    · exact hb
    · rw [List.mem_map] at hx
      obtain ⟨z, hz, rfl⟩ := hx
      obtain ⟨u, rfl, h1, h2⟩ := hitems z hz
      simpa using ⟨h1, h2⟩)
  simpa using this

theorem SearchInv.pass {G : GRAPH} {s t cv : Nat} {cf : Int} {e : EDGE} {es : List EDGE}
    {st : BFSState} (h : SearchInv G s t cv cf (e :: es) st) (he : Handled t st e) :
    SearchInv G s t cv cf es st := by
  refine { h with handled := ?_ }
  intro u h1 h2 h3 h4 h5 e1 he1
  rcases h.handled u h1 h2 h3 h4 h5 e1 he1 with h6 | ⟨h6, h7⟩
  · exact Or.inl h6
  · rcases List.mem_cons.1 h7 with rfl | h7
    · exact Or.inl he
    · exact Or.inr ⟨h6, h7⟩

theorem SearchInv.sinkFound {G : GRAPH} {s t cv : Nat} {cf : Int} {e : EDGE} {es : List EDGE}
    {st : BFSState} (ctx : SearchCtx G s t) (h : SearchInv G s t cv cf (e :: es) st)
    (hmem : e ∈ adj G cv) (hy : e.y = t)
    (hlt : st.maxFlow_path < (if cf < wrapInt (e.c - e.f) then cf else wrapInt (e.c - e.f))) :
    SearchInv G s t cv cf es
      { st with maxFlow_path := (if cf < wrapInt (e.c - e.f) then cf else wrapInt (e.c - e.f)),
                parent := st.parent.set e.y (cv : Int) } := by
  have hcvne : ((cv : Nat) : Int) ≠ -1 := by omega
  have hpos : 0 < (if cf < wrapInt (e.c - e.f) then cf else wrapInt (e.c - e.f)) := lt_of_le_of_lt h.sink.1 hlt
  have hyr := ctx.hrange cv h.cvr.1 h.cvr.2.1 e hmem
  have hset : ∀ {b : Int} {chain : List Nat}, Trail G st.parent s t chain b →
      Trail G (st.parent.set e.y (cv : Int)) s t chain b :=
    fun hc => hc.write e.y _ (Or.inr hy)
  refine
    { plen := by simpa using h.plen
      ps := ?_
      vqWF := h.vqWF
      fqWF := h.fqWF
      vqcap := h.vqcap
      fqcap := h.fqcap
      qs := ?_
      nodup := h.nodup
      cvq := h.cvq
      cvr := h.cvr
      cvc := ?_
      handled := ?_
      sink := ?_ }
  · show (st.parent.set e.y (cv : Int)).getD s 0 = 0
    rw [getD_set_ne _ _ (by rw [hy]; exact Ne.symm ctx.hst)]; exact h.ps
  · refine List.Forall₂.imp ?_ h.qs
    rintro v f ⟨u, hv, h1, h2, h3, rest, h5⟩
    exact ⟨u, hv, h1, h2, h3, rest, hset h5⟩
  · obtain ⟨rest, hc⟩ := h.cvc
    exact ⟨rest, hset hc⟩
  · intro u h1 h2 h3 h4 h5 e1 he1
    have h4a : st.parent.getD u 0 ≠ -1 := by
      have : (st.parent.set e.y (cv : Int)).getD u 0 ≠ -1 := h4
      rwa [getD_set_ne _ _ (by rw [hy]; exact Ne.symm h3)] at this
    have mono : ∀ e0, Handled t st e0 →
        Handled t { st with maxFlow_path := (if cf < wrapInt (e.c - e.f) then cf else wrapInt (e.c - e.f)),
                            parent := st.parent.set e.y (cv : Int) } e0 :=
      fun e0 h0 => h0.weaken (le_of_lt hlt) (fun v hv => getD_set_ne_neg_one _ _ _ hcvne v hv)
    rcases h.handled u h1 h2 h3 h4a h5 e1 he1 with h6 | ⟨h6, h7⟩
    · exact Or.inl (mono _ h6)
    · rcases List.mem_cons.1 h7 with rfl | h7
      · exact Or.inl (fun _ => Or.inl ⟨hy, hpos⟩)
      · exact Or.inr ⟨h6, h7⟩
  · refine ⟨le_of_lt hpos, fun _ => ?_⟩
    obtain ⟨rest, hc⟩ := h.cvc
    refine ⟨cv, rest, cf, e, ?_, hset hc, hmem, hy, rfl⟩
    show (st.parent.set e.y (cv : Int)).getD t 0 = cv
    rw [hy, getD_set_self _ _ (by rw [h.plen]; have := hyr.2; omega)]

theorem SearchInv.queue_found {G : GRAPH} {s t cv : Nat} {cf : Int} {es : List EDGE}
    {st : BFSState} (h : SearchInv G s t cv cf es st) :
    ∀ x ∈ st.vertexQueue.items, ∃ u : Nat, x = (u : Int) ∧ 1 ≤ u ∧ u ≤ G.V ∧ u ≠ t ∧
      st.parent.getD u 0 ≠ -1 := by
  intro x hx
  have := h.qs
  generalize st.vertexQueue.items = vs at this hx
  generalize st.flowQueue.items = fs at this
  induction this with
  | nil => simp at hx
  | cons hab _ ih =>
    rcases List.mem_cons.1 hx with rfl | hx
    · obtain ⟨u, hv, h1, h2, h3, rest, h5⟩ := hab
      exact ⟨u, hv, h1, h2, h3, h5.found h.ps u (List.mem_cons_self _ _)⟩
    · exact ih hx

theorem SearchInv.sameSize {G : GRAPH} {s t cv : Nat} {cf : Int} {es : List EDGE}
    {st : BFSState} (h : SearchInv G s t cv cf es st) :
    st.flowQueue.size = st.vertexQueue.size := by
  rw [← Queue.items_length, ← Queue.items_length]
  exact (List.Forall₂.length_eq h.qs).symm

/-- When an undiscovered vertex is met, the queues hold fewer than `V - 1`
items: the queued vertices, the scanned vertex and the new one are distinct
vertex ids. -/
theorem SearchInv.room {G : GRAPH} {s t cv : Nat} {cf : Int} {e : EDGE} {es : List EDGE}
    {st : BFSState} (ctx : SearchCtx G s t) (h : SearchInv G s t cv cf es st)
    (hmem : e ∈ adj G cv) (hy : e.y ≠ t) (hp : st.parent.getD e.y 0 = -1) :
    st.vertexQueue.size + 1 < G.V ∧ st.flowQueue.size + 1 < G.V ∧
      isFull st.vertexQueue = false ∧ isFull st.flowQueue = false ∧
      ((e.y : Nat) : Int) ∉ st.vertexQueue.items ∧ e.y ≠ cv ∧
      st.vertexQueue.size < MAX := by
  have hyr := ctx.hrange cv h.cvr.1 h.cvr.2.1 e hmem
  obtain ⟨rest, hc⟩ := h.cvc
  have hcvv : st.parent.getD cv 0 ≠ -1 := hc.found h.ps cv (List.mem_cons_self _ _)
  have hycv : e.y ≠ cv := by
    intro h1; rw [h1] at hp; exact hcvv hp
  have hyq : ((e.y : Nat) : Int) ∉ st.vertexQueue.items := by
    intro hx
    obtain ⟨u, hu, _, _, _, hv⟩ := h.queue_found _ hx
    have : e.y = u := by exact_mod_cast hu
    rw [← this] at hv
    exact hv hp
  have hroom : st.vertexQueue.items.length + 2 ≤ G.V :=
    queue_room_two G.V _ h.nodup
      (fun x hx => by
        obtain ⟨u, hu, h1, h2, _⟩ := h.queue_found x hx
        exact ⟨u, hu, h1, h2⟩)
      e.y cv hyr ⟨h.cvr.1, h.cvr.2.1⟩ hycv hyq h.cvq
  have hsz : st.vertexQueue.items.length < MAX := by
    by_cases htr : 1 ≤ t ∧ t ≤ G.V
    · have htq : ((t : Nat) : Int) ∉ st.vertexQueue.items := by
        intro hx
        obtain ⟨u, hu, _, _, hne, _⟩ := h.queue_found _ hx
        exact hne (by exact_mod_cast hu.symm)
      have := queue_room G.V _ h.nodup
        (fun x hx => by
          obtain ⟨u, hu, h1, h2, _⟩ := h.queue_found x hx
          exact ⟨u, hu, h1, h2⟩)
        e.y cv t hyr ⟨h.cvr.1, h.cvr.2.1⟩ htr hycv hy h.cvr.2.2 hyq h.cvq htq
      have hV := ctx.hV
      omega
    · have hV := ctx.hVt htr
      omega
  rw [Queue.items_length] at hroom hsz
  refine ⟨by omega, by rw [h.sameSize]; omega, ?_, ?_, hyq, hycv, hsz⟩
  · simp only [isFull, beq_eq_false_iff_ne, ne_eq]
    rw [h.vqcap]; omega
  · simp only [isFull, beq_eq_false_iff_ne, ne_eq]
    rw [h.fqcap, h.sameSize]; omega

theorem SearchInv.enqueued {G : GRAPH} {s t cv : Nat} {cf : Int} {e : EDGE} {es : List EDGE}
    {st : BFSState} (ctx : SearchCtx G s t) (h : SearchInv G s t cv cf (e :: es) st)
    (hmem : e ∈ adj G cv) (hy : e.y ≠ t) (hp : st.parent.getD e.y 0 = -1)
    (hr : 0 < wrapInt (e.c - e.f)) :
    SearchInv G s t cv cf es
      { st with parent := st.parent.set e.y (cv : Int),
                vertexQueue := enqueue st.vertexQueue e.y,
                flowQueue := enqueue st.flowQueue (if cf < wrapInt (e.c - e.f) then cf else wrapInt (e.c - e.f)) } ∧
    bfsMeasure
      { st with parent := st.parent.set e.y (cv : Int),
                vertexQueue := enqueue st.vertexQueue e.y,
                flowQueue := enqueue st.flowQueue (if cf < wrapInt (e.c - e.f) then cf else wrapInt (e.c - e.f)) } ≤
      bfsMeasure st := by
  have hcvne : ((cv : Nat) : Int) ≠ -1 := by omega
  have hyr := ctx.hrange cv h.cvr.1 h.cvr.2.1 e hmem
  obtain ⟨rest, hc⟩ := h.cvc
  obtain ⟨hr1, hr2, hf1, hf2, hyq, hycv, hsz⟩ := h.room ctx hmem hy hp
  have hys : e.y ≠ s := by
    intro h1; rw [h1, h.ps] at hp; exact absurd hp (by decide)
  have hV := ctx.hV
  have hvsz : st.vertexQueue.size < st.vertexQueue.capacity := by
    rw [h.vqcap]; omega
  have hfsz : st.flowQueue.size < st.flowQueue.capacity := by
    rw [h.fqcap, h.sameSize]; omega
  have hset : ∀ {b : Int} {chain : List Nat}, Trail G st.parent s t chain b →
      Trail G (st.parent.set e.y (cv : Int)) s t chain b :=
    fun hc => hc.write e.y _ (Or.inl hp)
  have hylen : e.y < st.parent.length := by rw [h.plen]; omega
  have hnew : Trail G (st.parent.set e.y (cv : Int)) s t (e.y :: cv :: rest)
      (if cf < wrapInt (e.c - e.f) then cf else wrapInt (e.c - e.f)) :=
    Trail.step hys hy hyr.1 hyr.2 (getD_set_self _ _ hylen) hmem rfl hr
      (fun hin => hc.found h.ps _ hin hp) (hset hc)
  constructor
  · refine
      { plen := by simpa using h.plen
        ps := ?_
        vqWF := enqueue_WF _ _ h.vqWF
        fqWF := enqueue_WF _ _ h.fqWF
        vqcap := by rw [← h.vqcap]; exact enqueue_capacity _ _
        fqcap := by rw [← h.fqcap]; exact enqueue_capacity _ _
        qs := ?_
        nodup := ?_
        cvq := ?_
        cvr := h.cvr
        cvc := ⟨rest, hset hc⟩
        handled := ?_
        sink := ?_ }
    · show (st.parent.set e.y (cv : Int)).getD s 0 = 0
      rw [getD_set_ne _ _ hys]; exact h.ps
    · show List.Forall₂ _ (enqueue st.vertexQueue e.y).items
        (enqueue st.flowQueue (if cf < wrapInt (e.c - e.f) then cf else wrapInt (e.c - e.f))).items
      rw [enqueue_items _ _ h.vqWF hvsz, enqueue_items _ _ h.fqWF hfsz]
      refine List.rel_append (List.Forall₂.imp ?_ h.qs) (List.Forall₂.cons ?_ List.Forall₂.nil)
      · rintro v f ⟨u, hv, h1, h2, h3, rest1, h5⟩
        exact ⟨u, hv, h1, h2, h3, rest1, hset h5⟩
      · exact ⟨e.y, rfl, hyr.1, hyr.2, hy, cv :: rest, hnew⟩
    · show (enqueue st.vertexQueue e.y).items.Nodup
      rw [enqueue_items _ _ h.vqWF hvsz]
      exact List.Nodup.append h.nodup (List.nodup_singleton _)
        (by
          intro x hx hx1
          rw [List.mem_singleton] at hx1
          subst hx1
          exact hyq hx)
    · show (cv : Int) ∉ (enqueue st.vertexQueue e.y).items
      rw [enqueue_items _ _ h.vqWF hvsz, List.mem_append, not_or]
      refine ⟨h.cvq, ?_⟩
      rw [List.mem_singleton]
      intro h1
      exact hycv (by exact_mod_cast h1.symm)
    · intro u h1 h2 h3 h4 h5 e1 he1
      have h5a : (u : Int) ∉ (enqueue st.vertexQueue e.y).items := h5
      rw [enqueue_items _ _ h.vqWF hvsz, List.mem_append, not_or, List.mem_singleton] at h5a
      have hue : e.y ≠ u := fun h6 => h5a.2 (by rw [h6])
      have h4a : st.parent.getD u 0 ≠ -1 := by
        have : (st.parent.set e.y (cv : Int)).getD u 0 ≠ -1 := h4
        rwa [getD_set_ne _ _ hue] at this
      have mono : ∀ e0, Handled t st e0 →
          Handled t
            { st with parent := st.parent.set e.y (cv : Int),
                      vertexQueue := enqueue st.vertexQueue e.y,
                      flowQueue :=
                        enqueue st.flowQueue (if cf < wrapInt (e.c - e.f) then cf else wrapInt (e.c - e.f)) } e0 :=
        fun e0 h0 => h0.weaken (le_refl _) (fun v hv => getD_set_ne_neg_one _ _ _ hcvne v hv)
      rcases h.handled u h1 h2 h3 h4a h5a.1 e1 he1 with h6 | ⟨h6, h7⟩
      · exact Or.inl (mono _ h6)
      · rcases List.mem_cons.1 h7 with rfl | h7
        · refine Or.inl (fun _ => Or.inr ⟨hy, ?_⟩)
          show (st.parent.set e1.y (cv : Int)).getD e1.y 0 ≠ -1
          rw [getD_set_self _ _ hylen]; exact hcvne
        · exact Or.inr ⟨h6, h7⟩
    · refine ⟨h.sink.1, fun hpos => ?_⟩
      obtain ⟨p, rest1, b, e0, h1, h2, h3, h4, h5⟩ := h.sink.2 hpos
      refine ⟨p, rest1, b, e0, ?_, hset h2, h3, h4, h5⟩
      show (st.parent.set e.y (cv : Int)).getD t 0 = p
      rw [getD_set_ne _ _ hy]; exact h1
  · show (enqueue st.vertexQueue e.y).size + (st.parent.set e.y (cv : Int)).count (-1) ≤
      st.vertexQueue.size + st.parent.count (-1)
    rw [enqueue_size _ _ hvsz]
    have := count_set_lt st.parent e.y cv hcvne hp
    omega

theorem bfsScan_split (t : Nat) (cv cf : Int) (e : EDGE) (es : List EDGE) (st : BFSState) :
    bfsScan t cv cf (e :: es) st = bfsScan t cv cf es (bfsScan t cv cf [e] st) := by
  rw [bfsScan_cons, bfsScan_cons]
  by_cases hy : e.y = t
  · rw [if_pos hy, if_pos hy]
    by_cases hlt : st.maxFlow_path < (if cf < wrapInt (e.c - e.f) then cf else wrapInt (e.c - e.f))
    · rw [if_pos hlt, if_pos hlt, bfsScan_nil]
    · rw [if_neg hlt, if_neg hlt, bfsScan_nil]
  · rw [if_neg hy, if_neg hy]
    by_cases hc : st.parent.getD e.y 0 = -1 ∧ wrapInt (e.c - e.f) > 0
    · rw [if_pos hc, if_pos hc, bfsScan_nil]
    · rw [if_neg hc, if_neg hc, bfsScan_nil]

theorem bfsScanCalls_cons (t : Nat) (cv cf : Int) (e : EDGE) (es : List EDGE) (st : BFSState) :
    bfsScanCalls t cv cf (e :: es) st =
      (if e.y ≠ t ∧ st.parent.getD e.y 0 = -1 ∧ wrapInt (e.c - e.f) > 0 then
          [(st.vertexQueue, st.flowQueue, e.y)]
        else []) ++ bfsScanCalls t cv cf es (bfsScan t cv cf [e] st) := rfl

theorem CallsOK.nil (G : GRAPH) (t : Nat) (p : List Int) : CallsOK G t p [] := by
  constructor
  · simp
  · intro c hc; simp at hc

theorem CallsOK.append {G : GRAPH} {t : Nat} {p p1 : List Int}
    {A B : List (Queue × Queue × Nat)} (hA : CallsOK G t p A) (hB : CallsOK G t p1 B)
    (mono : ∀ v, p.getD v 0 ≠ -1 → p1.getD v 0 ≠ -1)
    (hdisc : ∀ c ∈ A, p1.getD c.2.2 0 ≠ -1) : CallsOK G t p (A ++ B) := by
  constructor
  · rw [List.map_append]
    refine List.Nodup.append hA.1 hB.1 ?_
    intro v hvA hvB
    rw [List.mem_map] at hvA hvB
    obtain ⟨a, ha, rfl⟩ := hvA
    obtain ⟨b, hb, hbv⟩ := hvB
    have h1 := (hB.2 b hb).2.1
    rw [hbv] at h1
    exact hdisc a ha h1
  · intro c hc
    rcases List.mem_append.1 hc with hc | hc
    · exact hA.2 c hc
    · obtain ⟨h1, h2, h3⟩ := hB.2 c hc
      refine ⟨h1, ?_, h3⟩
      by_contra hne
      exact mono _ hne h2

theorem bfsScan_search {G : GRAPH} {s t cv : Nat} {cf : Int} (ctx : SearchCtx G s t) :
    ∀ (es : List EDGE) (st : BFSState), SearchInv G s t cv cf es st →
      (∀ e ∈ es, e ∈ adj G cv) →
      SearchInv G s t cv cf [] (bfsScan t cv cf es st) ∧
      bfsMeasure (bfsScan t cv cf es st) ≤ bfsMeasure st ∧
      CallsOK G t st.parent (bfsScanCalls t cv cf es st) ∧
      (∀ v, st.parent.getD v 0 ≠ -1 → (bfsScan t cv cf es st).parent.getD v 0 ≠ -1) ∧
      ∀ c ∈ bfsScanCalls t cv cf es st, (bfsScan t cv cf es st).parent.getD c.2.2 0 ≠ -1 := by
  intro es
  induction es with
  | nil =>
    intro st h _
    exact ⟨h, le_refl _, CallsOK.nil _ _ _, fun _ hv => hv, fun c hc => by simp [bfsScanCalls] at hc⟩
  | cons e es ih =>
    intro st h hsub
    have hmem : e ∈ adj G cv := hsub e (List.mem_cons_self _ _)
    have hsub1 : ∀ e1 ∈ es, e1 ∈ adj G cv := fun e1 he1 => hsub e1 (List.mem_cons_of_mem _ he1)
    have hcf : 0 < cf := by
      obtain ⟨rest, hc⟩ := h.cvc
      exact hc.pos
    have hcvne : ((cv : Nat) : Int) ≠ -1 := by omega
    have hnf3 : 0 < wrapInt (e.c - e.f) → 0 < (if cf < wrapInt (e.c - e.f) then cf else wrapInt (e.c - e.f)) := by
      intro; split <;> omega
    rw [bfsScan_split, bfsScanCalls_cons]
    by_cases hy : e.y = t
    · have hno : ¬ (e.y ≠ t ∧ st.parent.getD e.y 0 = -1 ∧ wrapInt (e.c - e.f) > 0) := fun h1 => h1.1 hy
      rw [if_neg hno, List.nil_append]
      by_cases hlt : st.maxFlow_path < (if cf < wrapInt (e.c - e.f) then cf else wrapInt (e.c - e.f))
      · have hst1 : bfsScan t cv cf [e] st =
            { st with maxFlow_path := (if cf < wrapInt (e.c - e.f) then cf else wrapInt (e.c - e.f)),
                      parent := st.parent.set e.y (cv : Int) } := by
          rw [bfsScan_cons, if_pos hy, if_pos hlt, bfsScan_nil]
        rw [hst1]
        have h1 := h.sinkFound ctx hmem hy hlt
        obtain ⟨h2, h3, h4, h5, h6⟩ := ih _ h1 hsub1
        have mono : ∀ v, st.parent.getD v 0 ≠ -1 →
            (st.parent.set e.y (cv : Int)).getD v 0 ≠ -1 :=
          fun v hv => getD_set_ne_neg_one _ _ _ hcvne v hv
        refine ⟨h2, le_trans h3 ?_, ?_, fun v hv => h5 v (mono v hv), h6⟩
        · show st.vertexQueue.size + (st.parent.set e.y (cv : Int)).count (-1) ≤
            st.vertexQueue.size + st.parent.count (-1)
          have := count_set_le st.parent e.y (cv : Int) hcvne
          omega
        · have := (CallsOK.nil G t st.parent).append h4 mono (fun c hc => by simp at hc)
          simpa using this
      · have hst1 : bfsScan t cv cf [e] st = st := by
          rw [bfsScan_cons, if_pos hy, if_neg hlt, bfsScan_nil]
        rw [hst1]
        refine ih _ (h.pass ?_) hsub1
        intro hr
        have := hnf3 hr
        exact Or.inl ⟨hy, by omega⟩
    · by_cases hc : st.parent.getD e.y 0 = -1 ∧ wrapInt (e.c - e.f) > 0
      · have hst1 : bfsScan t cv cf [e] st =
            { st with parent := st.parent.set e.y (cv : Int),
                      vertexQueue := enqueue st.vertexQueue e.y,
                      flowQueue :=
                        enqueue st.flowQueue (if cf < wrapInt (e.c - e.f) then cf else wrapInt (e.c - e.f)) } := by
          rw [bfsScan_cons, if_neg hy, if_pos hc, bfsScan_nil]
        have hyes : e.y ≠ t ∧ st.parent.getD e.y 0 = -1 ∧ wrapInt (e.c - e.f) > 0 := ⟨hy, hc⟩
        rw [hst1, if_pos hyes]
        obtain ⟨h1, hm⟩ := h.enqueued ctx hmem hy hc.1 hc.2
        obtain ⟨hr1, hr2, hr3, hr4, _, _⟩ := h.room ctx hmem hy hc.1
        obtain ⟨h2, h3, h4, h5, h6⟩ := ih _ h1 hsub1
        have mono : ∀ v, st.parent.getD v 0 ≠ -1 →
            (st.parent.set e.y (cv : Int)).getD v 0 ≠ -1 :=
          fun v hv => getD_set_ne_neg_one _ _ _ hcvne v hv
        have hylen : e.y < st.parent.length := by
          rw [h.plen]
          have := (ctx.hrange cv h.cvr.1 h.cvr.2.1 e hmem).2
          omega
        have hnew : (st.parent.set e.y (cv : Int)).getD e.y 0 ≠ -1 := by
          rw [getD_set_self _ _ hylen]; exact hcvne
        have hone : CallsOK G t st.parent [(st.vertexQueue, st.flowQueue, e.y)] := by
          constructor
          · simp
          · intro c hc1
            rw [List.mem_singleton] at hc1
            subst hc1
            refine ⟨hy, hc.1, ?_, ?_, hr3, hr4⟩
            · show st.vertexQueue.size < G.V
              omega
            · show st.flowQueue.size < G.V
              omega
        refine ⟨h2, le_trans h3 hm, ?_, fun v hv => h5 v (mono v hv), ?_⟩
        · exact hone.append h4 mono (fun c hc1 => by
            rw [List.mem_singleton] at hc1
            subst hc1
            exact hnew)
        · intro c hc1
          rcases List.mem_append.1 hc1 with hc1 | hc1
          · rw [List.mem_singleton] at hc1
            subst hc1
            exact h5 _ hnew
          · exact h6 c hc1
      · have hst1 : bfsScan t cv cf [e] st = st := by
          rw [bfsScan_cons, if_neg hy, if_neg hc, bfsScan_nil]
        have hno : ¬ (e.y ≠ t ∧ st.parent.getD e.y 0 = -1 ∧ wrapInt (e.c - e.f) > 0) := fun h1 => hc h1.2
        rw [hst1, if_neg hno, List.nil_append]
        refine ih _ (h.pass ?_) hsub1
        intro hr
        exact Or.inr ⟨hy, fun hp => hc ⟨hp, hr⟩⟩

theorem bfsLoop_search {G : GRAPH} {s t : Nat} (ctx : SearchCtx G s t) :
    ∀ (fuel : Nat) (st : BFSState), (∃ cv cf, SearchInv G s t cv cf [] st) →
      bfsMeasure st < fuel →
      ∃ st1, bfsLoop G t fuel st = some st1 ∧ (∃ cv cf, SearchInv G s t cv cf [] st1) ∧
        st1.vertexQueue.items = [] ∧ CallsOK G t st.parent (bfsLoopCalls G t fuel st) := by
  intro fuel
  induction fuel with
  | zero => intro st _ h; exact absurd h (Nat.not_lt_zero _)
  | succ n ih =>
    intro st hinv hm
    obtain ⟨cv0, cf0, h⟩ := hinv
    rw [bfsLoop, bfsLoopCalls]
    by_cases he : isEmpty st.vertexQueue = true
    · rw [if_pos he, if_pos he]
      exact ⟨st, rfl, ⟨cv0, cf0, h⟩, (isEmpty_iff _).1 he, CallsOK.nil _ _ _⟩
    · rw [if_neg he, if_neg he]
      have hne : st.vertexQueue.items ≠ [] := fun h1 => he ((isEmpty_iff _).2 h1)
      have hqs := h.qs
      obtain ⟨x, xs, hx⟩ := List.exists_cons_of_ne_nil hne
      rw [hx] at hqs
      obtain ⟨f, fs, hhead, htail, hf⟩ := List.forall₂_cons_left_iff.1 hqs
      obtain ⟨u, hxu, hu1, hu2, hu3, rest, hchain⟩ := hhead
      obtain ⟨hd1, hd2⟩ := dequeue_items _ h.vqWF x xs hx
      obtain ⟨hd3, hd4⟩ := dequeue_items _ h.fqWF f fs hf
      have hnd := h.nodup
      rw [hx, List.nodup_cons] at hnd
      dsimp only
      rw [hd1, hd3, hxu, Int.toNat_ofNat]
      have hsize : st.vertexQueue.size = xs.length + 1 := by
        rw [← Queue.items_length, hx]; rfl
      have hsize2 : (dequeue st.vertexQueue).2.size = xs.length := by
        rw [← Queue.items_length, hd2]
      have hstart : SearchInv G s t u f (adj G u)
          { st with vertexQueue := (dequeue st.vertexQueue).2,
                    flowQueue := (dequeue st.flowQueue).2 } := by
        refine
          { plen := h.plen
            ps := h.ps
            vqWF := dequeue_WF _ h.vqWF
            fqWF := dequeue_WF _ h.fqWF
            vqcap := by rw [← h.vqcap]; exact dequeue_capacity _
            fqcap := by rw [← h.fqcap]; exact dequeue_capacity _
            qs := ?_
            nodup := ?_
            cvq := ?_
            cvr := ⟨hu1, hu2, hu3⟩
            cvc := ⟨rest, hchain⟩
            handled := ?_
            sink := h.sink }
        · show List.Forall₂ _ (dequeue st.vertexQueue).2.items (dequeue st.flowQueue).2.items
          rw [hd2, hd4]; exact htail
        · show (dequeue st.vertexQueue).2.items.Nodup
          rw [hd2]; exact hnd.2
        · show (u : Int) ∉ (dequeue st.vertexQueue).2.items
          rw [hd2, ← hxu]; exact hnd.1
        · intro u1 h1 h2 h3 h4 h5 e1 he1
          have h5a : (u1 : Int) ∉ (dequeue st.vertexQueue).2.items := h5
          rw [hd2] at h5a
          by_cases huu : u1 = u
          · exact Or.inr ⟨huu, huu ▸ he1⟩
          · have hnot : (u1 : Int) ∉ st.vertexQueue.items := by
              rw [hx, List.mem_cons, not_or]
              refine ⟨?_, h5a⟩
              rw [hxu]
              intro h6
              exact huu (by exact_mod_cast h6)
            rcases h.handled u1 h1 h2 h3 h4 hnot e1 he1 with h6 | ⟨_, h7⟩
            · exact Or.inl h6
            · simp at h7
      obtain ⟨h2, h3, h4, h5, h6⟩ := bfsScan_search ctx (adj G u) _ hstart (fun _ he => he)
      have hm1 : bfsMeasure { st with vertexQueue := (dequeue st.vertexQueue).2,
                                      flowQueue := (dequeue st.flowQueue).2 } + 1 =
          bfsMeasure st := by
        show (dequeue st.vertexQueue).2.size + st.parent.count (-1) + 1 =
          st.vertexQueue.size + st.parent.count (-1)
        rw [hsize, hsize2]; omega
      obtain ⟨st1, hrun, hinv1, hempty, hcalls⟩ := ih _ ⟨u, f, h2⟩ (by omega)
      exact ⟨st1, hrun, hinv1, hempty, h4.append hcalls h5 h6⟩

theorem isFull_createQueue : isFull (createQueue MAX) = false := by
  show ((0 : Nat) == MAX) = false
  decide

/-- A call `BFS(s, t)` with `s ≠ t` runs to completion, its final state
satisfies the loop invariant with the queue empty, and its calls of `enqueue`
are as `CallsOK` says. -/
theorem BFS_search {G : GRAPH} {s t : Nat} (ctx : SearchCtx G s t) (parent0 : List Int) :
    ∃ st1, BFS s t G parent0 = some (st1.maxFlow_path, st1.parent) ∧
      (∃ cv cf, SearchInv G s t cv cf [] st1) ∧ st1.vertexQueue.items = [] ∧
      CallsOK G t (List.replicate (G.V + 1) (-1)) (bfsCalls s t G) := by
  have hWF := createQueue_WF MAX_pos
  have hroom : (createQueue MAX).size < (createQueue MAX).capacity := MAX_pos
  have hvi : (enqueue (createQueue MAX) (s : Int)).items = [(s : Int)] := by
    rw [enqueue_items _ _ hWF hroom, createQueue_items]; rfl
  have hfi : (enqueue (createQueue MAX) INT_MAX).items = [INT_MAX] := by
    rw [enqueue_items _ _ hWF hroom, createQueue_items]; rfl
  have hvW := enqueue_WF (createQueue MAX) (s : Int) hWF
  have hfW := enqueue_WF (createQueue MAX) INT_MAX hWF
  obtain ⟨hd1, hd2⟩ := dequeue_items _ hvW _ _ hvi
  obtain ⟨hd3, hd4⟩ := dequeue_items _ hfW _ _ hfi
  have hsV : s < G.V + 1 := by have := ctx.hs.2; omega
  have hslen : s < (List.replicate (G.V + 1) (-1 : Int)).length := by
    simpa using hsV
  have hstart : SearchInv G s t s INT_MAX (adj G s)
      { bfsInit G s with vertexQueue := (dequeue (bfsInit G s).vertexQueue).2,
                         flowQueue := (dequeue (bfsInit G s).flowQueue).2 } := by
    refine
      { plen := by simp [bfsInit]
        ps := by simp only [bfsInit]; exact getD_set_self _ _ hslen
        vqWF := dequeue_WF _ hvW
        fqWF := dequeue_WF _ hfW
        vqcap := by
          show (dequeue (enqueue (createQueue MAX) (s : Int))).2.capacity = MAX
          rw [dequeue_capacity, enqueue_capacity]; rfl
        fqcap := by
          show (dequeue (enqueue (createQueue MAX) INT_MAX)).2.capacity = MAX
          rw [dequeue_capacity, enqueue_capacity]; rfl
        qs := ?_
        nodup := ?_
        cvq := ?_
        cvr := ⟨ctx.hs.1, ctx.hs.2, ctx.hst⟩
        cvc := ⟨[], Trail.base⟩
        handled := ?_
        sink := ⟨le_refl _, fun h => absurd h (lt_irrefl _)⟩ }
    · show List.Forall₂ _ (dequeue (enqueue (createQueue MAX) (s : Int))).2.items
        (dequeue (enqueue (createQueue MAX) INT_MAX)).2.items
      rw [hd2, hd4]; exact List.Forall₂.nil
    · show (dequeue (enqueue (createQueue MAX) (s : Int))).2.items.Nodup
      rw [hd2]; exact List.nodup_nil
    · show (s : Int) ∉ (dequeue (enqueue (createQueue MAX) (s : Int))).2.items
      rw [hd2]; simp
    · intro u h1 h2 h3 h4 h5 e he
      by_cases hus : u = s
      · exact Or.inr ⟨hus, hus ▸ he⟩
      · exfalso
        apply h4
        show ((List.replicate (G.V + 1) (-1 : Int)).set s 0).getD u 0 = -1
        exact getD_replicate_set _ _ _ hus (by omega)
  obtain ⟨h2, h3, h4, h5, h6⟩ := bfsScan_search ctx (adj G s) _ hstart (fun _ he => he)
  have hm : bfsMeasure
      { bfsInit G s with vertexQueue := (dequeue (bfsInit G s).vertexQueue).2,
                         flowQueue := (dequeue (bfsInit G s).flowQueue).2 } = G.V := by
    show (dequeue (enqueue (createQueue MAX) (s : Int))).2.size +
      ((List.replicate (G.V + 1) (-1 : Int)).set s 0).count (-1) = G.V
    rw [← Queue.items_length, hd2]
    have := count_set_lt (List.replicate (G.V + 1) (-1 : Int)) s 0 (by decide)
      (by simp [List.getD_eq_getElem?_getD, List.getElem?_replicate, hsV])
    rw [count_replicate_neg_one] at this
    simp only [List.length_nil]
    omega
  obtain ⟨st1, hst1, hinv, hempty, hcalls⟩ :=
    bfsLoop_search ctx (G.V + 1) _ ⟨s, INT_MAX, h2⟩ (by omega)
  have hne : ¬ isEmpty (bfsInit G s).vertexQueue = true := by
    rw [isEmpty_iff]
    show ¬ (enqueue (createQueue MAX) (s : Int)).items = []
    rw [hvi]; simp
  have e1 : (dequeue (bfsInit G s).vertexQueue).1 = (s : Int) := hd1
  have e2 : (dequeue (bfsInit G s).flowQueue).1 = INT_MAX := hd3
  have hrun : bfsLoop G t (G.V + 2) (bfsInit G s) = some st1 := by
    rw [bfsLoop, if_neg hne]
    dsimp only
    rw [e1, e2, Int.toNat_ofNat]
    exact hst1
  refine ⟨st1, by rw [BFS, if_neg ctx.hst, hrun], hinv, hempty, ?_⟩
  have hloopCalls : CallsOK G t (bfsInit G s).parent (bfsLoopCalls G t (G.V + 2) (bfsInit G s)) := by
    rw [bfsLoopCalls, if_neg hne]
    dsimp only
    rw [e1, e2, Int.toNat_ofNat]
    exact h4.append hcalls h5 h6
  rw [bfsCalls, if_neg ctx.hst]
  have hone : CallsOK G t (List.replicate (G.V + 1) (-1))
      [(createQueue MAX, createQueue MAX, s)] := by
    constructor
    · simp
    · intro c hc
      rw [List.mem_singleton] at hc
      subst hc
      refine ⟨ctx.hst, ?_, ?_, ?_, isFull_createQueue, isFull_createQueue⟩
      · simp [List.getD_eq_getElem?_getD, List.getElem?_replicate, hsV]
      · show 0 < G.V
        have := ctx.hs; omega
      · show 0 < G.V
        have := ctx.hs; omega
  have := hone.append hloopCalls
    (fun v hv => getD_set_ne_neg_one _ _ _ (by decide) v hv)
    (fun c hc => by
      rw [List.mem_singleton] at hc
      subst hc
      show ((List.replicate (G.V + 1) (-1 : Int)).set s 0).getD s 0 ≠ -1
      rw [getD_set_self _ _ hslen]; decide)
  simpa using this

/-! ## Results of a breadth-first search -/

theorem SearchState.ctx {G : GRAPH} (h : SearchState G) {s t : Nat} (hs : 1 ≤ s ∧ s ≤ G.V)
    (hst : s ≠ t) : SearchCtx G s t :=
  { hlen := h.1
    hrange := fun u h1 h2 => h.2.2 u (mem_range'_one.2 ⟨h1, h2⟩)
    hV := le_trans h.2.1 (by decide)
    hVt := fun _ => le_trans h.2.1 (by decide)
    hs := hs
    hst := hst }

theorem ResidualsFit.wrap {G : GRAPH} (h : ResidualsFit G) {u : Nat} (hu : 1 ≤ u ∧ u ≤ G.V)
    {e : EDGE} (he : e ∈ adj G u) : wrapInt (e.c - e.f) = e.c - e.f :=
  wrapInt_of_fits (h u (mem_range'_one.2 hu) e he).1 (h u (mem_range'_one.2 hu) e he).2

/-- Where every residual capacity is a value of `int`, the vertices reached
along edges that `BFS` follows are those reached along edges of positive
residual capacity. -/
theorem usable_reach_iff {G : GRAPH} (hrange : ∀ u, 1 ≤ u → u ≤ G.V → ∀ e ∈ adj G u,
    1 ≤ e.y ∧ e.y ≤ G.V) (hfit : ResidualsFit G) {s : Nat} (hs : 1 ≤ s ∧ s ≤ G.V) (t : Nat) :
    Relation.ReflTransGen (UsableStep G) s t ↔ Relation.ReflTransGen (ResidualStep G) s t := by
  constructor
  · intro h
    have key : Relation.ReflTransGen (ResidualStep G) s t ∧ 1 ≤ t ∧ t ≤ G.V := by
      induction h with
      | refl => exact ⟨Relation.ReflTransGen.refl, hs⟩
      | @tail u v _ hstep ih =>
        obtain ⟨e, he, hy, hr⟩ := hstep
        rw [hfit.wrap ih.2 he] at hr
        have := hrange u ih.2.1 ih.2.2 e he
        rw [hy] at this
        exact ⟨Relation.ReflTransGen.tail ih.1 ⟨e, he, hy, hr⟩, this⟩
    exact key.1
  · intro h
    have key : Relation.ReflTransGen (UsableStep G) s t ∧ 1 ≤ t ∧ t ≤ G.V := by
      induction h with
      | refl => exact ⟨Relation.ReflTransGen.refl, hs⟩
      | @tail u v _ hstep ih =>
        obtain ⟨e, he, hy, hr⟩ := hstep
        rw [← hfit.wrap ih.2 he] at hr
        have := hrange u ih.2.1 ih.2.2 e he
        rw [hy] at this
        exact ⟨Relation.ReflTransGen.tail ih.1 ⟨e, he, hy, hr⟩, this⟩
    exact key.1

/-- The value returned by `BFS(s, t)` for `s ≠ t` is never negative, and it is
positive exactly when `t` can be reached from `s` along edges whose residual
capacity, as computed on line 481, is positive. -/
theorem BFS_value {G : GRAPH} {s t : Nat} (ctx : SearchCtx G s t) (parent0 : List Int) :
    ∃ b parent, BFS s t G parent0 = some (b, parent) ∧ 0 ≤ b ∧
      (0 < b ↔ Relation.ReflTransGen (UsableStep G) s t) := by
  obtain ⟨st1, hrun, ⟨cv, cf, inv⟩, hempty, _⟩ := BFS_search ctx parent0
  refine ⟨st1.maxFlow_path, st1.parent, hrun, inv.sink.1, ?_, ?_⟩
  · intro hpos
    obtain ⟨p, rest, b, e, _, htrail, hmem, hy, hval⟩ := inv.sink.2 hpos
    have hb := htrail.pos
    have hr : 0 < wrapInt (e.c - e.f) := by
      rw [hval] at hpos
      split at hpos <;> omega
    exact Relation.ReflTransGen.tail (htrail.reach p (List.mem_cons_self _ _))
      ⟨e, hmem, hy, hr⟩
  · intro hreach
    by_contra hnot
    have hzero : st1.maxFlow_path = 0 := le_antisymm (not_lt.1 hnot) inv.sink.1
    have key : ∀ x, Relation.ReflTransGen (UsableStep G) s x →
        1 ≤ x ∧ x ≤ G.V ∧ x ≠ t ∧ st1.parent.getD x 0 ≠ -1 := by
      intro x hx
      induction hx with
      | refl => exact ⟨ctx.hs.1, ctx.hs.2, ctx.hst, by rw [inv.ps]; decide⟩
      | @tail u v _ hstep ih =>
        obtain ⟨e, he, hy, hr⟩ := hstep
        have hq : (u : Int) ∉ st1.vertexQueue.items := by rw [hempty]; simp
        rcases inv.handled u ih.1 ih.2.1 ih.2.2.1 ih.2.2.2 hq e he with h6 | ⟨_, h7⟩
        · rcases h6 hr with h8 | h8
          · rw [hzero] at h8; exact absurd h8.2 (lt_irrefl _)
          · have := ctx.hrange u ih.1 ih.2.1 e he
            rw [hy] at this h8
            exact ⟨this.1, this.2, h8.1, h8.2⟩
        · simp at h7
    exact (key t hreach).2.2.1 rfl

/-- The walk back along `parent` from the head of a trail reads off the trail. -/
theorem Trail.walk {G : GRAPH} {parent : List Int} {s t : Nat} {b : Int} {chain : List Nat}
    (h : Trail G parent s t chain b) :
    ∀ fuel, chain.length ≤ fuel → parentWalk parent s fuel (chain.headD 0) = some chain := by
  induction h with
  | base =>
    intro fuel hf
    cases fuel with
    | zero => simp at hf
    | succ k => simp [parentWalk]
  | @step cur prev rest b e h1 _ _ _ h5 _ _ _ _ _ ih =>
    intro fuel hf
    cases fuel with
    | zero => simp at hf
    | succ k =>
      have hk : (prev :: rest).length ≤ k := by
        simp only [List.length_cons] at hf ⊢
        omega
      have := ih k hk
      simp only [List.headD_cons] at this ⊢
      rw [parentWalk, if_neg h1, h5, Int.toNat_ofNat, this]
      rfl

theorem Trail.getLast {G : GRAPH} {parent : List Int} {s t : Nat} {b : Int}
    {chain : List Nat} (h : Trail G parent s t chain b) : chain.getLast? = some s := by
  induction h with
  | base => rfl
  | step _ _ _ _ _ _ _ _ _ _ ih => rw [List.getLast?_cons_cons]; exact ih

theorem filter_y_eq_singleton {L : List EDGE} (hL : (L.map EDGE.y).Nodup) {e : EDGE}
    (he : e ∈ L) : L.filter (fun a => a.y = e.y) = [e] := by
  induction L with
  | nil => simp at he
  | cons a as ih =>
    rw [List.map_cons, List.nodup_cons] at hL
    rcases List.mem_cons.1 he with rfl | he
    · have : as.filter (fun a => decide (a.y = e.y)) = [] := by
        rw [List.filter_eq_nil_iff]
        intro x hx
        simp only [decide_eq_true_eq]
        intro hxy
        exact hL.1 (by rw [← hxy]; exact List.mem_map_of_mem _ hx)
      simp [List.filter_cons, this]
    · have hne : ¬ a.y = e.y := by
        intro hae
        exact hL.1 (by rw [hae]; exact List.mem_map_of_mem _ he)
      simp only [List.filter_cons, hne, decide_False, Bool.false_eq_true, if_false]
      exact ih hL.2 he

/-- On a network without parallel edges the bottleneck carried along a trail
is a lower bound of the residual capacities of its edges, and it is one of
them unless it is still `INT_MAX`. -/
theorem Trail.residuals {G : GRAPH} {parent : List Int} {s t : Nat} {b : Int}
    {chain : List Nat} (h : Trail G parent s t chain b) (hs : 1 ≤ s ∧ s ≤ G.V)
    (hnp : NoParallel G) (hfit : ResidualsFit G) :
    (∀ r ∈ chainResiduals G chain, b ≤ r) ∧ (b = INT_MAX ∨ b ∈ chainResiduals G chain) := by
  induction h with
  | base => exact ⟨fun r hr => by simp [chainResiduals] at hr, Or.inl rfl⟩
  | @step cur prev rest b e _ _ _ _ _ h6 h7 _ _ htail ih =>
    have hprev := htail.ids hs prev (List.mem_cons_self _ _)
    rw [hfit.wrap hprev h6]
    have hfil : (adj G prev).filter (fun a => a.y = cur) = [e] := by
      rw [← h7]
      exact filter_y_eq_singleton (hnp prev (mem_range'_one.2 hprev)) h6
    have hres : chainResiduals G (cur :: prev :: rest) =
        (e.c - e.f) :: chainResiduals G (prev :: rest) := by
      rw [chainResiduals, hfil]; rfl
    rw [hres]
    constructor
    · intro r hr
      rcases List.mem_cons.1 hr with rfl | hr
      · split <;> omega
      · have := ih.1 r hr
        split <;> omega
    · by_cases hlt : b < e.c - e.f
      · rw [if_pos hlt]
        rcases ih.2 with h1 | h1
        · exact Or.inl h1
        · exact Or.inr (List.mem_cons_of_mem _ h1)
      · rw [if_neg hlt]
        exact Or.inr (List.mem_cons_self _ _)

/-- The chain recorded by a call of `BFS` that returns a positive value. -/
theorem BFS_chain {G : GRAPH} {s t : Nat} (ctx : SearchCtx G s t) (ht : 1 ≤ t ∧ t ≤ G.V)
    (hnp : NoParallel G) (hfit : ResidualsFit G) {parent0 parent : List Int} {b : Int}
    (hB : BFS s t G parent0 = some (b, parent)) (hb : 0 < b) :
    ∃ chain, parentWalk parent s (G.V + 1) t = some chain ∧ chain.Nodup ∧
      chain.head? = some t ∧ chain.getLast? = some s ∧
      b ∈ chainResiduals G chain ∧ ∀ r ∈ chainResiduals G chain, b ≤ r := by
  obtain ⟨st1, hrun, ⟨cv, cf, inv⟩, _, _⟩ := BFS_search ctx parent0
  rw [hB, Option.some.injEq, Prod.mk.injEq] at hrun
  obtain ⟨rfl, rfl⟩ := hrun
  obtain ⟨p, rest, b0, e, hpt, htrail, hmem, hy, hval⟩ := inv.sink.2 hb
  have hpr := htrail.ids ctx.hs p (List.mem_cons_self _ _)
  have hnd : (t :: p :: rest).Nodup :=
    List.nodup_cons.2 ⟨fun hin => htrail.avoids ctx.hst t hin rfl, htrail.distinct⟩
  have hlen : (t :: p :: rest).length ≤ G.V :=
    nodup_range_length_le G.V _ hnd (by
      intro x hx
      rcases List.mem_cons.1 hx with rfl | hx
      · exact ht
      · exact htrail.ids ctx.hs x hx)
  have hwalk : parentWalk st1.parent s (G.V + 1) t = some (t :: p :: rest) := by
    have := htrail.walk G.V (by simp only [List.length_cons] at hlen ⊢; omega)
    simp only [List.headD_cons] at this
    rw [parentWalk, if_neg (Ne.symm ctx.hst), hpt, Int.toNat_ofNat, this]
    rfl
  have hlast : (t :: p :: rest).getLast? = some s := by
    rw [List.getLast?_cons_cons]
    exact htrail.getLast
  have hfil : (adj G p).filter (fun a => a.y = t) = [e] := by
    rw [← hy]
    exact filter_y_eq_singleton (hnp p (mem_range'_one.2 hpr)) hmem
  have hres : chainResiduals G (t :: p :: rest) =
      (e.c - e.f) :: chainResiduals G (p :: rest) := by
    rw [chainResiduals, hfil]; rfl
  obtain ⟨hlow, hatt⟩ := htrail.residuals ctx.hs hnp hfit
  have hfit1 := hfit p (mem_range'_one.2 hpr) e hmem
  have hmax := htrail.le_INT_MAX
  rw [hfit.wrap hpr hmem] at hval
  refine ⟨t :: p :: rest, hwalk, hnd, rfl, hlast, ?_, ?_⟩
  · rw [hres, hval]
    by_cases hlt : b0 < e.c - e.f
    · rw [if_pos hlt]
      rcases hatt with h1 | h1
      · omega
      · exact List.mem_cons_of_mem _ h1
    · rw [if_neg hlt]
      exact List.mem_cons_self _ _
  · intro r hr
    rw [hres] at hr
    rw [hval]
    rcases List.mem_cons.1 hr with rfl | hr
    · split <;> omega
    · have := hlow r hr
      split <;> omega

theorem BfsCtx.searchCtx {G : GRAPH} {s t : Nat} (ctx : BfsCtx G s t) : SearchCtx G s t :=
  { hlen := ctx.hlen
    hrange := ctx.hrange
    hV := ctx.hV
    hVt := fun h => absurd ctx.ht h
    hs := ctx.hs
    hst := ctx.hst }

/-- Where duplicate edges are inert and no difference `c - f` lies below
`INT_MIN`, every link of a trail has first-edge residual capacity at least the
bottleneck carried along it. -/
theorem Trail.bfsChain {G : GRAPH} {parent : List Int} {s t : Nat} {b : Int}
    {chain : List Nat} (h : Trail G parent s t chain b) (hs : 1 ≤ s ∧ s ≤ G.V)
    (hinert : ∀ u, 1 ≤ u → u ≤ G.V → DupInert (adj G u))
    (hres : ∀ u, 1 ≤ u → u ≤ G.V → ∀ e ∈ adj G u, INT_MIN ≤ e.c - e.f) :
    ∀ b1, b1 ≤ b → BfsChain G parent s t b1 chain := by
  induction h with
  | base => exact fun _ _ => BfsChain.base
  | @step cur prev rest b e h1 h2 h3 h4 h5 h6 h7 h8 h9 htail ih =>
    intro b1 hb1
    have hprev := htail.ids hs prev (List.mem_cons_self _ _)
    obtain ⟨hr1, hr2⟩ := wrapInt_pos_le (hres prev hprev.1 hprev.2 e h6) h8
    have hcp := residual_of_mem (hinert prev hprev.1 hprev.2) h6 hr1
    rw [h7] at hcp
    refine BfsChain.step h1 h2 h3 h4 h5 ?_ h9 (ih b1 ?_)
    · rw [hcp]; split at hb1 <;> omega
    · split at hb1 <;> omega

/-- A call `BFS(s, t)` on a state of the augmentation loop returns: a positive
value comes with a chain from `t` back to `s` whose links have first-edge
residual capacity at least that value, and the value `0` with a set of vertices
that holds `s`, not `t`, and is closed under the edges that `BFS` follows. -/
theorem BFS_spec {G : GRAPH} {s t : Nat} (ctx : BfsCtx G s t) (parent0 : List Int) :
    ∃ b parent, BFS s t G parent0 = some (b, parent) ∧ 0 ≤ b ∧
      (0 < b → ∃ (p : Nat) (rest : List Nat), parent.getD t 0 = (p : Int) ∧
        BfsChain G parent s t b (p :: rest) ∧ b ≤ Cp G p t - Fl G p t) ∧
      (b = 0 → ∃ S : Finset Nat, ResidualCut G s t S) := by
  obtain ⟨st1, hrun, ⟨cv, cf, inv⟩, hempty, _⟩ := BFS_search ctx.searchCtx parent0
  refine ⟨st1.maxFlow_path, st1.parent, hrun, inv.sink.1, ?_, ?_⟩
  · intro hpos
    obtain ⟨p, rest, b, e, hpt, htrail, hmem, hy, hval⟩ := inv.sink.2 hpos
    have hpr := htrail.ids ctx.hs p (List.mem_cons_self _ _)
    have hw : 0 < wrapInt (e.c - e.f) := by
      rw [hval] at hpos
      split at hpos <;> omega
    obtain ⟨hr1, hr2⟩ := wrapInt_pos_le (ctx.hres p hpr.1 hpr.2 e hmem) hw
    have hcp := residual_of_mem (ctx.hinert p hpr.1 hpr.2) hmem hr1
    rw [hy] at hcp
    refine ⟨p, rest, hpt, htrail.bfsChain ctx.hs ctx.hinert ctx.hres _ ?_, ?_⟩
    · rw [hval]; split <;> omega
    · rw [hcp, hval]; split <;> omega
  · intro hzero
    refine ⟨(Finset.Icc 1 G.V).filter (fun u => u ≠ t ∧ st1.parent.getD u 0 ≠ -1), ?_, ?_, ?_, ?_⟩
    · rw [Finset.mem_filter, Finset.mem_Icc]
      exact ⟨ctx.hs, ctx.hst, by rw [inv.ps]; decide⟩
    · rw [Finset.mem_filter]
      exact fun h => h.2.1 rfl
    · intro u hu
      rw [Finset.mem_filter, Finset.mem_Icc] at hu
      exact hu.1
    · intro u hu e he hr
      rw [Finset.mem_filter, Finset.mem_Icc] at hu ⊢
      have hq : (u : Int) ∉ st1.vertexQueue.items := by rw [hempty]; simp
      rcases inv.handled u hu.1.1 hu.1.2 hu.2.1 hu.2.2 hq e he with h6 | ⟨_, h7⟩
      · rcases h6 hr with h8 | h8
        · rw [hzero] at h8; exact absurd h8.2 (lt_irrefl _)
        · exact ⟨ctx.hrange u hu.1.1 hu.1.2 e he, h8⟩
      · simp at h7

/-! ## One augmentation preserves the flow invariant -/

theorem Cp_ne_or_Fl_ne_hasEdge {G : GRAPH} {u v : Nat} (h : Cp G u v ≠ 0 ∨ Fl G u v ≠ 0) :
    ∃ e ∈ adj G u, e.y = v := by
  rw [← firstEdge_isSome]
  by_contra hcon
  have hn : firstEdge (adj G u) v = none := by
    cases hf : firstEdge (adj G u) v with
    | none => rfl
    | some e => rw [hf] at hcon; simp at hcon
  rcases h with h | h
  · apply h; simp [Cp, hn]
  · apply h; simp [Fl, hn]

theorem BfsChain.toParentChain {G : GRAPH} {parent : List Int} {s t : Nat} {b m : Int}
    {chain : List Nat} (h : BfsChain G parent s t b chain) (hb : 0 < b)
    (inv : FlowInv G s t m) (hs : 1 ≤ s ∧ s ≤ G.V) : ParentChain G parent s chain := by
  induction h with
  | base => exact ParentChain.base
  | @step cur prev rest h1 h2 h3 h4 h5 h6 h7 hrest ih =>
    have hp := hrest.inRange hs prev (List.mem_cons_self _ _)
    have hne : Cp G prev cur ≠ 0 ∨ Fl G prev cur ≠ 0 := by
      by_contra hcon
      push_neg at hcon
      rw [hcon.1, hcon.2] at h6
      omega
    have hpc : prev ≠ cur := fun h => h7 (h ▸ List.mem_cons_self _ _)
    exact ParentChain.step h1 hpc h5 (Cp_ne_or_Fl_ne_hasEdge hne)
      (inv.comp prev cur hp.1 hp.2 h3 h4 hne) ih

theorem ParentChain.delta_hasEdge {G : GRAPH} {parent : List Int} {s : Nat} {b : Int}
    {chain : List Nat} (h : ParentChain G parent s chain) (u v : Nat)
    (hd : pathDelta b chain u v ≠ 0) : ∃ e ∈ adj G v, e.y = u := by
  induction h with
  | base => simp [pathDelta] at hd
  | @step cur prev rest h1 h2 h3 h4 h5 _ ih =>
    rw [pathDelta_cons2] at hd
    by_cases c1 : u = prev ∧ v = cur
    · obtain ⟨rfl, rfl⟩ := c1; exact h5
    · by_cases c2 : u = cur ∧ v = prev
      · obtain ⟨rfl, rfl⟩ := c2; exact h4
      · simp only [c1, c2, if_false, sub_zero, zero_add] at hd
        exact ih hd

theorem SameShape.mem_y {G G1 : GRAPH} (h : SameShape G G1) {u : Nat} {e : EDGE}
    (he : e ∈ adj G1 u) : ∃ e0 ∈ adj G u, e0.y = e.y :=
  (h.hasEdge u e.y).1 ⟨e, he, rfl⟩

theorem FlowInv.augment {G G1 : GRAPH} {s t : Nat} {m b : Int} {parent : List Int}
    {p : Nat} {rest : List Nat} (inv : FlowInv G s t m)
    (hs : 1 ≤ s ∧ s ≤ G.V) (ht : 1 ≤ t ∧ t ≤ G.V) (hst : s ≠ t) (hb : 0 < b)
    (hchain : BfsChain G parent s t b (p :: rest))
    (hres : b ≤ Cp G p t - Fl G p t)
    (hpc : ParentChain G parent s (t :: p :: rest))
    (hshape : SameShape G G1)
    (hFl : ∀ u v, Fl G1 u v = Fl G u v + pathDelta b (t :: p :: rest) u v)
    (hD : ∀ u, DupInert (adj G u) → DupInert (adj G1 u)) :
    FlowInv G1 s t (m + b) := by
  have hnd : (t :: p :: rest).Nodup :=
    List.nodup_cons.2 ⟨fun h => hchain.ne_sink hst t h rfl, hchain.nodup⟩
  have hlast : (t :: p :: rest).getLast? = some s := by
    rw [List.getLast?_cons_cons]; exact hchain.last
  have hinr : ∀ x ∈ t :: p :: rest, x ∈ Finset.Icc 1 G.V := by
    intro x hx
    rw [Finset.mem_Icc]
    rcases List.mem_cons.1 hx with rfl | hx
    · exact ht
    · exact hchain.inRange hs x hx
  have hV := hshape.V
  refine
    { hlen := by rw [hshape.len, hV]; exact inv.hlen
      hrange := ?_
      hinert := ?_
      skew := ?_
      cap := ?_
      low := ?_
      comp := ?_
      cons := ?_
      sinkOut := ?_
      srcOut := ?_ }
  · intro u h1 h2 e he
    rw [hV] at h2 ⊢
    obtain ⟨e0, he0, hy⟩ := hshape.mem_y he
    rw [← hy]; exact inv.hrange u h1 h2 e0 he0
  · intro u h1 h2
    rw [hV] at h2
    exact hD u (inv.hinert u h1 h2)
  · intro u v h1 h2 h3 h4
    rw [hV] at h2 h4
    rw [hFl, hFl, inv.skew u v h1 h2 h3 h4, pathDelta_skew b _ u v]
    ring
  · intro u v h1 h2 h3 h4
    rw [hV] at h2 h4
    rw [hFl, hshape.Cp_eq]
    have hR : ∀ u v, 0 ≤ max 0 (Cp G u v - Fl G u v) := fun _ _ => le_max_left _ _
    have hch : List.Chain' (fun cur prev => b ≤ max 0 (Cp G prev cur - Fl G prev cur))
        (t :: p :: rest) := by
      refine List.chain'_cons.2 ⟨le_max_of_le_right hres, ?_⟩
      exact List.Chain'.imp (fun _ _ h => le_max_of_le_right h) hchain.residual
    have := pathDelta_le_res b (le_of_lt hb) _ hR _ hnd hch u v
    have hc := inv.cap u v h1 h2 h3 h4
    rw [le_max_iff] at this hc ⊢
    omega
  · intro u v h1 h2 h3 h4
    rw [hV] at h2 h4
    rw [hshape.Cp_eq]
    exact inv.low u v h1 h2 h3 h4
  · intro u v h1 h2 h3 h4 hne
    rw [hV] at h2 h4
    rw [hshape.hasEdge]
    rw [hshape.Cp_eq, hFl] at hne
    by_cases hd : pathDelta b (t :: p :: rest) u v = 0
    · rw [hd, add_zero] at hne
      exact inv.comp u v h1 h2 h3 h4 hne
    · exact hpc.delta_hasEdge u v hd
  · intro u h1 h2
    rw [hV] at h2 ⊢
    simp only [hFl, Finset.sum_add_distrib, inv.cons u h1 h2]
    rw [pathDelta_row_sum b G.V _ s hinr hlast t rfl u]
    by_cases hus : u = s
    · have : u ≠ t := fun h => hst (hus.symm.trans h)
      simp [hus, hst]
    · by_cases hut : u = t
      · simp [hut, Ne.symm hst]; ring
      · simp [hus, hut]
  · intro v h1 h2
    rw [hV] at h2
    rw [hFl]
    have := pathDelta_head_le b (le_of_lt hb) t (p :: rest) hnd v
    have := inv.sinkOut v h1 h2
    omega
  · intro v h1 h2
    rw [hV] at h2
    rw [hFl]
    have := pathDelta_last_ge b (le_of_lt hb) _ s hnd hlast v
    have := inv.srcOut v h1 h2
    omega

/-! ## The augmentation loop -/

/-- In a state of the augmentation loop no difference `c - f` lies below
`INT_MIN`. -/
theorem FlowInv.list_low {G : GRAPH} {s t : Nat} {m : Int} (inv : FlowInv G s t m) :
    ∀ u, 1 ≤ u → u ≤ G.V → ∀ e ∈ adj G u, INT_MIN ≤ e.c - e.f := by
  intro u h1 h2 e he
  by_cases hne : e.c ≠ 0 ∨ e.f ≠ 0
  · have hf := dupInert_first (inv.hinert u h1 h2) he hne
    have hy := inv.hrange u h1 h2 e he
    have hc := inv.cap u e.y h1 h2 hy.1 hy.2
    have hl := inv.low u e.y h1 h2 hy.1 hy.2
    simp only [Cp, Fl, hf] at hc hl
    rw [le_max_iff] at hc
    have h0 : INT_MIN ≤ 0 := by decide
    omega
  · push_neg at hne
    rw [hne.1, hne.2]
    decide

theorem FlowInv.bfsCtx {G : GRAPH} {s t : Nat} {m : Int} (inv : FlowInv G s t m)
    (hV : G.V ≤ MAX + 2) (hs : 1 ≤ s ∧ s ≤ G.V) (ht : 1 ≤ t ∧ t ≤ G.V) (hst : s ≠ t) :
    BfsCtx G s t :=
  ⟨inv.hlen, inv.hrange, inv.hinert, inv.list_low, hV, hs, ht, hst⟩

theorem loop_step {G : GRAPH} {s t : Nat} {m : Int} (inv : FlowInv G s t m)
    (hV : G.V ≤ MAX + 2) (hs : 1 ≤ s ∧ s ≤ G.V) (ht : 1 ≤ t ∧ t ≤ G.V) (hst : s ≠ t)
    (p0 : List Int) :
    ∃ b parent, BFS s t G p0 = some (b, parent) ∧ 0 ≤ b ∧
      (0 < b → ∃ G1, augment parent s b (G.V + 1) t G = some G1 ∧ SameShape G G1 ∧
        FlowInv G1 s t (m + b)) ∧
      (b = 0 → ∃ S, ResidualCut G s t S) := by
  obtain ⟨b, parent, hB, hb0, hpos, hzero⟩ := BFS_spec (inv.bfsCtx hV hs ht hst) p0
  refine ⟨b, parent, hB, hb0, ?_, hzero⟩
  intro hb
  obtain ⟨p, rest, hpt, hchain, hres⟩ := hpos hb
  have hpr := hchain.inRange hs p (List.mem_cons_self _ _)
  have hpt' : p ≠ t := hchain.ne_sink hst p (List.mem_cons_self _ _)
  have hne : Cp G p t ≠ 0 ∨ Fl G p t ≠ 0 := by
    by_contra hcon
    push_neg at hcon
    rw [hcon.1, hcon.2] at hres
    omega
  have hpc : ParentChain G parent s (t :: p :: rest) :=
    ParentChain.step (Ne.symm hst) hpt' hpt (Cp_ne_or_Fl_ne_hasEdge hne)
      (inv.comp p t hpr.1 hpr.2 ht.1 ht.2 hne) (hchain.toParentChain hb inv hs)
  have hnd : (t :: p :: rest).Nodup :=
    List.nodup_cons.2 ⟨fun h => hchain.ne_sink hst t h rfl, hchain.nodup⟩
  have hlen : (t :: p :: rest).length ≤ G.V + 1 := by
    have := nodup_range_length_le G.V _ hnd (by
      intro x hx
      rcases List.mem_cons.1 hx with rfl | hx
      · exact ht
      · exact hchain.inRange hs x hx)
    omega
  obtain ⟨G1, hG1, hshape, hFl, hD⟩ := augment_spec b hpc t (p :: rest) (G.V + 1) rfl hlen
  exact ⟨G1, hG1, hshape, inv.augment hs ht hst hb hchain hres hpc hshape hFl hD⟩

theorem FlowInv.value_le {G : GRAPH} {s t : Nat} {m : Int} (inv : FlowInv G s t m)
    (hs : 1 ≤ s ∧ s ≤ G.V) : m ≤ ∑ v ∈ Finset.Icc 1 G.V, max (Cp G s v) 0 := by
  have h1 := inv.cons s hs.1 hs.2
  rw [if_pos rfl] at h1
  rw [← h1]
  apply Finset.sum_le_sum
  intro v hv
  rw [Finset.mem_Icc] at hv
  exact inv.cap s v hs.1 hs.2 hv.1 hv.2

theorem SameShape.sum_Cp {G G1 : GRAPH} (h : SameShape G G1) (s : Nat) :
    ∑ v ∈ Finset.Icc 1 G1.V, max (Cp G1 s v) 0 = ∑ v ∈ Finset.Icc 1 G.V, max (Cp G s v) 0 := by
  rw [h.V]
  exact Finset.sum_congr rfl (fun v _ => by rw [h.Cp_eq s v])

theorem maxFlowLoop_spec {s t : Nat} (hst : s ≠ t) :
    ∀ (fuel : Nat) (G : GRAPH) (p0 : List Int) (m : Int), FlowInv G s t m →
      G.V ≤ MAX + 2 → 1 ≤ s ∧ s ≤ G.V → 1 ≤ t ∧ t ≤ G.V →
      ((∑ v ∈ Finset.Icc 1 G.V, max (Cp G s v) 0) - m).toNat < fuel →
      ∃ G1 m1, maxFlowLoop s t fuel G p0 m = some (G1, m1) ∧ SameShape G G1 ∧
        FlowInv G1 s t m1 ∧ ∃ S, ResidualCut G1 s t S := by
  intro fuel
  induction fuel with
  | zero => intro G p0 m _ _ _ _ h; exact absurd h (Nat.not_lt_zero _)
  | succ n ih =>
    intro G p0 m inv hV hs ht hfuel
    obtain ⟨b, parent, hB, hb0, hpos, hzero⟩ := loop_step inv hV hs ht hst p0
    rw [maxFlowLoop, hB]
    by_cases hb : b = 0
    · simp only [hb, if_true]
      exact ⟨G, m, rfl, SameShape.refl G, inv, hzero hb⟩
    · simp only [hb, if_false]
      have hbpos : 0 < b := lt_of_le_of_ne hb0 (Ne.symm hb)
      obtain ⟨G1, hG1, hshape, inv1⟩ := hpos hbpos
      rw [hG1]
      have hle := inv1.value_le (by rw [hshape.V]; exact hs)
      rw [hshape.sum_Cp] at hle
      obtain ⟨G2, m2, h2, hs2, inv2, hcut⟩ := ih G1 parent (m + b) inv1
        (by rw [hshape.V]; exact hV) (by rw [hshape.V]; exact hs) (by rw [hshape.V]; exact ht)
        (by rw [hshape.sum_Cp]; omega)
      exact ⟨G2, m2, h2, hshape.trans hs2, inv2, hcut⟩

theorem afterAugmentations_inv {s t : Nat} (hst : s ≠ t) :
    ∀ (n : Nat) (G : GRAPH) (p0 : List Int) (m : Int) (G1 : GRAPH) (m1 : Int),
      FlowInv G s t m → G.V ≤ MAX + 2 → 1 ≤ s ∧ s ≤ G.V → 1 ≤ t ∧ t ≤ G.V →
      afterAugmentations s t n G p0 m = some (G1, m1) →
      SameShape G G1 ∧ FlowInv G1 s t m1 := by
  intro n
  induction n with
  | zero =>
    intro G p0 m G1 m1 inv _ _ _ h
    simp only [afterAugmentations, Option.some.injEq, Prod.mk.injEq] at h
    obtain ⟨rfl, rfl⟩ := h
    exact ⟨SameShape.refl _, inv⟩
  | succ n ih =>
    intro G p0 m G1 m1 inv hV hs ht h
    obtain ⟨b, parent, hB, hb0, hpos, _⟩ := loop_step inv hV hs ht hst p0
    rw [afterAugmentations, hB] at h
    by_cases hb : b = 0
    · simp [hb] at h
    · simp only [hb, if_false] at h
      have hbpos : 0 < b := lt_of_le_of_ne hb0 (Ne.symm hb)
      obtain ⟨G2, hG2, hshape, inv2⟩ := hpos hbpos
      rw [hG2] at h
      obtain ⟨h3, h4⟩ := ih G2 parent (m + b) G1 m1 inv2
        (by rw [hshape.V]; exact hV) (by rw [hshape.V]; exact hs) (by rw [hshape.V]; exact ht) h
      exact ⟨hshape.trans h3, h4⟩

/-! ## The reverse-edge pass -/

theorem Ext.same (G : GRAPH) : Ext G G :=
  ⟨rfl, rfl, rfl, fun _ => rfl, fun u => ⟨[], by simp⟩⟩

theorem Ext.chain {G G1 G2 : GRAPH} (h1 : Ext G G1) (h2 : Ext G1 G2) : Ext G G2 := by
  refine ⟨h2.V.trans h1.V, h2.E.trans h1.E, h2.len.trans h1.len,
    fun u => (h2.need u).trans (h1.need u), fun u => ?_⟩
  obtain ⟨e1, he1, hz1⟩ := h1.app u
  obtain ⟨e2, he2, hz2⟩ := h2.app u
  refine ⟨e1 ++ e2, by rw [he2, he1, List.append_assoc], ?_⟩
  intro e he
  rcases List.mem_append.1 he with h | h
  · exact hz1 e h
  · obtain ⟨a1, a2, a3, a4, e0, he0, hy0, hc0⟩ := hz2 e h
    rw [h1.V] at a4
    refine ⟨a1, a2, a3, a4, e0, ?_, hy0, hc0⟩
    obtain ⟨e3, he3, hz3⟩ := h1.app e.y
    rw [he3] at he0
    rcases List.mem_append.1 he0 with h' | h'
    · exact h'
    · exact absurd (hz3 e0 h').1 hc0

theorem Ext.keepsEdge {G G1 : GRAPH} (h : Ext G G1) {u v : Nat} (he : ∃ e ∈ adj G u, e.y = v) :
    ∃ e ∈ adj G1 u, e.y = v := by
  obtain ⟨e, hm, hy⟩ := he
  obtain ⟨ext, happ, _⟩ := h.app u
  exact ⟨e, by rw [happ]; exact List.mem_append_left _ hm, hy⟩

theorem Ext.getElem? {G G1 : GRAPH} (h : Ext G G1) {u k : Nat} {e : EDGE}
    (he : (adj G u)[k]? = some e) : (adj G1 u)[k]? = some e := by
  obtain ⟨ext, happ, _⟩ := h.app u
  rw [happ, List.getElem?_append_left]
  · exact he
  · by_contra hcon
    rw [List.getElem?_eq_none (Nat.le_of_not_lt hcon)] at he
    cases he

theorem addReverse_ext_setAdj (G : GRAPH) (x y : Nat) (hx : 1 ≤ x ∧ x ≤ G.V)
    (hxy : ∃ e0 ∈ adj G x, e0.y = y ∧ e0.c ≠ 0) :
    Ext G (setAdj G y (adj G y ++ [{ y := x, c := 0, f := 0 }])) := by
  refine ⟨V_setAdj _ _ _, E_setAdj _ _ _, length_setAdj _ _ _, fun u => need_setAdj _ _ u _, ?_⟩
  intro u
  rw [adj_setAdj]
  split
  · rename_i h
    rw [h.1]
    refine ⟨[{ y := x, c := 0, f := 0 }], rfl, ?_⟩
    intro e he
    rw [List.mem_singleton] at he
    subst he
    exact ⟨rfl, rfl, hx.1, hx.2, hxy⟩
  · exact ⟨[], by simp⟩

theorem addReverse_cases (G : GRAPH) (x y : Nat) :
    addReverse G x y = G ∧ ((∃ e ∈ adj G y, e.y = x) ∨ G.H.length ≤ y) ∨
    addReverse G x y = setAdj G y (adj G y ++ [{ y := x, c := 0, f := 0 }]) ∧
      y < G.H.length := by
  by_cases hy : y < G.H.length
  · unfold addReverse
    cases hadj : adj G y with
    | nil => right; simp [hy]
    | cons e es =>
      dsimp only
      by_cases hany : (e :: es).dropLast.any (fun q => q.y == x) = true
      · left
        rw [if_pos hany]
        refine ⟨rfl, Or.inl ?_⟩
        rw [List.any_eq_true] at hany
        obtain ⟨q, hq, hqx⟩ := hany
        exact ⟨q, List.mem_of_mem_dropLast hq, by simpa using hqx⟩
      · right
        rw [if_neg hany]
        exact ⟨rfl, hy⟩
  · left
    have hnil : adj G y = [] := adj_eq_nil_of_le G y (by omega)
    refine ⟨?_, Or.inr (by omega)⟩
    unfold addReverse
    rw [hnil]
    dsimp only
    unfold setAdj
    rw [List.getElem?_eq_none (by omega)]

theorem addReverse_ext (G : GRAPH) (x y : Nat) (hx : 1 ≤ x ∧ x ≤ G.V)
    (hxy : ∃ e0 ∈ adj G x, e0.y = y ∧ e0.c ≠ 0) :
    Ext G (addReverse G x y) := by
  rcases addReverse_cases G x y with ⟨h, _⟩ | ⟨h, _⟩
  · rw [h]; exact Ext.same G
  · rw [h]; exact addReverse_ext_setAdj G x y hx hxy

theorem addReverse_hasEdge (G : GRAPH) (x y : Nat) (hy : y < G.H.length) :
    ∃ e ∈ adj (addReverse G x y) y, e.y = x := by
  rcases addReverse_cases G x y with ⟨h, h1 | h1⟩ | ⟨h, _⟩
  · rw [h]; exact h1
  · omega
  · rw [h, adj_setAdj_self _ _ _ hy]
    exact ⟨_, List.mem_append_right _ (List.mem_singleton_self _), rfl⟩

theorem addReverse_measure (G : GRAPH) (x y j : Nat) (hj : j ≤ (adj G x).length) :
    reverseMeasure (addReverse G x y) x j ≤ reverseMeasure G x j + 1 := by
  rcases addReverse_cases G x y with ⟨h, _⟩ | ⟨h, _⟩
  · rw [h]; omega
  · rw [h]
    unfold reverseMeasure
    rw [adj_setAdj]
    split
    · rename_i hc
      rw [hc.1] at hj ⊢
      rw [List.drop_append_of_le_length hj, List.countP_append, List.length_append]
      simp
      omega
    · omega

theorem reverseInner_spec (x : Nat) :
    ∀ (fuel j : Nat) (G G1 : GRAPH), 1 ≤ x ∧ x ≤ G.V → reverseInner x fuel j G = some G1 →
      Ext G G1 ∧ ∀ k, j ≤ k → ∀ e, (adj G x)[k]? = some e → e.c ≠ 0 → e.y < G.H.length →
        ∃ e1 ∈ adj G1 e.y, e1.y = x := by
  intro fuel
  induction fuel with
  | zero => intro j G G1 _ h; simp [reverseInner] at h
  | succ n ih =>
    intro j G G1 hx h
    rw [reverseInner] at h
    cases hj : (adj G x)[j]? with
    | none =>
      rw [hj] at h
      simp only [Option.some.injEq] at h
      subst h
      refine ⟨Ext.same G, ?_⟩
      intro k hk e he
      have hlen : (adj G x).length ≤ j := by
        by_contra hcon
        rw [List.getElem?_eq_getElem (by omega)] at hj
        cases hj
      rw [List.getElem?_eq_none (by omega)] at he
      cases he
    | some pointer =>
      rw [hj] at h
      dsimp only at h
      by_cases hc : pointer.c = 0
      · rw [if_pos hc] at h
        obtain ⟨h1, h2⟩ := ih (j + 1) G G1 hx h
        refine ⟨h1, ?_⟩
        intro k hk e he hec hey
        by_cases hkj : k = j
        · subst hkj
          rw [hj] at he
          injection he with he
          subst he
          exact absurd hc hec
        · exact h2 k (by omega) e he hec hey
      · rw [if_neg hc] at h
        have hext := addReverse_ext G x pointer.y hx
          ⟨pointer, List.getElem?_mem hj, rfl, hc⟩
        obtain ⟨h1, h2⟩ := ih (j + 1) _ G1 (by rw [hext.V]; exact hx) h
        refine ⟨hext.chain h1, ?_⟩
        intro k hk e he hec hey
        by_cases hkj : k = j
        · subst hkj
          rw [hj] at he
          injection he with he
          subst he
          exact h1.keepsEdge (addReverse_hasEdge G x pointer.y hey)
        · exact h2 k (by omega) e (hext.getElem? he) hec (by rw [hext.len]; exact hey)

theorem reverseInner_total (x : Nat) :
    ∀ (fuel j : Nat) (G : GRAPH), reverseMeasure G x j < fuel →
      ∃ G1, reverseInner x fuel j G = some G1 := by
  intro fuel
  induction fuel with
  | zero => intro j G h; exact absurd h (Nat.not_lt_zero _)
  | succ n ih =>
    intro j G hm
    rw [reverseInner]
    cases hj : (adj G x)[j]? with
    | none => exact ⟨G, rfl⟩
    | some pointer =>
      dsimp only
      have hlt : j < (adj G x).length := by
        by_contra hcon
        rw [List.getElem?_eq_none (by omega)] at hj
        cases hj
      have hdrop : (adj G x).drop j = pointer :: (adj G x).drop (j + 1) := by
        rw [List.drop_eq_getElem_cons hlt]
        congr 1
        rw [List.getElem?_eq_getElem hlt] at hj
        injection hj
      by_cases hc : pointer.c = 0
      · rw [if_pos hc]
        apply ih
        unfold reverseMeasure at hm ⊢
        have hp : ¬ ((fun e : EDGE => decide (e.c ≠ 0)) pointer = true) := by simp [hc]
        rw [hdrop, List.countP_cons_of_neg (fun e : EDGE => decide (e.c ≠ 0)) _ hp] at hm
        omega
      · rw [if_neg hc]
        apply ih
        have h1 := addReverse_measure G x pointer.y (j + 1) (by omega)
        have h2 : reverseMeasure G x (j + 1) + 3 ≤ reverseMeasure G x j := by
          unfold reverseMeasure
          have hp : (fun e : EDGE => decide (e.c ≠ 0)) pointer = true := by simp [hc]
          rw [hdrop, List.countP_cons_of_pos (fun e : EDGE => decide (e.c ≠ 0)) _ hp]
          omega
        omega

theorem reverseMeasure_zero_lt (G : GRAPH) (x : Nat) :
    reverseMeasure G x 0 < 3 * (adj G x).length + 1 := by
  unfold reverseMeasure
  have := List.countP_le_length (fun e : EDGE => decide (e.c ≠ 0)) (l := adj G x)
  simp only [List.drop_zero]
  omega

theorem reverseOuter_spec :
    ∀ (ids : List Nat) (G : GRAPH), (∀ i ∈ ids, 1 ≤ i ∧ i ≤ G.V) →
      ∃ G1, reverseOuter ids G = some G1 ∧ Ext G G1 ∧
        ∀ i ∈ ids, ∀ e ∈ adj G i, e.c ≠ 0 → e.y < G.H.length → ∃ e1 ∈ adj G1 e.y, e1.y = i := by
  intro ids
  induction ids with
  | nil => intro G _; exact ⟨G, rfl, Ext.same G, by simp⟩
  | cons i rest ih =>
    intro G hids
    have hi := hids i (List.mem_cons_self _ _)
    obtain ⟨G1, hG1⟩ := reverseInner_total i _ 0 G (reverseMeasure_zero_lt G i)
    obtain ⟨hext, hrev⟩ := reverseInner_spec i _ 0 G G1 hi hG1
    obtain ⟨G2, hG2, hext2, hrev2⟩ := ih G1 (by
      intro k hk
      rw [hext.V]
      exact hids k (List.mem_cons_of_mem _ hk))
    refine ⟨G2, by rw [reverseOuter, hG1]; exact hG2, hext.chain hext2, ?_⟩
    intro k hk e he hec hey
    rcases List.mem_cons.1 hk with rfl | hk
    · obtain ⟨n, hn, hget⟩ := List.getElem_of_mem he
      have hget' : (adj G k)[n]? = some e := by
        rw [List.getElem?_eq_getElem hn, hget]
      exact hext2.keepsEdge (hrev n (Nat.zero_le _) e hget' hec hey)
    · obtain ⟨ext, happ, _⟩ := hext.app k
      exact hrev2 k hk e (by rw [happ]; exact List.mem_append_left _ he) hec
        (by rw [hext.len]; exact hey)

theorem pairwise_of_forall_mem {α : Type} {R : α → α → Prop} {l : List α}
    (h : ∀ a ∈ l, ∀ b ∈ l, R a b) : l.Pairwise R := by
  induction l with
  | nil => exact List.Pairwise.nil
  | cons x xs ih =>
    refine List.pairwise_cons.2 ⟨fun b hb => h x (List.mem_cons_self _ _) b
      (List.mem_cons_of_mem _ hb), ih ?_⟩
    intro a ha b hb
    exact h a (List.mem_cons_of_mem _ ha) b (List.mem_cons_of_mem _ hb)

theorem dupInert_append {L ext : List EDGE} (hL : (L.map EDGE.y).Nodup)
    (hext : ∀ e ∈ ext, e.c = 0 ∧ e.f = 0) : DupInert (L ++ ext) := by
  unfold DupInert
  rw [List.pairwise_append]
  refine ⟨?_, pairwise_of_forall_mem (fun a _ b hb _ => hext b hb), fun a _ b hb _ => hext b hb⟩
  have := List.pairwise_map.1 hL
  exact this.imp (fun hne heq => absurd heq hne)

theorem WellFormed.at {G : GRAPH} (h : WellFormed G) {u : Nat} (h1 : 1 ≤ u) (h2 : u ≤ G.V) :
    (∀ e ∈ adj G u, 1 ≤ e.y ∧ e.y ≤ G.V ∧ 0 ≤ e.c ∧ e.f = 0) ∧ ((adj G u).map EDGE.y).Nodup :=
  h.2 u (mem_range'_one.2 ⟨h1, h2⟩)

theorem Runnable.edges {G : GRAPH} (h : Runnable G) {u : Nat} (h1 : 1 ≤ u) (h2 : u ≤ G.V) :
    (∀ e ∈ adj G u, 1 ≤ e.y ∧ e.y ≤ G.V ∧ INT_MIN ≤ e.c ∧ e.f = 0) ∧
      ((adj G u).map EDGE.y).Nodup :=
  h.2 u (mem_range'_one.2 ⟨h1, h2⟩)

theorem WellFormed.runnable {G : GRAPH} (h : WellFormed G) : Runnable G :=
  ⟨h.1, fun u hu => ⟨fun e he => by
    have := (h.2 u hu).1 e he
    exact ⟨this.1, this.2.1, le_trans (by decide) this.2.2.1, this.2.2.2⟩, (h.2 u hu).2⟩⟩

theorem Fl_eq_zero_of_forall {G : GRAPH} {u : Nat} (h : ∀ e ∈ adj G u, e.f = 0) (v : Nat) :
    Fl G u v = 0 := by
  unfold Fl
  cases hf : firstEdge (adj G u) v with
  | none => rfl
  | some e => exact h e (firstEdge_some_mem hf)

theorem Ext.Cp_same {G G1 : GRAPH} (h : Ext G G1) (u v : Nat) : Cp G1 u v = Cp G u v := by
  obtain ⟨ext, happ, hz⟩ := h.app u
  unfold Cp
  rw [happ, firstEdge_append]
  cases hf : firstEdge (adj G u) v with
  | some e => rfl
  | none =>
    simp only [Option.or]
    cases hf2 : firstEdge ext v with
    | none => rfl
    | some e => exact (hz e (firstEdge_some_mem hf2)).1

theorem Ext.flows_zero {G G1 : GRAPH} (h : Ext G G1) {u : Nat}
    (hz : ∀ e ∈ adj G u, e.f = 0) : ∀ e ∈ adj G1 u, e.f = 0 := by
  obtain ⟨ext, happ, hz2⟩ := h.app u
  intro e he
  rw [happ] at he
  rcases List.mem_append.1 he with h1 | h1
  · exact hz e h1
  · exact (hz2 e h1).2.1

theorem addReverseEdges_spec {G : GRAPH} (wf : Runnable G) {s t : Nat}
    (hs : 1 ≤ s ∧ s ≤ G.V) (ht : 1 ≤ t ∧ t ≤ G.V) :
    ∃ G1, addReverseEdges G = some G1 ∧ Ext G G1 ∧ FlowInv G1 s t 0 ∧
      ∀ u, 1 ≤ u → u ≤ G.V → ∀ e ∈ adj G1 u, e.f = 0 := by
  obtain ⟨G1, hG1, hext, hrev⟩ := reverseOuter_spec (List.range' 1 G.V) G
    (fun i hi => mem_range'_one.1 hi)
  have hflow : ∀ u, 1 ≤ u → u ≤ G.V → ∀ e ∈ adj G1 u, e.f = 0 :=
    fun u h1 h2 => hext.flows_zero (fun e he => ((wf.edges h1 h2).1 e he).2.2.2)
  have hFl : ∀ u v, 1 ≤ u → u ≤ G.V → Fl G1 u v = 0 :=
    fun u v h1 h2 => Fl_eq_zero_of_forall (hflow u h1 h2) v
  have hV := hext.V
  refine ⟨G1, hG1, hext, ?_, hflow⟩
  refine
    { hlen := by rw [hext.len, hV]; exact wf.1
      hrange := ?_
      hinert := ?_
      skew := ?_
      cap := ?_
      low := ?_
      comp := ?_
      cons := ?_
      sinkOut := ?_
      srcOut := ?_ }
  · intro u h1 h2 e he
    rw [hV] at h2 ⊢
    obtain ⟨ext, happ, hz⟩ := hext.app u
    rw [happ] at he
    rcases List.mem_append.1 he with h | h
    · have := (wf.edges h1 h2).1 e h
      exact ⟨this.1, this.2.1⟩
    · have := hz e h
      exact ⟨this.2.2.1, this.2.2.2.1⟩
  · intro u h1 h2
    rw [hV] at h2
    obtain ⟨ext, happ, hz⟩ := hext.app u
    rw [happ]
    exact dupInert_append (wf.edges h1 h2).2 (fun e he => ⟨(hz e he).1, (hz e he).2.1⟩)
  · intro u v h1 h2 h3 h4
    rw [hV] at h2 h4
    rw [hFl u v h1 h2, hFl v u h3 h4]; rfl
  · intro u v h1 h2 h3 h4
    rw [hV] at h2
    rw [hFl u v h1 h2]
    exact le_max_right _ _
  · intro u v h1 h2 h3 h4
    rw [hV] at h2
    rw [hext.Cp_same]
    unfold Cp
    cases hf : firstEdge (adj G u) v with
    | none => decide
    | some e => exact ((wf.edges h1 h2).1 e (firstEdge_some_mem hf)).2.2.1
  · intro u v h1 h2 h3 h4 hne
    rw [hV] at h2 h4
    rw [hFl u v h1 h2, hext.Cp_same] at hne
    have hc : Cp G u v ≠ 0 := by
      rcases hne with h | h
      · exact h
      · exact absurd rfl h
    unfold Cp at hc
    cases hf : firstEdge (adj G u) v with
    | none => rw [hf] at hc; exact absurd rfl hc
    | some e =>
      rw [hf] at hc
      have hy := firstEdge_some_y hf
      have := hrev u (mem_range'_one.2 ⟨h1, h2⟩) e (firstEdge_some_mem hf) hc
        (by rw [hy, wf.1]; omega)
      rw [hy] at this
      exact this
  · intro u h1 h2
    rw [hV] at h2
    rw [Finset.sum_eq_zero (fun v _ => hFl u v h1 h2)]
    split
    · rfl
    · split <;> rfl
  · intro v _ _
    rw [hFl t v ht.1 ht.2]
  · intro v _ _
    rw [hFl s v hs.1 hs.2]

/-! ## The loop as an iteration of augmentations -/

theorem BFS_fst_indep (s t : Nat) (G : GRAPH) (p p1 : List Int) :
    (BFS s t G p).map Prod.fst = (BFS s t G p1).map Prod.fst := by
  unfold BFS
  split
  · rfl
  · rfl

theorem maxFlowLoop_some_iff_after {s t : Nat} :
    ∀ (fuel : Nat) (G : GRAPH) (p : List Int) (m : Int) (r : GRAPH × Int),
      maxFlowLoop s t fuel G p m = some r →
      ∃ n, n < fuel ∧ afterAugmentations s t n G p m = some r ∧
        ∀ p1, (BFS s t r.1 p1).map Prod.fst = some 0 := by
  intro fuel
  induction fuel with
  | zero => intro G p m r h; simp [maxFlowLoop] at h
  | succ k ih =>
    intro G p m r h
    rw [maxFlowLoop] at h
    cases hB : BFS s t G p with
    | none => rw [hB] at h; cases h
    | some res =>
      obtain ⟨b, parent⟩ := res
      rw [hB] at h
      dsimp only at h
      by_cases hb : b = 0
      · rw [if_pos hb] at h
        injection h with h
        subst h
        refine ⟨0, Nat.succ_pos _, rfl, fun p1 => ?_⟩
        rw [BFS_fst_indep s t G p1 p, hB, hb]; rfl
      · rw [if_neg hb] at h
        cases hA : augment parent s b (G.V + 1) t G with
        | none => rw [hA] at h; cases h
        | some G1 =>
          rw [hA] at h
          obtain ⟨n, hn, hafter, hz⟩ := ih G1 parent (m + b) r h
          refine ⟨n + 1, by omega, ?_, hz⟩
          rw [afterAugmentations, hB]
          dsimp only
          rw [if_neg hb, hA]
          exact hafter

theorem maxFlowLoop_of_after {s t : Nat} :
    ∀ (n : Nat) (G : GRAPH) (p : List Int) (m : Int) (r : GRAPH × Int),
      afterAugmentations s t n G p m = some r →
      (∀ p1, (BFS s t r.1 p1).map Prod.fst = some 0) →
      ∀ fuel, n < fuel → maxFlowLoop s t fuel G p m = some r := by
  intro n
  induction n with
  | zero =>
    intro G p m r h hz fuel hf
    simp only [afterAugmentations, Option.some.injEq] at h
    subst h
    cases fuel with
    | zero => omega
    | succ k =>
      rw [maxFlowLoop]
      have := hz p
      cases hB : BFS s t G p with
      | none => rw [hB] at this; cases this
      | some res =>
        obtain ⟨b, parent⟩ := res
        rw [hB] at this
        simp only [Option.map_some', Option.some.injEq] at this
        dsimp only
        rw [if_pos this]
  | succ n ih =>
    intro G p m r h hz fuel hf
    cases fuel with
    | zero => omega
    | succ k =>
      rw [afterAugmentations] at h
      rw [maxFlowLoop]
      cases hB : BFS s t G p with
      | none => rw [hB] at h; cases h
      | some res =>
        obtain ⟨b, parent⟩ := res
        rw [hB] at h
        dsimp only at h ⊢
        by_cases hb : b = 0
        · rw [if_pos hb] at h; cases h
        · rw [if_neg hb] at h ⊢
          cases hA : augment parent s b (G.V + 1) t G with
          | none => rw [hA] at h; cases h
          | some G1 =>
            rw [hA] at h
            dsimp only at h ⊢
            exact ih G1 parent (m + b) r h hz k (by omega)

theorem MAX_eq : MAX = 10000 := rfl

/-- The run of `ComputeMaxFlow` on a well-formed network with at most
`MAX + 2` vertices and `s ≠ t`: the loop exits after some number `n` of
augmentations, whatever fuel above `n` is supplied, with a network that keeps
the flow invariant and admits a residual cut. -/
theorem ComputeMaxFlow_run {G : GRAPH} (wf : Runnable G) (hV : G.V ≤ MAX + 2) {s t : Nat}
    (hs : 1 ≤ s ∧ s ≤ G.V) (ht : 1 ≤ t ∧ t ≤ G.V) (hst : s ≠ t) :
    ∃ (n : Nat) (G0 G1 : GRAPH) (m : Int), addReverseEdges G = some G0 ∧ Ext G G0 ∧
      afterAugmentations s t n G0 (List.replicate (G0.V + 1) 0) 0 = some (G1, m) ∧
      (∀ p, (BFS s t G1 p).map Prod.fst = some 0) ∧
      (∀ fuel, n < fuel → ComputeMaxFlow fuel G s t = some (G1, m)) ∧
      SameShape G0 G1 ∧ FlowInv G1 s t m ∧ ∃ S, ResidualCut G1 s t S := by
  obtain ⟨G0, hG0, hext, inv0, _⟩ := addReverseEdges_spec wf hs ht
  have hV0 : G0.V ≤ MAX + 2 := by rw [hext.V]; exact hV
  have hs0 : 1 ≤ s ∧ s ≤ G0.V := by rw [hext.V]; exact hs
  have ht0 : 1 ≤ t ∧ t ≤ G0.V := by rw [hext.V]; exact ht
  obtain ⟨G1, m, hloop, hshape, inv1, hcut⟩ :=
    maxFlowLoop_spec hst _ G0 (List.replicate (G0.V + 1) 0) 0 inv0 hV0 hs0 ht0 (Nat.lt_succ_self _)
  obtain ⟨n, _, hafter, hz⟩ := maxFlowLoop_some_iff_after _ _ _ _ _ hloop
  refine ⟨n, G0, G1, m, hG0, hext, hafter, hz, ?_, hshape, inv1, hcut⟩
  intro fuel hf
  rw [ComputeMaxFlow, hG0]
  exact maxFlowLoop_of_after n _ _ _ _ hafter hz fuel hf

/-! ## States reached by `ComputeMaxFlow` -/

theorem afterAugmentations_same (s : Nat) :
    ∀ (n : Nat) (G : GRAPH) (p : List Int) (m : Int) (r : GRAPH × Int),
      afterAugmentations s s n G p m = some r → r = (G, m) := by
  intro n G p m r h
  cases n with
  | zero => simp only [afterAugmentations, Option.some.injEq] at h; exact h.symm
  | succ k => simp [afterAugmentations, BFS] at h

/-- Every state reached by `ComputeMaxFlow` on a well-formed network keeps the
flow invariant, has the shape of the network after the reverse-edge pass, and
that network extends the input by zero-capacity edges. -/
theorem augmentedState_inv {G : GRAPH} (wf : Runnable G) (hV : G.V ≤ MAX + 2) {s t : Nat}
    (hs : 1 ≤ s ∧ s ≤ G.V) (ht : 1 ≤ t ∧ t ≤ G.V) {n : Nat} {G1 : GRAPH} {m : Int}
    (h : augmentedState G s t n = some (G1, m)) :
    ∃ G0, Ext G G0 ∧ SameShape G0 G1 ∧ FlowInv G1 s t m := by
  obtain ⟨G0, hG0, hext, inv0, _⟩ := addReverseEdges_spec wf hs ht
  rw [augmentedState, hG0] at h
  dsimp only at h
  refine ⟨G0, hext, ?_⟩
  by_cases hst : s = t
  · subst hst
    have := afterAugmentations_same s n _ _ _ _ h
    simp only [Prod.mk.injEq] at this
    obtain ⟨rfl, rfl⟩ := this
    exact ⟨SameShape.refl _, inv0⟩
  · exact afterAugmentations_inv hst n G0 _ 0 G1 m inv0 (by rw [hext.V]; exact hV)
      (by rw [hext.V]; exact hs) (by rw [hext.V]; exact ht) h

/-- The run of `ComputeMaxFlow` on a well-formed network, for all vertex ids
`s`, `t`: it ends after some number `n` of augmentations. -/
theorem ComputeMaxFlow_ends {G : GRAPH} (wf : Runnable G) (hV : G.V ≤ MAX + 2) {s t : Nat}
    (hs : 1 ≤ s ∧ s ≤ G.V) (ht : 1 ≤ t ∧ t ≤ G.V) :
    ∃ (n : Nat) (G1 : GRAPH) (m : Int), augmentedState G s t n = some (G1, m) ∧
      (∀ p, (BFS s t G1 p).map Prod.fst = some 0) ∧
      ∀ fuel, n < fuel → ComputeMaxFlow fuel G s t = some (G1, m) := by
  by_cases hst : s = t
  · obtain ⟨G0, hG0, _, _, _⟩ := addReverseEdges_spec wf hs ht
    have hz : ∀ p, (BFS s t G0 p).map Prod.fst = some 0 := by
      intro p; simp [BFS, hst]
    refine ⟨0, G0, 0, by rw [augmentedState, hG0]; rfl, hz, ?_⟩
    intro fuel hf
    rw [ComputeMaxFlow, hG0]
    exact maxFlowLoop_of_after 0 _ _ _ _ rfl hz fuel hf
  · obtain ⟨n, G0, G1, m, h1, _, h2, h3, h4, _⟩ := ComputeMaxFlow_run wf hV hs ht hst
    exact ⟨n, G1, m, by rw [augmentedState, h1]; exact h2, h3, h4⟩

theorem ValidNetwork.le_MAX {G : GRAPH} (hG : ValidNetwork G) : G.V ≤ MAX + 2 := by
  rw [MAX_eq]; have := hG.2; omega

theorem FlowInv.edge_first {G : GRAPH} {s t : Nat} {m : Int} (inv : FlowInv G s t m) {u : Nat}
    (h1 : 1 ≤ u) (h2 : u ≤ G.V) {e : EDGE} (he : e ∈ adj G u) (hc : 0 < e.c) :
    Cp G u e.y = e.c ∧ Fl G u e.y = e.f := by
  have := dupInert_first (inv.hinert u h1 h2) he (Or.inl (by omega))
  simp [Cp, Fl, this]

theorem FlowInv.companion {G : GRAPH} {s t : Nat} {m : Int} (inv : FlowInv G s t m) {u : Nat}
    (h1 : 1 ≤ u) (h2 : u ≤ G.V) {e : EDGE} (he : e ∈ adj G u) (hc : 0 < e.c) :
    ∃ e1, firstEdge (adj G e.y) u = some e1 ∧ e1.f = - e.f := by
  obtain ⟨hCp, hFl⟩ := inv.edge_first h1 h2 he hc
  have hy := inv.hrange u h1 h2 e he
  have hex := inv.comp u e.y h1 h2 hy.1 hy.2 (Or.inl (by rw [hCp]; omega))
  rw [← firstEdge_isSome] at hex
  obtain ⟨e1, he1⟩ := Option.isSome_iff_exists.1 hex
  refine ⟨e1, he1, ?_⟩
  have hsk := inv.skew e.y u hy.1 hy.2 h1 h2
  rw [hFl] at hsk
  rw [← hsk]
  simp [Fl, he1]

theorem FlowInv.edge_bounds {G : GRAPH} {s t : Nat} {m : Int} (inv : FlowInv G s t m) {u : Nat}
    (h1 : 1 ≤ u) (h2 : u ≤ G.V) {e : EDGE} (he : e ∈ adj G u) (hc : 0 < e.c)
    (h0 : 0 ≤ Cp G e.y u) : - Cp G e.y u ≤ e.f ∧ e.f ≤ e.c := by
  obtain ⟨hCp, hFl⟩ := inv.edge_first h1 h2 he hc
  have hy := inv.hrange u h1 h2 e he
  have hsk := inv.skew u e.y h1 h2 hy.1 hy.2
  have hc1 := inv.cap u e.y h1 h2 hy.1 hy.2
  have hc2 := inv.cap e.y u hy.1 hy.2 h1 h2
  rw [hFl] at hsk hc1
  rw [hCp] at hc1
  rw [le_max_iff] at hc1 hc2
  constructor <;> omega

/-! ## Flow on the shown (positive-capacity) edges -/

theorem sum_filter_y (A : Finset Nat) (M : List EDGE) (hM : ∀ e ∈ M, e.y ∈ A) :
    (M.map EDGE.f).sum = ∑ v ∈ A, ((M.filter (fun e => e.y = v)).map EDGE.f).sum := by
  induction M with
  | nil => simp
  | cons e es ih =>
    have he : e.y ∈ A := hM e (List.mem_cons_self _ _)
    rw [List.map_cons, List.sum_cons, ih (fun x hx => hM x (List.mem_cons_of_mem _ hx))]
    have : ∀ v, (((e :: es).filter (fun e => e.y = v)).map EDGE.f).sum =
        (if e.y = v then e.f else 0) + ((es.filter (fun e => e.y = v)).map EDGE.f).sum := by
      intro v
      by_cases h : e.y = v
      · simp [List.filter_cons, h]
      · simp [List.filter_cons, h]
    simp only [this, Finset.sum_add_distrib, Finset.sum_ite_eq, he, if_true]

theorem shown_filter_sum (L : List EDGE) (hL : DupInert L) (v : Nat) :
    (((L.filter (fun e => 0 < e.c)).filter (fun e => e.y = v)).map EDGE.f).sum =
      if 0 < ((firstEdge L v).map EDGE.c).getD 0 then ((firstEdge L v).map EDGE.f).getD 0
      else 0 := by
  induction L with
  | nil => simp [firstEdge]
  | cons e es ih =>
    unfold DupInert at hL
    rw [List.pairwise_cons] at hL
    by_cases hy : e.y = v
    · have hrest : (es.filter (fun e => 0 < e.c)).filter (fun e => e.y = v) = [] := by
        rw [List.filter_eq_nil_iff]
        intro a ha
        rw [List.mem_filter] at ha
        have hc : 0 < a.c := by simpa using ha.2
        simp only [decide_eq_true_eq]
        intro hav
        have := (hL.1 a ha.1 (hy.trans hav.symm)).1
        omega
      rw [firstEdge_cons, if_pos hy]
      by_cases hc : 0 < e.c
      · simp [List.filter_cons, hc, hy, hrest]
      · simp [List.filter_cons, hc, hrest]
    · rw [firstEdge_cons, if_neg hy, ← ih hL.2]
      by_cases hc : 0 < e.c
      · simp [List.filter_cons, hc, hy]
      · simp [List.filter_cons, hc]

theorem outFlow_eq_sum {G : GRAPH} {s t : Nat} {m : Int} (inv : FlowInv G s t m) {u : Nat}
    (h1 : 1 ≤ u) (h2 : u ≤ G.V) :
    outFlow G u = ∑ v ∈ Finset.Icc 1 G.V, if 0 < Cp G u v then Fl G u v else 0 := by
  unfold outFlow shown
  rw [sum_filter_y (Finset.Icc 1 G.V)]
  · apply Finset.sum_congr rfl
    intro v _
    rw [shown_filter_sum _ (inv.hinert u h1 h2), Cp_eq_map, Fl_eq_map]
  · intro e he
    rw [List.mem_filter] at he
    rw [Finset.mem_Icc]
    exact inv.hrange u h1 h2 e he.1

theorem inFlow_eq_sum {G : GRAPH} {s t : Nat} {m : Int} (inv : FlowInv G s t m) (v : Nat) :
    inFlow G v = ∑ u ∈ Finset.Icc 1 G.V, if 0 < Cp G u v then Fl G u v else 0 := by
  unfold inFlow shown
  rw [sum_map_range']
  apply Finset.sum_congr rfl
  intro u hu
  rw [Finset.mem_Icc] at hu
  rw [shown_filter_sum _ (inv.hinert u hu.1 hu.2), Cp_eq_map, Fl_eq_map]

/-- With no antiparallel pair of positive capacity, the flow on the shown
edges between `u` and `v` nets to the first-edge flow. -/
theorem shown_net {G : GRAPH} {s t : Nat} {m : Int} (inv : FlowInv G s t m)
    (hno : ∀ u v, 1 ≤ u → u ≤ G.V → 1 ≤ v → v ≤ G.V → u ≠ v → 0 < Cp G u v → Cp G v u ≤ 0)
    {u v : Nat} (h1 : 1 ≤ u) (h2 : u ≤ G.V) (h3 : 1 ≤ v) (h4 : v ≤ G.V) :
    (if 0 < Cp G u v then Fl G u v else 0) - (if 0 < Cp G v u then Fl G v u else 0) =
      Fl G u v := by
  have hsk := inv.skew u v h1 h2 h3 h4
  have c1 := inv.cap u v h1 h2 h3 h4
  have c2 := inv.cap v u h3 h4 h1 h2
  by_cases huv : u = v
  · subst huv
    have : Fl G u u = 0 := by omega
    rw [this]; simp
  · by_cases p1 : 0 < Cp G u v
    · have := hno u v h1 h2 h3 h4 huv p1
      rw [if_pos p1, if_neg (by omega)]; simp
    · by_cases p2 : 0 < Cp G v u
      · rw [if_neg p1, if_pos p2]; omega
      · rw [if_neg p1, if_neg p2]; omega

theorem shown_conservation {G : GRAPH} {s t : Nat} {m : Int} (inv : FlowInv G s t m)
    (hno : ∀ u v, 1 ≤ u → u ≤ G.V → 1 ≤ v → v ≤ G.V → u ≠ v → 0 < Cp G u v → Cp G v u ≤ 0)
    {u : Nat} (h1 : 1 ≤ u) (h2 : u ≤ G.V) :
    outFlow G u - inFlow G u = if u = s then m else if u = t then -m else 0 := by
  rw [outFlow_eq_sum inv h1 h2, inFlow_eq_sum inv u, ← Finset.sum_sub_distrib, ← inv.cons u h1 h2]
  apply Finset.sum_congr rfl
  intro v hv
  rw [Finset.mem_Icc] at hv
  exact shown_net inv hno h1 h2 hv.1 hv.2

theorem shown_sink_out {G : GRAPH} {s t : Nat} {m : Int} (inv : FlowInv G s t m)
    (hno : ∀ u v, 1 ≤ u → u ≤ G.V → 1 ≤ v → v ≤ G.V → u ≠ v → 0 < Cp G u v → Cp G v u ≤ 0)
    (ht : 1 ≤ t ∧ t ≤ G.V) : outFlow G t = 0 := by
  rw [outFlow_eq_sum inv ht.1 ht.2]
  apply Finset.sum_eq_zero
  intro v hv
  rw [Finset.mem_Icc] at hv
  have hsk := inv.skew t v ht.1 ht.2 hv.1 hv.2
  have c2 := inv.cap v t hv.1 hv.2 ht.1 ht.2
  have hso := inv.sinkOut v hv.1 hv.2
  by_cases p1 : 0 < Cp G t v
  · rw [if_pos p1]
    by_cases htv : t = v
    · subst htv; omega
    · have := hno t v ht.1 ht.2 hv.1 hv.2 htv p1
      omega
  · rw [if_neg p1]

/-! ## Flows and cuts -/

/-- The net amount `h u v - h v u` summed over `u ∈ S` and all `v ∈ A` only
counts the pairs that leave `S`. -/
theorem sum_net_cut (A S : Finset Nat) (hS : S ⊆ A) (h : Nat → Nat → Int) :
    ∑ u ∈ S, ∑ v ∈ A, (h u v - h v u) = ∑ u ∈ S, ∑ v ∈ A \ S, (h u v - h v u) := by
  have hsplit : ∀ u, ∑ v ∈ A, (h u v - h v u) =
      ∑ v ∈ A \ S, (h u v - h v u) + ∑ v ∈ S, (h u v - h v u) :=
    fun u => (Finset.sum_sdiff hS).symm
  simp only [hsplit, Finset.sum_add_distrib]
  have hzero : ∑ u ∈ S, ∑ v ∈ S, (h u v - h v u) = 0 := by
    simp only [Finset.sum_sub_distrib]
    rw [Finset.sum_comm (f := fun u v => h v u)]
    simp
  rw [hzero, add_zero]

theorem flowValue_le_cutCapacity {G : GRAPH} {s t : Nat} {g : Nat → Nat → Int}
    {S : Finset Nat} (hg : IsFlow G s t g) (hS : IsCut G s t S) :
    flowValue G s g ≤ cutCapacity G S := by
  obtain ⟨hsub, hsS, htS⟩ := hS
  have hnet : ∀ u ∈ S, ∑ v ∈ Finset.Icc 1 G.V, (g u v - g v u) =
      if u = s then flowValue G s g else 0 := by
    intro u hu
    rw [Finset.sum_sub_distrib]
    by_cases hus : u = s
    · subst hus; simp [flowValue]
    · have hut : u ≠ t := fun h => htS (h ▸ hu)
      rw [if_neg hus, hg.2 u (hsub hu) hus hut]; simp
  have h1 : ∑ u ∈ S, ∑ v ∈ Finset.Icc 1 G.V, (g u v - g v u) = flowValue G s g := by
    rw [Finset.sum_congr rfl hnet, Finset.sum_ite_eq' S s, if_pos hsS]
  rw [← h1, sum_net_cut _ _ hsub, cutCapacity]
  apply Finset.sum_le_sum
  intro u hu
  apply Finset.sum_le_sum
  intro v hv
  rw [Finset.mem_sdiff] at hv
  have := (hg.1 u (hsub hu) v hv.1).2
  have := (hg.1 v hv.1 u (hsub hu)).1
  omega

theorem WellFormed.Cp_nonneg {G : GRAPH} (wf : WellFormed G) {u : Nat} (h1 : 1 ≤ u)
    (h2 : u ≤ G.V) (v : Nat) : 0 ≤ Cp G u v := by
  unfold Cp
  cases hf : firstEdge (adj G u) v with
  | none => exact le_refl _
  | some e => exact ((wf.at h1 h2).1 e (firstEdge_some_mem hf)).2.2.1

/-- The flow read off a state that keeps the flow invariant. -/
theorem FlowInv.isFlow {G G1 : GRAPH} {s t : Nat} {m : Int} (inv : FlowInv G1 s t m)
    (wf : WellFormed G) (hV : G1.V = G.V) (hCp : ∀ u v, Cp G1 u v = Cp G u v)
    (hs : 1 ≤ s ∧ s ≤ G.V) :
    IsFlow G s t (fun u v => max 0 (Fl G1 u v)) ∧
      flowValue G s (fun u v => max 0 (Fl G1 u v)) = m := by
  have hpm : ∀ u v, u ∈ Finset.Icc 1 G.V → v ∈ Finset.Icc 1 G.V →
      max 0 (Fl G1 u v) - max 0 (Fl G1 v u) = Fl G1 u v := by
    intro u v hu hv
    rw [Finset.mem_Icc, ← hV] at hu hv
    have := inv.skew u v hu.1 hu.2 hv.1 hv.2
    rcases le_total 0 (Fl G1 u v) with h | h
    · rw [max_eq_right h, max_eq_left (by omega)]; omega
    · rw [max_eq_left h, max_eq_right (by omega)]; omega
  have hrow : ∀ v ∈ Finset.Icc 1 G.V,
      ∑ w ∈ Finset.Icc 1 G.V, max 0 (Fl G1 v w) - ∑ w ∈ Finset.Icc 1 G.V, max 0 (Fl G1 w v) =
        ∑ w ∈ Finset.Icc 1 G.V, Fl G1 v w := by
    intro v hv
    rw [← Finset.sum_sub_distrib]
    exact Finset.sum_congr rfl (fun w hw => hpm v w hv hw)
  refine ⟨⟨?_, ?_⟩, ?_⟩
  · intro u hu v hv
    refine ⟨le_max_left _ _, ?_⟩
    rw [Finset.mem_Icc] at hu hv
    have h1 := inv.cap u v hu.1 (by rw [hV]; exact hu.2) hv.1 (by rw [hV]; exact hv.2)
    rw [hCp, max_eq_left (wf.Cp_nonneg hu.1 hu.2 v)] at h1
    exact max_le (wf.Cp_nonneg hu.1 hu.2 v) h1
  · intro v hv hvs hvt
    have hv' := hv
    rw [Finset.mem_Icc, ← hV] at hv'
    have hc := inv.cons v hv'.1 hv'.2
    rw [if_neg hvs, if_neg hvt, hV] at hc
    have := hrow v hv
    rw [hc] at this
    dsimp only
    omega
  · unfold flowValue
    have hs' : s ∈ Finset.Icc 1 G.V := Finset.mem_Icc.2 hs
    have hc := inv.cons s hs.1 (by rw [hV]; exact hs.2)
    rw [if_pos rfl, hV] at hc
    dsimp only
    rw [hrow s hs', hc]

/-- Where the capacities are `≥ 0` and fit as `CapacitiesFit` says, no residual
capacity of a state that keeps the flow invariant exceeds `INT_MAX`. -/
theorem FlowInv.fits {G G1 : GRAPH} {s t : Nat} {m : Int} (inv : FlowInv G1 s t m)
    (wf : WellFormed G) (hV : G1.V = G.V) (hCp : ∀ u v, Cp G1 u v = Cp G u v)
    (hfit : CapacitiesFit G) :
    ∀ u v, 1 ≤ u → u ≤ G.V → 1 ≤ v → v ≤ G.V → Cp G1 u v - Fl G1 u v ≤ INT_MAX := by
  intro u v h1 h2 h3 h4
  have hf := hfit u (mem_range'_one.2 ⟨h1, h2⟩) v (mem_range'_one.2 ⟨h3, h4⟩)
  have hsk := inv.skew u v h1 (by rw [hV]; exact h2) h3 (by rw [hV]; exact h4)
  have hc := inv.cap v u h3 (by rw [hV]; exact h4) h1 (by rw [hV]; exact h2)
  rw [hCp, max_eq_left (wf.Cp_nonneg h3 h4 u)] at hc
  rw [hCp]
  by_cases huv : u = v
  · subst huv
    omega
  · have := hf.2 huv
    omega

/-- The residual cut of a final state has capacity equal to the flow value,
where no residual capacity exceeds `INT_MAX`. -/
theorem FlowInv.cut_capacity {G G1 : GRAPH} {s t : Nat} {m : Int} (inv : FlowInv G1 s t m)
    (hV : G1.V = G.V) (hCp : ∀ u v, Cp G1 u v = Cp G u v)
    (hnn : ∀ u v, 1 ≤ u → u ≤ G.V → 0 ≤ Cp G u v)
    (hfit : ∀ u v, 1 ≤ u → u ≤ G.V → 1 ≤ v → v ≤ G.V → Cp G1 u v - Fl G1 u v ≤ INT_MAX)
    {S : Finset Nat}
    (hS : ResidualCut G1 s t S) : IsCut G s t S ∧ cutCapacity G S = m := by
  obtain ⟨hsS, htS, hrange, hclosed⟩ := hS
  have hsub : S ⊆ Finset.Icc 1 G.V := by
    intro u hu
    rw [Finset.mem_Icc, ← hV]
    exact hrange u hu
  refine ⟨⟨hsub, hsS, htS⟩, ?_⟩
  have hsat : ∀ u ∈ S, ∀ v ∈ Finset.Icc 1 G.V \ S, Cp G u v = Fl G1 u v := by
    intro u hu v hv
    rw [Finset.mem_sdiff, Finset.mem_Icc, ← hV] at hv
    have hur := hrange u hu
    have hcap := inv.cap u v hur.1 hur.2 hv.1.1 hv.1.2
    have hn := hnn u v hur.1 (by rw [← hV]; exact hur.2)
    have hft := hfit u v hur.1 (by rw [← hV]; exact hur.2) hv.1.1 (by rw [← hV]; exact hv.1.2)
    rw [← hCp] at hn ⊢
    rw [max_eq_left hn] at hcap
    have hle : Cp G1 u v - Fl G1 u v ≤ 0 := by
      unfold Cp Fl at hft ⊢
      cases hf : firstEdge (adj G1 u) v with
      | none => exact le_refl _
      | some e =>
        rw [hf] at hft
        dsimp only at hft ⊢
        by_contra hcon
        push_neg at hcon
        rw [← wrapInt_of_fits (le_trans (by decide) (le_of_lt hcon)) hft] at hcon
        have := hclosed u hu e (firstEdge_some_mem hf) hcon
        rw [firstEdge_some_y hf] at this
        exact hv.2 this
    omega
  have hzero : ∑ u ∈ S, ∑ v ∈ S, Fl G1 u v = 0 := by
    have h1 : ∑ u ∈ S, ∑ v ∈ S, Fl G1 u v = ∑ u ∈ S, ∑ v ∈ S, - Fl G1 v u := by
      apply Finset.sum_congr rfl
      intro u hu
      apply Finset.sum_congr rfl
      intro v hv
      exact inv.skew u v (hrange u hu).1 (hrange u hu).2 (hrange v hv).1 (hrange v hv).2
    have h2 : ∑ u ∈ S, ∑ v ∈ S, - Fl G1 v u = - ∑ u ∈ S, ∑ v ∈ S, Fl G1 u v := by
      simp only [Finset.sum_neg_distrib]
      rw [Finset.sum_comm]
    rw [h2] at h1
    omega
  have hrows : ∑ u ∈ S, ∑ v ∈ Finset.Icc 1 G.V, Fl G1 u v = m := by
    have : ∀ u ∈ S, ∑ v ∈ Finset.Icc 1 G.V, Fl G1 u v = if u = s then m else 0 := by
      intro u hu
      have hc := inv.cons u (hrange u hu).1 (hrange u hu).2
      rw [hV] at hc
      rw [hc]
      by_cases hus : u = s
      · rw [if_pos hus, if_pos hus]
      · have hut : u ≠ t := fun h => htS (h ▸ hu)
        rw [if_neg hus, if_neg hus, if_neg hut]
    rw [Finset.sum_congr rfl this, Finset.sum_ite_eq' S s, if_pos hsS]
  have hsplit : ∑ u ∈ S, ∑ v ∈ Finset.Icc 1 G.V, Fl G1 u v =
      ∑ u ∈ S, ∑ v ∈ Finset.Icc 1 G.V \ S, Fl G1 u v + ∑ u ∈ S, ∑ v ∈ S, Fl G1 u v := by
    rw [← Finset.sum_add_distrib]
    apply Finset.sum_congr rfl
    intro u _
    exact (Finset.sum_sdiff hsub).symm
  unfold cutCapacity
  rw [Finset.sum_congr rfl (fun u hu => Finset.sum_congr rfl (fun v hv => hsat u hu v hv))]
  rw [hzero, add_zero] at hsplit
  rw [← hsplit, hrows]

/-- Max-flow/min-cut for a final state: the accumulated total is both the
maximum flow value and the minimum cut capacity of the input network. -/
theorem FlowInv.optimal {G G1 : GRAPH} {s t : Nat} {m : Int} (inv : FlowInv G1 s t m)
    (wf : WellFormed G) (hV : G1.V = G.V) (hCp : ∀ u v, Cp G1 u v = Cp G u v)
    (hfit : CapacitiesFit G)
    (hs : 1 ≤ s ∧ s ≤ G.V) {S : Finset Nat} (hS : ResidualCut G1 s t S) :
    IsMaxFlowValue G s t m ∧ IsMinCutCapacity G s t m := by
  obtain ⟨hflow, hval⟩ := inv.isFlow wf hV hCp hs
  obtain ⟨hcut, hcap⟩ := inv.cut_capacity hV hCp (fun u v h1 h2 => wf.Cp_nonneg h1 h2 v)
    (inv.fits wf hV hCp hfit) hS
  refine ⟨⟨⟨_, hflow, hval⟩, ?_⟩, ⟨⟨S, hcut, hcap⟩, ?_⟩⟩
  · intro g hg
    rw [← hcap]
    exact flowValue_le_cutCapacity hg hcut
  · intro S1 hS1
    rw [← hval]
    exact flowValue_le_cutCapacity hflow hS1

theorem noAntiparallel_opposite {G : GRAPH} (hno : NoAntiparallel G) {u v : Nat}
    (h1 : 1 ≤ u) (h2 : u ≤ G.V) (huv : u ≠ v) (hc : 0 < Cp G u v) : Cp G v u ≤ 0 := by
  unfold Cp at hc
  cases hf : firstEdge (adj G u) v with
  | none => rw [hf] at hc; exact absurd hc (lt_irrefl _)
  | some e =>
    rw [hf] at hc
    have hy := firstEdge_some_y hf
    have := hno u (mem_range'_one.2 ⟨h1, h2⟩) e (firstEdge_some_mem hf) hc (by rw [hy]; exact huv.symm)
    rw [hy] at this
    unfold Cp
    cases hf2 : firstEdge (adj G v) u with
    | none => exact le_refl _
    | some e1 => exact this e1 (firstEdge_some_mem hf2) (firstEdge_some_y hf2)

/-- In a state reached from `s = t` or otherwise, the flow invariant with
`s = t` forces the total to be zero. -/
theorem FlowInv.total_zero_of_eq {G : GRAPH} {s : Nat} {m : Int} (inv : FlowInv G s s m)
    (hs : 1 ≤ s ∧ s ≤ G.V) : m = 0 := by
  have hc := inv.cons s hs.1 hs.2
  rw [if_pos rfl] at hc
  rw [← hc]
  apply Finset.sum_eq_zero
  intro v hv
  rw [Finset.mem_Icc] at hv
  have h1 := inv.sinkOut v hv.1 hv.2
  have h2 := inv.srcOut v hv.1 hv.2
  omega

/-! ## The need-based network -/

theorem appendEdge_eq (G : GRAPH) (u : Nat) (temp : EDGE) :
    appendEdge G u temp = setAdj G u (adj G u ++ [temp]) := by
  unfold appendEdge
  cases h : adj G u with
  | nil => rfl
  | cons e es => rfl

theorem addTerminals_eq (G : GRAPH) (hlen : G.H.length = G.V + 1) :
    addTerminals G =
      { G with V := G.V + 2,
               H := G.H ++ [{ x := G.V + 1, n := 0, p := [] }, { x := G.V + 2, n := 0, p := [] }] } := by
  unfold addTerminals
  simp only [hlen]
  have h2 : G.V + 2 + 1 - (G.V + 1) = 2 := by omega
  have h3 : G.V + 2 - 1 = G.V + 1 := by omega
  rw [h2, h3]
  congr 1
  have htake : (G.H ++ List.replicate 2 ({ x := 0, n := 0, p := [] } : VERTEX)).take (G.V + 2 + 1) =
      G.H ++ List.replicate 2 ({ x := 0, n := 0, p := [] } : VERTEX) := by
    apply List.take_of_length_le
    simp [hlen]
  rw [htake]
  apply List.ext_getElem?
  intro i
  simp only [List.getElem?_set, List.length_set, List.length_append, List.length_replicate, hlen,
    List.getElem?_append, List.length_cons, List.length_nil]
  by_cases h1 : i < G.V + 1
  · have e1 : ¬ G.V + 2 = i := by omega
    have e2 : ¬ G.V + 1 = i := by omega
    simp [h1, e1, e2]
  · by_cases h4 : i = G.V + 1
    · subst h4; simp
    · by_cases h5 : i = G.V + 2
      · subst h5; simp
      · have e1 : ¬ G.V + 2 = i := by omega
        have e2 : ¬ G.V + 1 = i := by omega
        have e3 : 2 ≤ i - (G.V + 1) := by omega
        simp [h1, e1, e2, List.getElem?_replicate, List.getElem?_eq_none, e3]

theorem addTerminals_V (G : GRAPH) : (addTerminals G).V = G.V + 2 := rfl

theorem addTerminals_length (G : GRAPH) (hlen : G.H.length = G.V + 1) :
    (addTerminals G).H.length = G.V + 3 := by
  rw [addTerminals_eq G hlen]; simp [hlen]

theorem addTerminals_adj (G : GRAPH) (hlen : G.H.length = G.V + 1) (u : Nat) :
    adj (addTerminals G) u = if u ≤ G.V then adj G u else [] := by
  rw [addTerminals_eq G hlen]
  unfold adj
  simp only [List.getElem?_append, hlen]
  by_cases h : u ≤ G.V
  · have : u < G.V + 1 := by omega
    simp [h, this]
  · have h1 : ¬ u < G.V + 1 := by omega
    simp only [h, h1, if_false]
    rcases Nat.lt_or_ge (u - (G.V + 1)) 2 with h2 | h2
    · have : u - (G.V + 1) = 0 ∨ u - (G.V + 1) = 1 := by omega
      rcases this with h3 | h3 <;> simp [h3]
    · rw [List.getElem?_eq_none (by simpa using h2)]

theorem addTerminals_need (G : GRAPH) (hlen : G.H.length = G.V + 1) (u : Nat) :
    need (addTerminals G) u = if u ≤ G.V then need G u else 0 := by
  rw [addTerminals_eq G hlen]
  unfold need
  simp only [List.getElem?_append, hlen]
  by_cases h : u ≤ G.V
  · have : u < G.V + 1 := by omega
    simp [h, this]
  · have h1 : ¬ u < G.V + 1 := by omega
    simp only [h, h1, if_false]
    rcases Nat.lt_or_ge (u - (G.V + 1)) 2 with h2 | h2
    · have : u - (G.V + 1) = 0 ∨ u - (G.V + 1) = 1 := by omega
      rcases this with h3 | h3 <;> simp [h3]
    · rw [List.getElem?_eq_none (by simpa using h2)]

theorem appendEdge_adj (G : GRAPH) (u v : Nat) (temp : EDGE) :
    adj (appendEdge G u temp) v = if v = u ∧ u < G.H.length then adj G u ++ [temp] else adj G v := by
  rw [appendEdge_eq, adj_setAdj]

theorem appendEdge_need (G : GRAPH) (u v : Nat) (temp : EDGE) :
    need (appendEdge G u temp) v = need G v := by
  rw [appendEdge_eq, need_setAdj]

theorem appendEdge_length (G : GRAPH) (u : Nat) (temp : EDGE) :
    (appendEdge G u temp).H.length = G.H.length := by
  rw [appendEdge_eq, length_setAdj]

theorem appendEdge_V (G : GRAPH) (u : Nat) (temp : EDGE) : (appendEdge G u temp).V = G.V := by
  rw [appendEdge_eq, V_setAdj]

theorem producerEdges_congr {G G1 : GRAPH} (h : ∀ u, need G1 u = need G u) (ids : List Nat) :
    producerEdges G1 ids = producerEdges G ids := by
  unfold producerEdges
  simp only [h]

theorem consumerEdge_congr {G G1 : GRAPH} (h : ∀ u, need G1 u = need G u) (sink : Nat)
    (ids : List Nat) (u : Nat) : consumerEdge G1 sink ids u = consumerEdge G sink ids u := by
  unfold consumerEdge
  simp only [h]

theorem addNeedEdges_spec (source sink : Nat) :
    ∀ (ids : List Nat) (G1 : GRAPH), ids.Nodup → source < G1.H.length →
      (∀ i ∈ ids, i < G1.H.length) → need G1 source = 0 →
      (addNeedEdges source sink ids G1).V = G1.V ∧
      (addNeedEdges source sink ids G1).H.length = G1.H.length ∧
      (∀ u, need (addNeedEdges source sink ids G1) u = need G1 u) ∧
      adj (addNeedEdges source sink ids G1) source = adj G1 source ++ producerEdges G1 ids ∧
      ∀ u, u ≠ source →
        adj (addNeedEdges source sink ids G1) u = adj G1 u ++ consumerEdge G1 sink ids u := by
  intro ids
  induction ids with
  | nil =>
    intro G1 _ _ _ _
    simp [addNeedEdges, producerEdges, consumerEdge]
  | cons i rest ih =>
    intro G1 hnd hsrc hids hn0
    rw [List.nodup_cons] at hnd
    have hids' : ∀ k ∈ rest, k < G1.H.length := fun k hk => hids k (List.mem_cons_of_mem _ hk)
    have hi : i < G1.H.length := hids i (List.mem_cons_self _ _)
    rw [addNeedEdges]
    by_cases h0 : need G1 i = 0
    · rw [if_pos h0]
      obtain ⟨a1, a2, a3, a4, a5⟩ := ih G1 hnd.2 hsrc hids' hn0
      refine ⟨a1, a2, a3, ?_, ?_⟩
      · rw [a4]
        simp [producerEdges, List.filterMap_cons, h0]
      · intro u hu
        rw [a5 u hu]
        congr 1
        unfold consumerEdge
        by_cases hui : u = i
        · subst hui
          simp [h0]
        · simp [hui]
    · rw [if_neg h0]
      by_cases hneg : need G1 i < 0
      · rw [if_pos hneg]
        have hn : ∀ u, need (appendEdge G1 source { y := i, c := negInt (need G1 i), f := 0 }) u =
            need G1 u := fun u => appendEdge_need _ _ _ _
        obtain ⟨a1, a2, a3, a4, a5⟩ := ih (appendEdge G1 source { y := i, c := negInt (need G1 i), f := 0 })
          hnd.2 (by rw [appendEdge_length]; exact hsrc)
          (by intro k hk; rw [appendEdge_length]; exact hids' k hk)
          (by rw [hn]; exact hn0)
        refine ⟨by rw [a1, appendEdge_V], by rw [a2, appendEdge_length],
          fun u => by rw [a3, hn], ?_, ?_⟩
        · rw [a4, appendEdge_adj, if_pos ⟨rfl, hsrc⟩, producerEdges_congr hn, List.append_assoc]
          congr 1
          simp [producerEdges, List.filterMap_cons, hneg]
        · intro u hu
          rw [a5 u hu, appendEdge_adj, if_neg (fun h => hu h.1), consumerEdge_congr hn]
          congr 1
          unfold consumerEdge
          by_cases hui : u = i
          · subst hui
            have : ¬ 0 < need G1 u := by omega
            simp [this]
          · simp [hui]
      · rw [if_neg hneg]
        have hpos : 0 < need G1 i := by omega
        have his : i ≠ source := by
          intro h; rw [h] at h0; exact h0 hn0
        have hn : ∀ u, need (appendEdge G1 i { y := sink, c := need G1 i, f := 0 }) u =
            need G1 u := fun u => appendEdge_need _ _ _ _
        obtain ⟨a1, a2, a3, a4, a5⟩ := ih (appendEdge G1 i { y := sink, c := need G1 i, f := 0 })
          hnd.2 (by rw [appendEdge_length]; exact hsrc)
          (by intro k hk; rw [appendEdge_length]; exact hids' k hk)
          (by rw [hn]; exact hn0)
        refine ⟨by rw [a1, appendEdge_V], by rw [a2, appendEdge_length],
          fun u => by rw [a3, hn], ?_, ?_⟩
        · rw [a4, appendEdge_adj, if_neg (fun h => his h.1.symm), producerEdges_congr hn]
          congr 1
          simp [producerEdges, List.filterMap_cons, hneg]
        · intro u hu
          rw [a5 u hu, appendEdge_adj, consumerEdge_congr hn]
          by_cases hui : u = i
          · subst hui
            rw [if_pos ⟨rfl, hi⟩, List.append_assoc]
            congr 1
            unfold consumerEdge
            simp [hnd.1, hpos]
          · rw [if_neg (fun h => hui h.1)]
            congr 1
            unfold consumerEdge
            simp [hui]

theorem producerEdges_append (G : GRAPH) (a b : List Nat) :
    producerEdges G (a ++ b) = producerEdges G a ++ producerEdges G b := by
  unfold producerEdges
  rw [List.filterMap_append]

theorem producerEdges_congr_on {G G1 : GRAPH} (ids : List Nat)
    (h : ∀ i ∈ ids, need G1 i = need G i) : producerEdges G1 ids = producerEdges G ids := by
  induction ids with
  | nil => rfl
  | cons i rest ih =>
    unfold producerEdges at ih ⊢
    rw [List.filterMap_cons, List.filterMap_cons, h i (List.mem_cons_self _ _),
      ih (fun k hk => h k (List.mem_cons_of_mem _ hk))]

theorem needNetwork_spec (G : GRAPH) (hlen : G.H.length = G.V + 1) :
    (needNetwork G).V = G.V + 2 ∧ (needNetwork G).H.length = G.V + 3 ∧
    (∀ u, need (needNetwork G) u = if u ≤ G.V then need G u else 0) ∧
    adj (needNetwork G) (G.V + 1) = producerEdges G (List.range' 1 G.V) ∧
    adj (needNetwork G) (G.V + 2) = [] ∧
    ∀ u, 1 ≤ u → u ≤ G.V → adj (needNetwork G) u =
      adj G u ++ (if 0 < need G u then [{ y := G.V + 2, c := need G u, f := 0 }] else []) := by
  have hT := addTerminals_length G hlen
  have hneed := addTerminals_need G hlen
  have hadj := addTerminals_adj G hlen
  have hsrc : (addTerminals G).V - 1 = G.V + 1 := by rw [addTerminals_V]; omega
  obtain ⟨a1, a2, a3, a4, a5⟩ := addNeedEdges_spec (G.V + 1) (G.V + 2)
    (List.range' 1 (G.V + 2)) (addTerminals G) (List.nodup_range' 1 (G.V + 2))
    (by rw [hT]; omega)
    (by intro i hi; rw [hT]; have := mem_range'_one.1 hi; omega)
    (by rw [hneed]; simp)
  have hN : needNetwork G = addNeedEdges (G.V + 1) (G.V + 2) (List.range' 1 (G.V + 2))
      (addTerminals G) := by
    unfold needNetwork
    dsimp only
    rw [hsrc, addTerminals_V]
  rw [hN]
  refine ⟨by rw [a1, addTerminals_V], by rw [a2, hT], fun u => by rw [a3, hneed], ?_, ?_, ?_⟩
  · rw [a4, hadj, if_neg (by omega), List.nil_append]
    have hsplit : List.range' 1 (G.V + 2) = List.range' 1 G.V ++ [G.V + 1, G.V + 2] := by
      have : G.V + 2 = G.V + 2 := rfl
      rw [show G.V + 2 = G.V + 1 + 1 from rfl, List.range'_concat, List.range'_concat]
      simp [Nat.add_comm]
    rw [hsplit, producerEdges_append]
    have h1 : producerEdges (addTerminals G) [G.V + 1, G.V + 2] = [] := by
      simp [producerEdges, hneed]
    rw [h1, List.append_nil]
    apply producerEdges_congr_on
    intro i hi
    rw [hneed, if_pos (mem_range'_one.1 hi).2]
  · rw [a5 (G.V + 2) (by omega), hadj, if_neg (by omega)]
    simp [consumerEdge, hneed]
  · intro u h1 h2
    rw [a5 u (by omega), hadj, if_pos h2]
    congr 1
    unfold consumerEdge
    have hmem : u ∈ List.range' 1 (G.V + 2) := mem_range'_one.2 ⟨h1, by omega⟩
    simp only [hmem, true_and, hneed, if_pos h2]

theorem producerEdges_mem {G : GRAPH} {ids : List Nat} {e : EDGE}
    (h : e ∈ producerEdges G ids) :
    e.y ∈ ids ∧ need G e.y < 0 ∧ e.c = negInt (need G e.y) ∧ e.f = 0 := by
  unfold producerEdges at h
  rw [List.mem_filterMap] at h
  obtain ⟨i, hi, hsome⟩ := h
  by_cases hn : need G i < 0
  · rw [if_pos hn] at hsome
    injection hsome with hsome
    subst hsome
    exact ⟨hi, hn, rfl, rfl⟩
  · rw [if_neg hn] at hsome
    cases hsome

theorem producerEdges_nodup (G : GRAPH) (ids : List Nat) (h : ids.Nodup) :
    ((producerEdges G ids).map EDGE.y).Nodup := by
  induction ids with
  | nil => simp [producerEdges]
  | cons i rest ih =>
    rw [List.nodup_cons] at h
    unfold producerEdges at ih ⊢
    rw [List.filterMap_cons]
    by_cases hn : need G i < 0
    · simp only [hn, if_true, List.map_cons, List.nodup_cons]
      refine ⟨?_, ih h.2⟩
      intro hmem
      rw [List.mem_map] at hmem
      obtain ⟨e, he, hy⟩ := hmem
      have := (@producerEdges_mem G rest e he).1
      rw [hy] at this
      exact h.1 this
    · simp only [hn, if_false]
      exact ih h.2

/-- The need network of a well-formed network: endpoints in range, flows `0`,
no two edges of a list to the same endpoint, and capacities at least `lo`, for
any bound `lo ≤ 0` below the capacities of the producers' edges. -/
theorem needNetwork_formed (G : GRAPH) (wf : WellFormed G) (lo : Int) (hlo : lo ≤ 0)
    (hp : ∀ i, 1 ≤ i → i ≤ G.V → need G i < 0 → lo ≤ negInt (need G i)) :
    (needNetwork G).H.length = (needNetwork G).V + 1 ∧
    ∀ u ∈ List.range' 1 (needNetwork G).V,
      (∀ e ∈ adj (needNetwork G) u,
        1 ≤ e.y ∧ e.y ≤ (needNetwork G).V ∧ lo ≤ e.c ∧ e.f = 0) ∧
      ((adj (needNetwork G) u).map EDGE.y).Nodup := by
  obtain ⟨hV, hlen, hneed, hsrc, hsnk, hmid⟩ := needNetwork_spec G wf.1
  refine ⟨by rw [hlen, hV], ?_⟩
  intro u hu
  rw [hV] at hu ⊢
  have hur := mem_range'_one.1 hu
  by_cases h1 : u ≤ G.V
  · rw [hmid u hur.1 h1]
    have hw := wf.at hur.1 h1
    constructor
    · intro e he
      rcases List.mem_append.1 he with h | h
      · have := hw.1 e h
        exact ⟨this.1, by omega, by omega, this.2.2.2⟩
      · by_cases hp : 0 < need G u
        · rw [if_pos hp, List.mem_singleton] at h
          subst h
          exact ⟨by simp, by simp, by dsimp only; omega, rfl⟩
        · rw [if_neg hp] at h; simp at h
    · rw [List.map_append, List.nodup_append]
      refine ⟨hw.2, ?_, ?_⟩
      · split <;> simp
      · intro a ha hb
        rw [List.mem_map] at ha
        obtain ⟨e, he, rfl⟩ := ha
        have hy := (hw.1 e he).2.1
        by_cases hp : 0 < need G u
        · rw [if_pos hp] at hb
          simp only [List.map_cons, List.map_nil, List.mem_singleton] at hb
          omega
        · rw [if_neg hp] at hb; simp at hb
  · by_cases h2 : u = G.V + 1
    · subst h2
      rw [hsrc]
      constructor
      · intro e he
        obtain ⟨b1, b2, b3, b4⟩ := producerEdges_mem he
        have := mem_range'_one.1 b1
        exact ⟨this.1, by omega, by rw [b3]; exact hp e.y this.1 this.2 b2, b4⟩
      · exact producerEdges_nodup G _ (List.nodup_range' 1 G.V)
    · have h3 : u = G.V + 2 := by omega
      subst h3
      rw [hsnk]
      simp

/-- The need network of a well-formed network keeps the invariant of the
augmentation loop, whatever the needs. -/
theorem needNetwork_runnable (G : GRAPH) (wf : WellFormed G) : Runnable (needNetwork G) :=
  needNetwork_formed G wf INT_MIN (by decide) (fun i _ _ hn => by
    unfold negInt
    split
    · exact le_refl _
    · have h0 : INT_MIN ≤ 0 := by decide
      omega)

/-- The need network of a well-formed network is well formed when no need is
`INT_MIN`. -/
theorem needNetwork_wellFormed (G : GRAPH) (wf : WellFormed G)
    (hmin : ∀ i, 1 ≤ i → i ≤ G.V → need G i ≠ INT_MIN) : WellFormed (needNetwork G) :=
  needNetwork_formed G wf 0 (le_refl _) (fun i h1 h2 hn => by
    rw [negInt_of_ne (hmin i h1 h2)]
    omega)

theorem firstEdge_producerEdges (G : GRAPH) (ids : List Nat) (v : Nat) :
    firstEdge (producerEdges G ids) v =
      if v ∈ ids ∧ need G v < 0 then some { y := v, c := negInt (need G v), f := 0 }
      else none := by
  induction ids with
  | nil => simp [producerEdges, firstEdge]
  | cons i rest ih =>
    unfold producerEdges at ih ⊢
    rw [List.filterMap_cons]
    by_cases hn : need G i < 0
    · simp only [hn, if_true]
      rw [firstEdge_cons, ih]
      by_cases hiv : i = v
      · subst hiv; simp [hn]
      · have : ¬ v = i := fun h => hiv h.symm
        simp [hiv, this]
    · simp only [hn, if_false]
      rw [ih]
      by_cases hiv : v = i
      · subst hiv; simp [hn]
      · simp [hiv]

/-- Capacities of the network handed to `ComputeMaxFlow` by `NeedBasedFlow`. -/
theorem needNetwork_Cp (G : GRAPH) (wf : WellFormed G) :
    (∀ u v, 1 ≤ u → u ≤ G.V → v ≤ G.V → Cp (needNetwork G) u v = Cp G u v) ∧
    (∀ v, Cp (needNetwork G) (G.V + 1) v =
      if 1 ≤ v ∧ v ≤ G.V ∧ need G v < 0 then negInt (need G v) else 0) ∧
    (∀ u, 1 ≤ u → u ≤ G.V + 2 → Cp (needNetwork G) u (G.V + 2) =
      if u ≤ G.V ∧ 0 < need G u then need G u else 0) ∧
    (∀ u, 1 ≤ u → u ≤ G.V + 2 → Cp (needNetwork G) u (G.V + 1) = 0) ∧
    (∀ v, Cp (needNetwork G) (G.V + 2) v = 0) := by
  obtain ⟨hV, hlen, hneed, hsrc, hsnk, hmid⟩ := needNetwork_spec G wf.1
  have hnone : ∀ u, 1 ≤ u → u ≤ G.V → ∀ w, G.V < w → firstEdge (adj G u) w = none := by
    intro u h1 h2 w hw
    rw [firstEdge_eq_none]
    intro e he hy
    have := ((wf.at h1 h2).1 e he).2.1
    omega
  have hmidCp : ∀ u, 1 ≤ u → u ≤ G.V → ∀ w, G.V < w → Cp (needNetwork G) u w =
      if w = G.V + 2 ∧ 0 < need G u then need G u else 0 := by
    intro u h1 h2 w hw
    unfold Cp
    rw [hmid u h1 h2, firstEdge_append, hnone u h1 h2 w hw]
    by_cases hp : 0 < need G u
    · by_cases hw2 : w = G.V + 2
      · subst hw2; simp [hp, firstEdge_cons]
      · have : ¬ G.V + 2 = w := fun h => hw2 h.symm
        simp [hp, hw2, firstEdge_cons, this, firstEdge_nil]
    · simp [hp, firstEdge_nil]
  have hsrcCp : ∀ v, Cp (needNetwork G) (G.V + 1) v =
      if 1 ≤ v ∧ v ≤ G.V ∧ need G v < 0 then negInt (need G v) else 0 := by
    intro v
    unfold Cp
    rw [hsrc, firstEdge_producerEdges]
    by_cases h : v ∈ List.range' 1 G.V ∧ need G v < 0
    · have h' := mem_range'_one.1 h.1
      rw [if_pos h, if_pos ⟨h'.1, h'.2, h.2⟩]
    · rw [if_neg h, if_neg]
      intro h'
      exact h ⟨mem_range'_one.2 ⟨h'.1, h'.2.1⟩, h'.2.2⟩
  refine ⟨?_, hsrcCp, ?_, ?_, ?_⟩
  · intro u v h1 h2 h3
    unfold Cp
    rw [hmid u h1 h2, firstEdge_append]
    cases hf : firstEdge (adj G u) v with
    | some e => rfl
    | none =>
      by_cases hp : 0 < need G u
      · have : ¬ G.V + 2 = v := by omega
        simp [hp, firstEdge_cons, this, firstEdge_nil]
      · simp [hp, firstEdge_nil]
  · intro u h1 h2
    by_cases hu : u ≤ G.V
    · rw [hmidCp u h1 hu (G.V + 2) (by omega)]
      simp [hu]
    · by_cases hu1 : u = G.V + 1
      · subst hu1
        rw [hsrcCp, if_neg (by omega), if_neg (by omega)]
      · have : u = G.V + 2 := by omega
        subst this
        unfold Cp
        rw [hsnk]; simp [firstEdge_nil]
  · intro u h1 h2
    by_cases hu : u ≤ G.V
    · rw [hmidCp u h1 hu (G.V + 1) (by omega), if_neg (by omega)]
    · by_cases hu1 : u = G.V + 1
      · subst hu1
        rw [hsrcCp, if_neg (by omega)]
      · have : u = G.V + 2 := by omega
        subst this
        unfold Cp
        rw [hsnk]; simp [firstEdge_nil]
  · intro v
    unfold Cp
    rw [hsnk]; simp [firstEdge_nil]

/-- The run of `NeedBasedFlow` on a valid network whose needs sum to zero. -/
theorem NeedBasedFlow_run {G : GRAPH} (hG : ValidNetwork G) (h0 : netNeed G = 0) :
    ∃ (n : Nat) (G0 G1 : GRAPH) (m : Int),
      (∀ fuel, n < fuel → NeedBasedFlow fuel G = some G1) ∧
      Ext (needNetwork G) G0 ∧ SameShape G0 G1 ∧
      FlowInv G1 (G.V + 1) (G.V + 2) m ∧ ∃ S, ResidualCut G1 (G.V + 1) (G.V + 2) S := by
  have wfN := needNetwork_runnable G hG.1
  obtain ⟨hV, _⟩ := needNetwork_spec G hG.1.1
  have hVle : (needNetwork G).V ≤ MAX + 2 := by rw [hV, MAX_eq]; have := hG.2; omega
  obtain ⟨n, G0, G1, m, _, hext, _, _, hrun, hshape, inv, hcut⟩ :=
    ComputeMaxFlow_run wfN hVle (s := G.V + 1) (t := G.V + 2)
      (by rw [hV]; omega) (by rw [hV]; omega) (by omega)
  refine ⟨n, G0, G1, m, ?_, hext, hshape, inv, hcut⟩
  intro fuel hf
  rw [NeedBasedFlow, if_neg (by simpa using h0)]
  dsimp only
  have e1 : (needNetwork G).V - 1 = G.V + 1 := by rw [hV]; omega
  rw [e1, hV, hrun fuel hf]
  rfl

/-! ## Shape of the network left by `NeedBasedFlow` -/

theorem map_yc_of_maps {L M : List EDGE} (hy : L.map EDGE.y = M.map EDGE.y)
    (hc : L.map EDGE.c = M.map EDGE.c) :
    L.map (fun e => (e.y, e.c)) = M.map (fun e => (e.y, e.c)) := by
  induction L generalizing M with
  | nil =>
    cases M with
    | nil => rfl
    | cons b bs => simp at hy
  | cons a as ih =>
    cases M with
    | nil => simp at hy
    | cons b bs =>
      simp only [List.map_cons, List.cons.injEq] at hy hc ⊢
      exact ⟨Prod.ext hy.1 hc.1, ih hy.2 hc.2⟩

theorem filter_map_yc {L M : List EDGE}
    (h : L.map (fun e => (e.y, e.c)) = M.map (fun e => (e.y, e.c)))
    (p : Nat × Int → Bool) :
    (L.filter (fun e => p (e.y, e.c))).map (fun e => (e.y, e.c)) =
      (M.filter (fun e => p (e.y, e.c))).map (fun e => (e.y, e.c)) := by
  have e1 : ∀ K : List EDGE, (K.filter (fun e => p (e.y, e.c))).map (fun e => (e.y, e.c)) =
      (K.map (fun e => (e.y, e.c))).filter p := by
    intro K
    rw [List.filter_map]
    rfl
  rw [e1, e1, h]

/-- The adjacency lists left by a run that started from `N`: along every list
the endpoints and capacities are those of `N` followed by reverse edges. -/
theorem final_lists {N G0 G1 : GRAPH} (hext : Ext N G0) (hshape : SameShape G0 G1) (u : Nat) :
    ∃ ext, (adj G1 u).map (fun e => (e.y, e.c)) =
        (adj N u ++ ext).map (fun e => (e.y, e.c)) ∧
      ∀ e ∈ ext, e.c = 0 ∧ ∃ e0 ∈ adj N e.y, e0.y = u ∧ e0.c ≠ 0 := by
  obtain ⟨ext, happ, hz⟩ := hext.app u
  refine ⟨ext, ?_, fun e he => ⟨(hz e he).1, (hz e he).2.2.2.2⟩⟩
  rw [← happ]
  exact map_yc_of_maps (hshape.ys u) (hshape.cs u)

/-! ## Saturation -/

theorem sat_edges_iff {L : List EDGE} (hD : DupInert L) (v : Nat) :
    (∀ e ∈ L, e.y = v → e.f = e.c) ↔
      ((firstEdge L v).map EDGE.f).getD 0 = ((firstEdge L v).map EDGE.c).getD 0 := by
  constructor
  · intro h
    cases hf : firstEdge L v with
    | none => rfl
    | some e => exact h e (firstEdge_some_mem hf) (firstEdge_some_y hf)
  · intro h e he hy
    by_cases hne : e.c ≠ 0 ∨ e.f ≠ 0
    · have := dupInert_first hD he hne
      rw [hy] at this
      rw [this] at h
      exact h
    · push_neg at hne
      rw [hne.1, hne.2]

theorem FlowInv.sat_row {G : GRAPH} {s t : Nat} {m : Int} (inv : FlowInv G s t m) {u : Nat}
    (h1 : 1 ≤ u) (h2 : u ≤ G.V) :
    (∀ e ∈ adj G u, e.f = e.c) ↔ ∀ v ∈ Finset.Icc 1 G.V, Fl G u v = Cp G u v := by
  constructor
  · intro h v _
    rw [Fl_eq_map, Cp_eq_map]
    exact (sat_edges_iff (inv.hinert u h1 h2) v).1 (fun e he _ => h e he)
  · intro h e he
    have hy := inv.hrange u h1 h2 e he
    have := h e.y (Finset.mem_Icc.2 hy)
    rw [Fl_eq_map, Cp_eq_map] at this
    exact (sat_edges_iff (inv.hinert u h1 h2) e.y).2 this e he rfl

theorem FlowInv.sat_col {G : GRAPH} {s t : Nat} {m : Int} (inv : FlowInv G s t m) (w : Nat) :
    (∀ u, 1 ≤ u → u ≤ G.V → ∀ e ∈ adj G u, e.y = w → e.f = e.c) ↔
      ∀ u ∈ Finset.Icc 1 G.V, Fl G u w = Cp G u w := by
  constructor
  · intro h u hu
    rw [Finset.mem_Icc] at hu
    rw [Fl_eq_map, Cp_eq_map]
    exact (sat_edges_iff (inv.hinert u hu.1 hu.2) w).1 (h u hu.1 hu.2)
  · intro h u h1 h2
    have := h u (Finset.mem_Icc.2 ⟨h1, h2⟩)
    rw [Fl_eq_map, Cp_eq_map] at this
    exact (sat_edges_iff (inv.hinert u h1 h2) w).2 this

theorem FlowInv.cap_of_nonneg {G : GRAPH} {s t : Nat} {m : Int} (inv : FlowInv G s t m)
    {u v : Nat} (hu : 1 ≤ u ∧ u ≤ G.V) (hv : 1 ≤ v ∧ v ≤ G.V) (h0 : 0 ≤ Cp G u v) :
    Fl G u v ≤ Cp G u v := by
  have := inv.cap u v hu.1 hu.2 hv.1 hv.2
  rwa [max_eq_left h0] at this

theorem FlowInv.row_sat_iff {G : GRAPH} {s t : Nat} {m : Int} (inv : FlowInv G s t m)
    (hs : 1 ≤ s ∧ s ≤ G.V) (hnn : ∀ v, 1 ≤ v → v ≤ G.V → 0 ≤ Cp G s v) :
    (∀ v ∈ Finset.Icc 1 G.V, Fl G s v = Cp G s v) ↔ m = ∑ v ∈ Finset.Icc 1 G.V, Cp G s v := by
  have hc := inv.cons s hs.1 hs.2
  rw [if_pos rfl] at hc
  rw [← hc]
  exact (Finset.sum_eq_sum_iff_of_le (fun v hv => by
    rw [Finset.mem_Icc] at hv
    exact inv.cap_of_nonneg hs hv (hnn v hv.1 hv.2))).symm

theorem FlowInv.col_sum {G : GRAPH} {s t : Nat} {m : Int} (inv : FlowInv G s t m)
    (ht : 1 ≤ t ∧ t ≤ G.V) (hst : s ≠ t) : ∑ u ∈ Finset.Icc 1 G.V, Fl G u t = m := by
  have hc := inv.cons t ht.1 ht.2
  rw [if_neg (Ne.symm hst), if_pos rfl] at hc
  have : ∑ u ∈ Finset.Icc 1 G.V, Fl G u t = ∑ u ∈ Finset.Icc 1 G.V, - Fl G t u := by
    apply Finset.sum_congr rfl
    intro u hu
    rw [Finset.mem_Icc] at hu
    exact inv.skew u t hu.1 hu.2 ht.1 ht.2
  rw [this, Finset.sum_neg_distrib, hc]; simp

theorem FlowInv.col_sat_iff {G : GRAPH} {s t : Nat} {m : Int} (inv : FlowInv G s t m)
    (ht : 1 ≤ t ∧ t ≤ G.V) (hst : s ≠ t) (hnn : ∀ u, 1 ≤ u → u ≤ G.V → 0 ≤ Cp G u t) :
    (∀ u ∈ Finset.Icc 1 G.V, Fl G u t = Cp G u t) ↔ m = ∑ u ∈ Finset.Icc 1 G.V, Cp G u t := by
  rw [← inv.col_sum ht hst]
  exact (Finset.sum_eq_sum_iff_of_le (fun u hu => by
    rw [Finset.mem_Icc] at hu
    exact inv.cap_of_nonneg hu ht (hnn u hu.1 hu.2))).symm

theorem sum_Icc_add_two (f : Nat → Int) (V : Nat) :
    ∑ v ∈ Finset.Icc 1 (V + 2), f v = ∑ v ∈ Finset.Icc 1 V, f v + f (V + 1) + f (V + 2) := by
  rw [show V + 2 = V + 1 + 1 from rfl, Finset.sum_Icc_succ_top (by omega),
    Finset.sum_Icc_succ_top (by omega)]

/-- Total capacity of the synthetic edges out of the super-source. -/
theorem needNetwork_supply (G : GRAPH) (wf : WellFormed G) :
    ∑ v ∈ Finset.Icc 1 (G.V + 2), Cp (needNetwork G) (G.V + 1) v =
      ∑ v ∈ Finset.Icc 1 G.V, (if need G v < 0 then negInt (need G v) else 0) := by
  obtain ⟨_, h2, _, _, _⟩ := needNetwork_Cp G wf
  rw [sum_Icc_add_two, h2 (G.V + 1), h2 (G.V + 2), if_neg (by omega), if_neg (by omega)]
  simp only [add_zero]
  apply Finset.sum_congr rfl
  intro v hv
  rw [Finset.mem_Icc] at hv
  rw [h2 v]
  by_cases hn : need G v < 0
  · rw [if_pos ⟨hv.1, hv.2, hn⟩, if_pos hn]
  · rw [if_neg (fun h => hn h.2.2), if_neg hn]

/-- Where no need is `INT_MIN`, the negation of line 402 is exact. -/
theorem supply_of_min {G : GRAPH} (hmin : ∀ i, 1 ≤ i → i ≤ G.V → need G i ≠ INT_MIN) :
    ∑ v ∈ Finset.Icc 1 G.V, (if need G v < 0 then negInt (need G v) else 0) =
      ∑ v ∈ Finset.Icc 1 G.V, (if need G v < 0 then - need G v else 0) := by
  apply Finset.sum_congr rfl
  intro v hv
  rw [Finset.mem_Icc] at hv
  rw [negInt_of_ne (hmin v hv.1 hv.2)]

/-- The part of the supply that the edges of non-negative capacity out of the
super-source can carry falls short of the supply when a need is `INT_MIN`. -/
theorem live_supply_lt {G : GRAPH} {v0 : Nat} (hv0 : 1 ≤ v0 ∧ v0 ≤ G.V)
    (h0 : need G v0 = INT_MIN) :
    ∑ v ∈ Finset.Icc 1 G.V, max (if need G v < 0 then negInt (need G v) else 0) 0 <
      ∑ v ∈ Finset.Icc 1 G.V, (if need G v < 0 then - need G v else 0) := by
  apply Finset.sum_lt_sum
  · intro v _
    by_cases hn : need G v < 0
    · rw [if_pos hn, if_pos hn]
      unfold negInt
      split
      · rename_i h
        rw [h]; decide
      · exact max_le (le_refl _) (by omega)
    · rw [if_neg hn, if_neg hn]; simp
  · refine ⟨v0, Finset.mem_Icc.2 hv0, ?_⟩
    rw [h0]
    decide

/-- Total capacity of the synthetic edges into the super-sink. -/
theorem needNetwork_demand (G : GRAPH) (wf : WellFormed G) :
    ∑ u ∈ Finset.Icc 1 (G.V + 2), Cp (needNetwork G) u (G.V + 2) =
      ∑ u ∈ Finset.Icc 1 G.V, (if 0 < need G u then need G u else 0) := by
  obtain ⟨_, _, h3, _, _⟩ := needNetwork_Cp G wf
  rw [sum_Icc_add_two, h3 (G.V + 1) (by omega) (by omega), h3 (G.V + 2) (by omega) (by omega),
    if_neg (by omega), if_neg (by omega)]
  simp only [add_zero]
  apply Finset.sum_congr rfl
  intro u hu
  rw [Finset.mem_Icc] at hu
  rw [h3 u hu.1 (by omega)]
  by_cases hn : 0 < need G u
  · rw [if_pos ⟨hu.2, hn⟩, if_pos hn]
  · rw [if_neg (fun h => hn h.2), if_neg hn]

theorem supply_sub_demand (G : GRAPH) :
    ∑ v ∈ Finset.Icc 1 G.V, (if need G v < 0 then - need G v else 0) -
      ∑ u ∈ Finset.Icc 1 G.V, (if 0 < need G u then need G u else 0) =
        - ∑ i ∈ Finset.Icc 1 G.V, need G i := by
  rw [← Finset.sum_sub_distrib, ← Finset.sum_neg_distrib]
  apply Finset.sum_congr rfl
  intro v _
  split <;> split <;> omega

theorem netNeed_final {G N G0 G1 : GRAPH} (hlen : G.H.length = G.V + 1)
    (hN : N = needNetwork G) (hext : Ext N G0) (hshape : SameShape G0 G1) :
    netNeed G1 = netNeed G := by
  obtain ⟨hV, _, hneed, _⟩ := needNetwork_spec G hlen
  subst hN
  rw [netNeed_eq_wrap, netNeed_eq_wrap, hshape.V, hext.V, hV, sum_Icc_add_two]
  congr 1
  simp only [hshape.need, hext.need, hneed]
  rw [if_neg (by omega), if_neg (by omega)]
  simp only [add_zero]
  apply Finset.sum_congr rfl
  intro v hv
  rw [Finset.mem_Icc] at hv
  rw [if_pos hv.2]

/-! ## Feasibility of the need-based flow -/

/-- In the network left by `NeedBasedFlow`, `checkFeasibility` returns `1`
exactly when `net_need` is zero and the first edges out of the super-source
are saturated, and the edges into the super-sink are all saturated exactly
when the total flow equals the total demand. -/
theorem feasibility_core {G G0 G1 : GRAPH} {m : Int} (wf : WellFormed G)
    (hext : Ext (needNetwork G) G0) (hshape : SameShape G0 G1)
    (inv : FlowInv G1 (G.V + 1) (G.V + 2) m) :
    (checkFeasibility G1 = 1 ↔
      netNeed G = 0 ∧ ∀ v ∈ Finset.Icc 1 G1.V, Fl G1 (G.V + 1) v = Cp G1 (G.V + 1) v) ∧
    ((∀ u, 1 ≤ u → u ≤ G.V + 2 → ∀ e ∈ adj G1 u, e.y = G.V + 2 → e.f = e.c) ↔
      m = ∑ u ∈ Finset.Icc 1 G.V, (if 0 < need G u then need G u else 0)) := by
  obtain ⟨hV, _⟩ := needNetwork_spec G wf.1
  have hV1 : G1.V = G.V + 2 := by rw [hshape.V, hext.V, hV]
  have hCp : ∀ u v, Cp G1 u v = Cp (needNetwork G) u v :=
    fun u v => (hshape.Cp_eq u v).trans (hext.Cp_same u v)
  obtain ⟨_, _, c3, _, _⟩ := needNetwork_Cp G wf
  have hs1 : 1 ≤ G.V + 1 ∧ G.V + 1 ≤ G1.V := by rw [hV1]; omega
  have ht1 : 1 ≤ G.V + 2 ∧ G.V + 2 ≤ G1.V := by rw [hV1]; omega
  constructor
  · rw [checkFeasibility_eq_one_iff, netNeed_final wf.1 rfl hext hshape, hV1]
    have e1 : G.V + 2 - 1 = G.V + 1 := by omega
    rw [e1, inv.sat_row hs1.1 hs1.2, hV1]
  · have := inv.sat_col (G.V + 2)
    rw [hV1] at this
    have hcol := inv.col_sat_iff ht1 (by omega) (fun u h1 h2 => by
      rw [hCp, c3 u h1 (by rw [← hV1]; exact h2)]
      split
      · rename_i h; exact le_of_lt h.2
      · exact le_refl _)
    rw [hV1] at hcol
    rw [this, hcol]
    simp only [hCp]
    rw [needNetwork_demand G wf]

/-- Where no need is `INT_MIN`, the first edges out of the super-source are
saturated exactly when the total flow equals the total supply. -/
theorem source_saturated_iff {G G0 G1 : GRAPH} {m : Int} (wf : WellFormed G)
    (hmin : ∀ i, 1 ≤ i → i ≤ G.V → need G i ≠ INT_MIN)
    (hext : Ext (needNetwork G) G0) (hshape : SameShape G0 G1)
    (inv : FlowInv G1 (G.V + 1) (G.V + 2) m) :
    (∀ v ∈ Finset.Icc 1 G1.V, Fl G1 (G.V + 1) v = Cp G1 (G.V + 1) v) ↔
      m = ∑ v ∈ Finset.Icc 1 G.V, (if need G v < 0 then - need G v else 0) := by
  obtain ⟨hV, _⟩ := needNetwork_spec G wf.1
  have hV1 : G1.V = G.V + 2 := by rw [hshape.V, hext.V, hV]
  have hCp : ∀ u v, Cp G1 u v = Cp (needNetwork G) u v :=
    fun u v => (hshape.Cp_eq u v).trans (hext.Cp_same u v)
  have wfN := needNetwork_wellFormed G wf hmin
  have hs1 : 1 ≤ G.V + 1 ∧ G.V + 1 ≤ G1.V := by rw [hV1]; omega
  rw [inv.row_sat_iff hs1 (fun v _ _ => by
    rw [hCp]; exact wfN.Cp_nonneg (by omega) (by rw [hV]; omega) v), hV1]
  simp only [hCp]
  rw [needNetwork_supply G wf, supply_of_min hmin]

/-- A producer of need `INT_MIN` gets an edge of negative capacity, which is
never used: the edges out of the super-source are not all saturated, and the
total flow stays below the total supply. -/
theorem source_dead {G G0 G1 : GRAPH} {m : Int} (wf : WellFormed G) {v0 : Nat}
    (hv0 : 1 ≤ v0 ∧ v0 ≤ G.V) (h0 : need G v0 = INT_MIN)
    (hext : Ext (needNetwork G) G0) (hshape : SameShape G0 G1)
    (inv : FlowInv G1 (G.V + 1) (G.V + 2) m) :
    ¬ (∀ v ∈ Finset.Icc 1 G1.V, Fl G1 (G.V + 1) v = Cp G1 (G.V + 1) v) ∧
      m < ∑ v ∈ Finset.Icc 1 G.V, (if need G v < 0 then - need G v else 0) := by
  obtain ⟨hV, _⟩ := needNetwork_spec G wf.1
  have hV1 : G1.V = G.V + 2 := by rw [hshape.V, hext.V, hV]
  have hCp : ∀ u v, Cp G1 u v = Cp (needNetwork G) u v :=
    fun u v => (hshape.Cp_eq u v).trans (hext.Cp_same u v)
  obtain ⟨_, c2, _, _, _⟩ := needNetwork_Cp G wf
  have hs1 : 1 ≤ G.V + 1 ∧ G.V + 1 ≤ G1.V := by rw [hV1]; omega
  constructor
  · intro hall
    have h1 := hall v0 (Finset.mem_Icc.2 ⟨hv0.1, by rw [hV1]; omega⟩)
    have h2 := inv.srcOut v0 hv0.1 (by rw [hV1]; omega)
    rw [h1, hCp, c2 v0, if_pos ⟨hv0.1, hv0.2, by rw [h0]; decide⟩, h0, negInt_INT_MIN] at h2
    exact absurd h2 (by decide)
  · refine lt_of_le_of_lt (inv.value_le hs1) ?_
    rw [hV1, sum_Icc_add_two]
    simp only [hCp]
    rw [c2 (G.V + 1), c2 (G.V + 2), if_neg (by omega), if_neg (by omega)]
    simp only [max_self, add_zero]
    refine lt_of_le_of_lt (le_of_eq ?_) (live_supply_lt hv0 h0)
    apply Finset.sum_congr rfl
    intro v hv
    rw [Finset.mem_Icc] at hv
    rw [c2 v]
    by_cases hn : need G v < 0
    · rw [if_pos ⟨hv.1, hv.2, hn⟩, if_pos hn]
    · rw [if_neg (fun h => hn h.2.2), if_neg hn]

theorem supply_eq_demand {G : GRAPH} (h0 : ∑ i ∈ Finset.Icc 1 G.V, need G i = 0) :
    ∑ v ∈ Finset.Icc 1 G.V, (if need G v < 0 then - need G v else 0) =
      ∑ u ∈ Finset.Icc 1 G.V, (if 0 < need G u then need G u else 0) := by
  have := supply_sub_demand G
  rw [h0] at this
  omega

theorem FeasibleFlow.sum_zero {G : GRAPH} {g : Nat → Nat → Int} (h : FeasibleFlow G g) :
    ∑ i ∈ Finset.Icc 1 G.V, need G i = 0 := by
  rw [← Finset.sum_congr rfl h.2, Finset.sum_sub_distrib]
  rw [Finset.sum_comm]
  simp

/-- From a saturating run to a feasible flow of the original network. -/
theorem feasible_of_saturated {G G0 G1 : GRAPH} {m : Int} (wf : WellFormed G)
    (hmin : ∀ i, 1 ≤ i → i ≤ G.V → need G i ≠ INT_MIN)
    (h0 : ∑ i ∈ Finset.Icc 1 G.V, need G i = 0)
    (hext : Ext (needNetwork G) G0) (hshape : SameShape G0 G1)
    (inv : FlowInv G1 (G.V + 1) (G.V + 2) m)
    (hm : m = ∑ v ∈ Finset.Icc 1 G.V, (if need G v < 0 then - need G v else 0)) :
    FeasibleFlow G (fun u v => max 0 (Fl G1 u v)) := by
  obtain ⟨hV, _⟩ := needNetwork_spec G wf.1
  have hV1 : G1.V = G.V + 2 := by rw [hshape.V, hext.V, hV]
  have hCp : ∀ u v, Cp G1 u v = Cp (needNetwork G) u v :=
    fun u v => (hshape.Cp_eq u v).trans (hext.Cp_same u v)
  obtain ⟨c1, c2, c3, _, _⟩ := needNetwork_Cp G wf
  have hs1 : 1 ≤ G.V + 1 ∧ G.V + 1 ≤ G1.V := by rw [hV1]; omega
  have ht1 : 1 ≤ G.V + 2 ∧ G.V + 2 ≤ G1.V := by rw [hV1]; omega
  have wfN := needNetwork_wellFormed G wf hmin
  have hnn : ∀ u v, 1 ≤ u → u ≤ G1.V → 0 ≤ Cp G1 u v := fun u v h1 h2 => by
    rw [hCp]; exact wfN.Cp_nonneg h1 (by rw [hV, ← hV1]; exact h2) v
  have hrow : ∀ v ∈ Finset.Icc 1 G1.V, Fl G1 (G.V + 1) v = Cp G1 (G.V + 1) v :=
    (source_saturated_iff wf hmin hext hshape inv).2 hm
  have hcol : ∀ u ∈ Finset.Icc 1 G1.V, Fl G1 u (G.V + 2) = Cp G1 u (G.V + 2) := by
    rw [inv.col_sat_iff ht1 (by omega) (fun u h1 h2 => hnn u _ h1 h2), hV1]
    simp only [hCp]
    rw [needNetwork_demand G wf, ← supply_eq_demand h0]; exact hm
  have hpm : ∀ u v, u ∈ Finset.Icc 1 G.V → v ∈ Finset.Icc 1 G.V →
      max 0 (Fl G1 u v) - max 0 (Fl G1 v u) = Fl G1 u v := by
    intro u v hu hv
    rw [Finset.mem_Icc] at hu hv
    have := inv.skew u v hu.1 (by rw [hV1]; omega) hv.1 (by rw [hV1]; omega)
    rcases le_total 0 (Fl G1 u v) with h | h
    · rw [max_eq_right h, max_eq_left (by omega)]; omega
    · rw [max_eq_left h, max_eq_right (by omega)]; omega
  constructor
  · intro u hu v hv
    refine ⟨le_max_left _ _, ?_⟩
    rw [Finset.mem_Icc] at hu hv
    have h1 := inv.cap_of_nonneg (u := u) (v := v) ⟨hu.1, by rw [hV1]; omega⟩
      ⟨hv.1, by rw [hV1]; omega⟩ (hnn u v hu.1 (by rw [hV1]; omega))
    rw [hCp, c1 u v hu.1 hu.2 hv.2] at h1
    exact max_le (wf.Cp_nonneg hu.1 hu.2 v) h1
  · intro v hv
    have hv' := Finset.mem_Icc.1 hv
    have hvr : v ∈ Finset.Icc 1 G1.V := by rw [Finset.mem_Icc, hV1]; omega
    have hcons := inv.cons v hv'.1 (by rw [hV1]; omega)
    rw [if_neg (by omega), if_neg (by omega), hV1, sum_Icc_add_two] at hcons
    have e1 := hrow v hvr
    have e2 := hcol v hvr
    have e3 := inv.skew v (G.V + 1) hv'.1 (by rw [hV1]; omega) hs1.1 hs1.2
    rw [hCp, c2 v] at e1
    rw [hCp, c3 v hv'.1 (by omega)] at e2
    have hsum : ∑ u ∈ Finset.Icc 1 G.V, max 0 (Fl G1 u v) -
        ∑ w ∈ Finset.Icc 1 G.V, max 0 (Fl G1 v w) = - ∑ w ∈ Finset.Icc 1 G.V, Fl G1 v w := by
      rw [← Finset.sum_sub_distrib, ← Finset.sum_neg_distrib]
      apply Finset.sum_congr rfl
      intro w hw
      have := hpm v w hv hw
      omega
    dsimp only
    rw [hsum]
    by_cases hn : need G v < 0
    · rw [if_pos ⟨hv'.1, hv'.2, hn⟩, negInt_of_ne (hmin v hv'.1 hv'.2)] at e1
      rw [if_neg (by omega)] at e2
      omega
    · rw [if_neg (fun h => hn h.2.2)] at e1
      by_cases hp : 0 < need G v
      · rw [if_pos ⟨hv'.2, hp⟩] at e2
        omega
      · rw [if_neg (fun h => hp h.2)] at e2
        omega

/-- A feasible flow of the original network extends to a flow of the
need network whose value is the total supply. -/
theorem extend_feasible {G : GRAPH} {g : Nat → Nat → Int} (wf : WellFormed G)
    (hmin : ∀ i, 1 ≤ i → i ≤ G.V → need G i ≠ INT_MIN) (hg : FeasibleFlow G g) :
    IsFlow (needNetwork G) (G.V + 1) (G.V + 2)
      (fun u v => if 1 ≤ u ∧ u ≤ G.V ∧ 1 ≤ v ∧ v ≤ G.V then g u v
        else Cp (needNetwork G) u v) ∧
    flowValue (needNetwork G) (G.V + 1)
      (fun u v => if 1 ≤ u ∧ u ≤ G.V ∧ 1 ≤ v ∧ v ≤ G.V then g u v
        else Cp (needNetwork G) u v) =
      ∑ v ∈ Finset.Icc 1 G.V, (if need G v < 0 then - need G v else 0) := by
  obtain ⟨hV, _⟩ := needNetwork_spec G wf.1
  obtain ⟨c1, c2, c3, c4, c5⟩ := needNetwork_Cp G wf
  have wfN := needNetwork_wellFormed G wf hmin
  have hin : ∀ (f : Nat → Int) (v : Nat), 1 ≤ v → v ≤ G.V →
      ∑ u ∈ Finset.Icc 1 G.V, (if 1 ≤ u ∧ u ≤ G.V ∧ 1 ≤ v ∧ v ≤ G.V then f u
        else Cp (needNetwork G) u v) = ∑ u ∈ Finset.Icc 1 G.V, f u := by
    intro f v h1 h2
    apply Finset.sum_congr rfl
    intro u hu
    rw [Finset.mem_Icc] at hu
    rw [if_pos ⟨hu.1, hu.2, h1, h2⟩]
  have hout : ∀ (f : Nat → Int) (v : Nat), 1 ≤ v → v ≤ G.V →
      ∑ w ∈ Finset.Icc 1 G.V, (if 1 ≤ v ∧ v ≤ G.V ∧ 1 ≤ w ∧ w ≤ G.V then f w
        else Cp (needNetwork G) v w) = ∑ w ∈ Finset.Icc 1 G.V, f w := by
    intro f v h1 h2
    apply Finset.sum_congr rfl
    intro w hw
    rw [Finset.mem_Icc] at hw
    rw [if_pos ⟨h1, h2, hw.1, hw.2⟩]
  refine ⟨⟨?_, ?_⟩, ?_⟩
  · intro u hu v hv
    rw [hV, Finset.mem_Icc] at hu hv
    dsimp only
    by_cases hc : 1 ≤ u ∧ u ≤ G.V ∧ 1 ≤ v ∧ v ≤ G.V
    · rw [if_pos hc, c1 u v hc.1 hc.2.1 hc.2.2.2]
      exact hg.1 u (Finset.mem_Icc.2 ⟨hc.1, hc.2.1⟩) v (Finset.mem_Icc.2 ⟨hc.2.2.1, hc.2.2.2⟩)
    · rw [if_neg hc]
      exact ⟨wfN.Cp_nonneg hu.1 (by rw [hV]; exact hu.2) v, le_refl _⟩
  · intro v hv hvs hvt
    rw [hV, Finset.mem_Icc] at hv
    have hv1 : 1 ≤ v := hv.1
    have hv2 : v ≤ G.V := by omega
    rw [hV, sum_Icc_add_two, sum_Icc_add_two]
    dsimp only
    rw [hin (fun u => g u v) v hv1 hv2, hout (fun w => g v w) v hv1 hv2]
    rw [if_neg (by omega), if_neg (by omega), if_neg (by omega), if_neg (by omega)]
    rw [c2 v, c5 v, c4 v hv1 (by omega), c3 v hv1 (by omega)]
    have hbal := hg.2 v (Finset.mem_Icc.2 ⟨hv1, hv2⟩)
    by_cases hn : need G v < 0
    · rw [if_pos ⟨hv1, hv2, hn⟩, if_neg (by omega), negInt_of_ne (hmin v hv1 hv2)]
      omega
    · rw [if_neg (fun h => hn h.2.2)]
      by_cases hp : 0 < need G v
      · rw [if_pos ⟨hv2, hp⟩]; omega
      · rw [if_neg (fun h => hp h.2)]; omega
  · unfold flowValue
    rw [hV]
    dsimp only
    have e1 : ∑ v ∈ Finset.Icc 1 (G.V + 2),
        (if 1 ≤ G.V + 1 ∧ G.V + 1 ≤ G.V ∧ 1 ≤ v ∧ v ≤ G.V then g (G.V + 1) v
          else Cp (needNetwork G) (G.V + 1) v) =
        ∑ v ∈ Finset.Icc 1 (G.V + 2), Cp (needNetwork G) (G.V + 1) v := by
      apply Finset.sum_congr rfl
      intro v _
      rw [if_neg (by omega)]
    have e2 : ∑ u ∈ Finset.Icc 1 (G.V + 2),
        (if 1 ≤ u ∧ u ≤ G.V ∧ 1 ≤ G.V + 1 ∧ G.V + 1 ≤ G.V then g u (G.V + 1)
          else Cp (needNetwork G) u (G.V + 1)) = 0 := by
      apply Finset.sum_eq_zero
      intro u hu
      rw [Finset.mem_Icc] at hu
      rw [if_neg (by omega), c4 u hu.1 hu.2]
    rw [e1, e2, needNetwork_supply G wf, supply_of_min hmin, sub_zero]

/-- The capacities of the need network fit when those of the network and
the needs do. -/
theorem needNetwork_fits {G : GRAPH} (wf : WellFormed G) (hfit : CapacitiesFit G)
    (hneeds : ∀ i, 1 ≤ i → i ≤ G.V → INT_MIN < need G i ∧ need G i ≤ INT_MAX) :
    CapacitiesFit (needNetwork G) := by
  obtain ⟨hV, _⟩ := needNetwork_spec G wf.1
  obtain ⟨c1, c2, c3, c4, c5⟩ := needNetwork_Cp G wf
  have hmax : (0 : Int) ≤ INT_MAX := by decide
  have hsrc : ∀ v, 0 ≤ Cp (needNetwork G) (G.V + 1) v ∧
      Cp (needNetwork G) (G.V + 1) v ≤ INT_MAX := by
    intro v
    rw [c2 v]
    split
    · rename_i h
      have := hneeds v h.1 h.2.1
      rw [negInt_of_ne (ne_of_gt this.1)]
      unfold INT_MIN at this
      unfold INT_MAX
      omega
    · exact ⟨le_refl _, hmax⟩
  have hsnk : ∀ u, 1 ≤ u → u ≤ G.V + 2 → 0 ≤ Cp (needNetwork G) u (G.V + 2) ∧
      Cp (needNetwork G) u (G.V + 2) ≤ INT_MAX := by
    intro u h1 h2
    rw [c3 u h1 h2]
    split
    · rename_i h
      exact ⟨le_of_lt h.2, (hneeds u h1 h.1).2⟩
    · exact ⟨le_refl _, hmax⟩
  intro u hu v hv
  rw [hV] at hu hv
  have hur := mem_range'_one.1 hu
  have hvr := mem_range'_one.1 hv
  by_cases hu1 : u ≤ G.V
  · by_cases hv1 : v ≤ G.V
    · rw [c1 u v hur.1 hu1 hv1, c1 v u hvr.1 hv1 hu1]
      exact hfit u (mem_range'_one.2 ⟨hur.1, hu1⟩) v (mem_range'_one.2 ⟨hvr.1, hv1⟩)
    · by_cases hv2 : v = G.V + 1
      · subst hv2
        rw [c4 u hur.1 hur.2]
        have := hsrc u
        exact ⟨hmax, fun _ => by omega⟩
      · have hv3 : v = G.V + 2 := by omega
        subst hv3
        rw [c5 u]
        have := hsnk u hur.1 hur.2
        exact ⟨this.2, fun _ => by omega⟩
  · by_cases hu2 : u = G.V + 1
    · subst hu2
      rw [c4 v hvr.1 hvr.2]
      have := hsrc v
      exact ⟨this.2, fun _ => by omega⟩
    · have hu3 : u = G.V + 2 := by omega
      subst hu3
      rw [c5 v]
      have := hsnk v hvr.1 hvr.2
      exact ⟨hmax, fun _ => by omega⟩

/-- A feasible flow forces the run to saturate the super-source, where the
capacities and the needs fit. -/
theorem saturated_of_feasible {G G0 G1 : GRAPH} {m : Int} {g : Nat → Nat → Int}
    (wf : WellFormed G) (hfit : CapacitiesFit G)
    (hneeds : ∀ i, 1 ≤ i → i ≤ G.V → INT_MIN < need G i ∧ need G i ≤ INT_MAX)
    (hg : FeasibleFlow G g)
    (hext : Ext (needNetwork G) G0) (hshape : SameShape G0 G1)
    (inv : FlowInv G1 (G.V + 1) (G.V + 2) m) {S : Finset Nat}
    (hS : ResidualCut G1 (G.V + 1) (G.V + 2) S) :
    m = ∑ v ∈ Finset.Icc 1 G.V, (if need G v < 0 then - need G v else 0) := by
  have hmin : ∀ i, 1 ≤ i → i ≤ G.V → need G i ≠ INT_MIN :=
    fun i h1 h2 => ne_of_gt (hneeds i h1 h2).1
  obtain ⟨hV, _⟩ := needNetwork_spec G wf.1
  have hV1 : G1.V = (needNetwork G).V := by rw [hshape.V, hext.V]
  have hCp : ∀ u v, Cp G1 u v = Cp (needNetwork G) u v :=
    fun u v => (hshape.Cp_eq u v).trans (hext.Cp_same u v)
  have wfN := needNetwork_wellFormed G wf hmin
  obtain ⟨hflow, hval⟩ := extend_feasible wf hmin hg
  obtain ⟨hcut, hcap⟩ := inv.cut_capacity hV1 hCp (fun u v h1 h2 => wfN.Cp_nonneg h1 h2 v)
    (inv.fits wfN hV1 hCp (needNetwork_fits wf hfit hneeds)) hS
  have h1 := flowValue_le_cutCapacity hflow hcut
  rw [hval, hcap] at h1
  have h2 := (source_saturated_iff wf hmin hext hshape inv).1
  have h3 := inv.value_le (by rw [hV1, hV]; omega)
  have h4 : ∑ v ∈ Finset.Icc 1 G1.V, max (Cp G1 (G.V + 1) v) 0 =
      ∑ v ∈ Finset.Icc 1 G.V, (if need G v < 0 then - need G v else 0) := by
    rw [← supply_of_min hmin, ← needNetwork_supply G wf, hV1, hV]
    apply Finset.sum_congr rfl
    intro v _
    rw [hCp, max_eq_left (wfN.Cp_nonneg (by omega) (by rw [hV]; omega) v)]
  rw [h4] at h3
  omega

/-! ## Further facts on the states of `ComputeMaxFlow` -/

/-- Every edge of every list of a vertex without negative capacities has
non-negative residual capacity: the first edge to an endpoint by the capacity
bound, any further one because it is inert. -/
theorem FlowInv.list_residual {G : GRAPH} {s t : Nat} {m : Int} (inv : FlowInv G s t m)
    {u : Nat} (h1 : 1 ≤ u) (h2 : u ≤ G.V) (hnn : ∀ v, 0 ≤ Cp G u v) {e : EDGE}
    (he : e ∈ adj G u) : 0 ≤ e.c - e.f := by
  by_cases hne : e.c ≠ 0 ∨ e.f ≠ 0
  · have hfirst := dupInert_first (inv.hinert u h1 h2) he hne
    have hy := inv.hrange u h1 h2 e he
    have := inv.cap_of_nonneg ⟨h1, h2⟩ hy (hnn e.y)
    simp only [Cp, Fl, hfirst] at this
    omega
  · push_neg at hne
    rw [hne.1, hne.2]
    decide

/-- Vertices reached from a vertex id along edges of the lists `1..V` are
vertex ids. -/
theorem reach_inRange {G : GRAPH}
    (hrange : ∀ u, 1 ≤ u → u ≤ G.V → ∀ e ∈ adj G u, 1 ≤ e.y ∧ e.y ≤ G.V) {s : Nat}
    (hs : 1 ≤ s ∧ s ≤ G.V) :
    ∀ x, Relation.ReflTransGen (UsableStep G) s x → 1 ≤ x ∧ x ≤ G.V := by
  intro x hx
  induction hx with
  | refl => exact hs
  | @tail u v _ hstep ih =>
    obtain ⟨e, he, hy, _⟩ := hstep
    rw [← hy]
    exact hrange u ih.1 ih.2 e he

/-- With a source id in range and a sink id out of range, `ComputeMaxFlow`
runs the reverse-edge pass and one search, which returns `0`. -/
theorem ComputeMaxFlow_no_sink {G : GRAPH} (hG : ValidNetwork G) {s t : Nat}
    (hs : 1 ≤ s ∧ s ≤ G.V) (ht : ¬ (1 ≤ t ∧ t ≤ G.V)) :
    ∃ G1, addReverseEdges G = some G1 ∧ Ext G G1 ∧
      (∀ p, (BFS s t G1 p).map Prod.fst = some 0) ∧
      ∀ fuel, 0 < fuel → ComputeMaxFlow fuel G s t = some (G1, 0) := by
  obtain ⟨G1, hG1, hext, _⟩ := reverseOuter_spec (List.range' 1 G.V) G
    (fun i hi => mem_range'_one.1 hi)
  have hV := hext.V
  have hst : s ≠ t := by
    rintro rfl
    exact ht hs
  have hrange : ∀ u, 1 ≤ u → u ≤ G1.V → ∀ e ∈ adj G1 u, 1 ≤ e.y ∧ e.y ≤ G1.V := by
    intro u h1 h2 e he
    rw [hV] at h2 ⊢
    obtain ⟨ext, happ, hz⟩ := hext.app u
    rw [happ] at he
    rcases List.mem_append.1 he with h | h
    · have := (hG.1.at h1 h2).1 e h
      exact ⟨this.1, this.2.1⟩
    · have := hz e h
      exact ⟨this.2.2.1, this.2.2.2.1⟩
  have ctx : SearchCtx G1 s t :=
    { hlen := by rw [hext.len, hV]; exact hG.1.1
      hrange := hrange
      hV := by rw [hV, MAX_eq]; have := hG.2; omega
      hVt := fun _ => by rw [hV, MAX_eq]; have := hG.2; omega
      hs := by rw [hV]; exact hs
      hst := hst }
  have hzero : ∀ p, ∃ parent, BFS s t G1 p = some (0, parent) := by
    intro p
    obtain ⟨b, parent, hB, hb0, hiff⟩ := BFS_value ctx p
    have : ¬ 0 < b := by
      intro hpos
      have := reach_inRange hrange ctx.hs t (hiff.1 hpos)
      rw [hV] at this
      exact ht this
    have hb : b = 0 := le_antisymm (not_lt.1 this) hb0
    exact ⟨parent, by rw [hB, hb]⟩
  refine ⟨G1, hG1, hext, ?_, ?_⟩
  · intro p
    obtain ⟨parent, hB⟩ := hzero p
    rw [hB]; rfl
  · intro fuel hf
    obtain ⟨k, rfl⟩ : ∃ k, fuel = k + 1 := ⟨fuel - 1, by omega⟩
    obtain ⟨parent, hB⟩ := hzero (List.replicate (G1.V + 1) 0)
    show ComputeMaxFlow (k + 1) G s t = some (G1, 0)
    rw [ComputeMaxFlow]
    simp only [addReverseEdges] at hG1 ⊢
    rw [hG1]
    show maxFlowLoop s t (k + 1) G1 (List.replicate (G1.V + 1) 0) 0 = some (G1, 0)
    rw [maxFlowLoop, hB]
    simp

/-- The calls listed by `bfsScanCalls` are the calls made: replaying them on
the queues at the start of a scan gives the queues at its end. -/
theorem bfsScan_replay (t : Nat) (cv cf : Int) :
    ∀ (es : List EDGE) (st : BFSState),
      (bfsScan t cv cf es st).vertexQueue =
        (bfsScanCalls t cv cf es st).foldl (fun q c => enqueue q (c.2.2 : Int))
          st.vertexQueue := by
  intro es
  induction es with
  | nil => intro st; rfl
  | cons e es ih =>
    intro st
    rw [bfsScan_split, bfsScanCalls_cons, List.foldl_append, ih]
    congr 1
    rw [bfsScan_cons]
    by_cases hy : e.y = t
    · have hno : ¬ (e.y ≠ t ∧ st.parent.getD e.y 0 = -1 ∧ wrapInt (e.c - e.f) > 0) := fun h1 => h1.1 hy
      rw [if_pos hy, if_neg hno]
      by_cases hlt : st.maxFlow_path < (if cf < wrapInt (e.c - e.f) then cf else wrapInt (e.c - e.f))
      · rw [if_pos hlt]; rfl
      · rw [if_neg hlt]; rfl
    · rw [if_neg hy]
      by_cases hc : st.parent.getD e.y 0 = -1 ∧ wrapInt (e.c - e.f) > 0
      · have hyes : e.y ≠ t ∧ st.parent.getD e.y 0 = -1 ∧ wrapInt (e.c - e.f) > 0 := ⟨hy, hc⟩
        rw [if_pos hc, if_pos hyes]; rfl
      · have hno : ¬ (e.y ≠ t ∧ st.parent.getD e.y 0 = -1 ∧ wrapInt (e.c - e.f) > 0) := fun h1 => hc h1.2
        rw [if_neg hc, if_neg hno]; rfl

/-! ## Lookups of an augmentation and sums of the flow fields -/

/-- The walk back along `parent` from the head of a parent chain reads off
the chain. -/
theorem ParentChain.readOff {G : GRAPH} {parent : List Int} {s : Nat} {chain : List Nat}
    (h : ParentChain G parent s chain) :
    ∀ fuel, chain.length ≤ fuel → parentWalk parent s fuel (chain.headD 0) = some chain := by
  induction h with
  | base =>
    intro fuel hf
    cases fuel with
    | zero => simp at hf
    | succ k => simp [parentWalk]
  | @step cur prev rest h1 _ h3 _ _ _ ih =>
    intro fuel hf
    cases fuel with
    | zero => simp at hf
    | succ k =>
      have hk : (prev :: rest).length ≤ k := by
        simp only [List.length_cons] at hf ⊢
        omega
      have := ih k hk
      simp only [List.headD_cons] at this ⊢
      rw [parentWalk, if_neg h1, h3, Int.toNat_ofNat, this]
      rfl

/-- Along a parent chain every link `prev → cur` and its companion
`cur → prev` are present in the adjacency lists. -/
theorem ParentChain.links {G : GRAPH} {parent : List Int} {s : Nat} {chain : List Nat}
    (h : ParentChain G parent s chain) :
    List.Chain' (fun cur prev => (∃ e ∈ adj G prev, e.y = cur) ∧ (∃ e ∈ adj G cur, e.y = prev))
      chain := by
  induction h with
  | base => simp
  | step _ _ _ h4 h5 _ ih => exact List.chain'_cons.2 ⟨⟨h4, h5⟩, ih⟩

/-- In a state that satisfies the loop invariant, `BFS` returns, and when its
value is positive the chain it records can be walked back from `t` to `s`, all
its links and their companions are in the lists, and the flow update finds
every edge it looks for. -/
theorem loop_lookups {G : GRAPH} {s t : Nat} {m : Int} (inv : FlowInv G s t m)
    (hV : G.V ≤ MAX + 2) (hs : 1 ≤ s ∧ s ≤ G.V) (ht : 1 ≤ t ∧ t ≤ G.V) (hst : s ≠ t)
    (p0 : List Int) :
    ∃ b parent, BFS s t G p0 = some (b, parent) ∧
      (0 < b → ∃ chain G1, parentWalk parent s (G.V + 1) t = some chain ∧
        List.Chain' (fun cur prev => (∃ e ∈ adj G prev, e.y = cur) ∧
          (∃ e ∈ adj G cur, e.y = prev)) chain ∧
        augment parent s b (G.V + 1) t G = some G1) := by
  obtain ⟨b, parent, hB, _, hpos, _⟩ := BFS_spec (inv.bfsCtx hV hs ht hst) p0
  refine ⟨b, parent, hB, ?_⟩
  intro hb
  obtain ⟨p, rest, hpt, hchain, hres⟩ := hpos hb
  have hpr := hchain.inRange hs p (List.mem_cons_self _ _)
  have hpt1 : p ≠ t := hchain.ne_sink hst p (List.mem_cons_self _ _)
  have hne : Cp G p t ≠ 0 ∨ Fl G p t ≠ 0 := by
    by_contra hcon
    push_neg at hcon
    rw [hcon.1, hcon.2] at hres
    omega
  have hpc : ParentChain G parent s (t :: p :: rest) :=
    ParentChain.step (Ne.symm hst) hpt1 hpt (Cp_ne_or_Fl_ne_hasEdge hne)
      (inv.comp p t hpr.1 hpr.2 ht.1 ht.2 hne) (hchain.toParentChain hb inv hs)
  have hnd : (t :: p :: rest).Nodup :=
    List.nodup_cons.2 ⟨fun h => hchain.ne_sink hst t h rfl, hchain.nodup⟩
  have hlen : (t :: p :: rest).length ≤ G.V + 1 := by
    have := nodup_range_length_le G.V _ hnd (by
      intro x hx
      rcases List.mem_cons.1 hx with rfl | hx
      · exact ht
      · exact hchain.inRange hs x hx)
    omega
  obtain ⟨G1, hG1, _, _, _⟩ := augment_spec b hpc t (p :: rest) (G.V + 1) rfl hlen
  have hwalk := hpc.readOff (G.V + 1) hlen
  simp only [List.headD_cons] at hwalk
  exact ⟨t :: p :: rest, G1, hwalk, hpc.links, hG1⟩

/-- In a list whose duplicate edges are inert, the flow fields of the edges to
`v` add up to the flow of the first of them. -/
theorem filter_sum_first (L : List EDGE) (hL : DupInert L) (v : Nat) :
    ((L.filter (fun e => e.y = v)).map EDGE.f).sum = ((firstEdge L v).map EDGE.f).getD 0 := by
  induction L with
  | nil => simp [firstEdge]
  | cons e es ih =>
    unfold DupInert at hL
    rw [List.pairwise_cons] at hL
    by_cases hy : e.y = v
    · have hrest : ((es.filter (fun e => e.y = v)).map EDGE.f).sum = 0 := by
        apply List.sum_eq_zero
        intro x hx
        rw [List.mem_map] at hx
        obtain ⟨a, ha, rfl⟩ := hx
        rw [List.mem_filter] at ha
        have hav : a.y = v := by simpa using ha.2
        exact (hL.1 a ha.1 (hy.trans hav.symm)).2
      rw [firstEdge_cons, if_pos hy]
      simp [List.filter_cons, hy, hrest]
    · rw [firstEdge_cons, if_neg hy, ← ih hL.2]
      simp [List.filter_cons, hy]

/-- The flow fields of the whole adjacency list of a vertex add up to its net
outflow: `m` at the source, `-m` at the sink, `0` elsewhere. -/
theorem FlowInv.list_sum {G : GRAPH} {s t : Nat} {m : Int} (inv : FlowInv G s t m) {u : Nat}
    (h1 : 1 ≤ u) (h2 : u ≤ G.V) :
    ((adj G u).map EDGE.f).sum = if u = s then m else if u = t then -m else 0 := by
  rw [← inv.cons u h1 h2, sum_filter_y (Finset.Icc 1 G.V)]
  · apply Finset.sum_congr rfl
    intro v _
    rw [filter_sum_first _ (inv.hinert u h1 h2), Fl_eq_map]
  · intro e he
    rw [Finset.mem_Icc]
    exact inv.hrange u h1 h2 e he


/-! ## Shape of the network returned on an arbitrary input -/

/-- Whenever the backtracking loop returns, it has changed flows only. -/
theorem augment_sameShape (parent : List Int) (s : Nat) (b : Int) :
    ∀ (fuel cur : Nat) (G G1 : GRAPH), augment parent s b fuel cur G = some G1 →
      SameShape G G1 := by
  intro fuel
  induction fuel with
  | zero => intro cur G G1 h; simp [augment] at h
  | succ n ih =>
    intro cur G G1 h
    rw [augment] at h
    by_cases hc : cur = s
    · rw [if_pos hc] at h
      injection h with h
      subst h
      exact SameShape.refl G
    · rw [if_neg hc] at h
      dsimp only at h
      cases h1 : addFlow cur b (adj G (parent.getD cur 0).toNat) with
      | none => rw [h1] at h; cases h
      | some L1 =>
        rw [h1] at h
        dsimp only at h
        cases h2 : addFlow (parent.getD cur 0).toNat (-b)
            (adj (setAdj G (parent.getD cur 0).toNat L1) cur) with
        | none => rw [h2] at h; cases h
        | some L2 =>
          rw [h2] at h
          dsimp only at h
          have s1 := sameShape_setAdj G _ L1 (addFlow_map_y h1) (addFlow_map_c h1)
          have s2 := sameShape_setAdj _ cur L2 (addFlow_map_y h2) (addFlow_map_c h2)
          exact (s1.trans s2).trans (ih _ _ _ h)

/-- Whenever the augmentation loop returns, it has changed flows only. -/
theorem maxFlowLoop_sameShape (s t : Nat) :
    ∀ (fuel : Nat) (G : GRAPH) (p : List Int) (m : Int) (G1 : GRAPH) (m1 : Int),
      maxFlowLoop s t fuel G p m = some (G1, m1) → SameShape G G1 := by
  intro fuel
  induction fuel with
  | zero => intro G p m G1 m1 h; simp [maxFlowLoop] at h
  | succ n ih =>
    intro G p m G1 m1 h
    rw [maxFlowLoop] at h
    cases hB : BFS s t G p with
    | none => rw [hB] at h; cases h
    | some r =>
      obtain ⟨newFlow, parent1⟩ := r
      rw [hB] at h
      dsimp only at h
      by_cases h0 : newFlow = 0
      · rw [if_pos h0] at h
        injection h with h
        injection h with h1 h2
        subst h1
        exact SameShape.refl G
      · rw [if_neg h0] at h
        cases hA : augment parent1 s newFlow (G.V + 1) t G with
        | none => rw [hA] at h; cases h
        | some G2 =>
          rw [hA] at h
          dsimp only at h
          exact (augment_sameShape _ _ _ _ _ _ _ hA).trans (ih _ _ _ _ _ h)

/-- Whenever `NeedBasedFlow` returns on a network whose `net_need` is zero, the
network it returns has the shape of the need network after the reverse-edge
pass. -/
theorem NeedBasedFlow_shape {G G1 : GRAPH} {fuel : Nat} (h0 : netNeed G = 0)
    (h : NeedBasedFlow fuel G = some G1) :
    ∃ G0, Ext (needNetwork G) G0 ∧ SameShape G0 G1 := by
  rw [NeedBasedFlow, if_neg (by simpa using h0)] at h
  dsimp only at h
  obtain ⟨G0, hG0, hext, _⟩ := reverseOuter_spec (List.range' 1 (needNetwork G).V)
    (needNetwork G) (fun i hi => mem_range'_one.1 hi)
  rw [ComputeMaxFlow] at h
  simp only [addReverseEdges] at h
  rw [hG0] at h
  dsimp only at h
  rw [Option.map_eq_some'] at h
  obtain ⟨r, hr, hr1⟩ := h
  obtain ⟨G2, m⟩ := r
  dsimp only at hr1
  subst hr1
  exact ⟨G0, hext, maxFlowLoop_sameShape _ _ _ _ _ _ _ _ hr⟩


/-! ## Claims -/

/-- C3. On every valid network and for all vertex ids `s`, `t` (equal or not),
the augmentation loop of `ComputeMaxFlow` terminates: there is a number `n`
of augmentations after which `BFS` returns `0`, and with any fuel above `n`
the function returns the network and total reached then. -/
theorem ComputeMaxFlow_terminates (G : GRAPH) (hG : ValidNetwork G) (s t : Nat)
    (hs : 1 ≤ s ∧ s ≤ G.V) (ht : 1 ≤ t ∧ t ≤ G.V) :
    ∃ (n : Nat) (G1 : GRAPH) (m : Int), augmentedState G s t n = some (G1, m) ∧
      (∀ p, (BFS s t G1 p).map Prod.fst = some 0) ∧
      ∀ fuel, n < fuel → ComputeMaxFlow fuel G s t = some (G1, m) :=
  ComputeMaxFlow_ends hG.1.runnable hG.le_MAX hs ht

/-- Witness for C3 on scenario 1. -/
theorem ComputeMaxFlow_terminates_witness :
    ValidNetwork scenario1 ∧
    ∃ (n : Nat) (G1 : GRAPH) (m : Int), augmentedState scenario1 1 2 n = some (G1, m) ∧
      (∀ p, (BFS 1 2 G1 p).map Prod.fst = some 0) ∧
      ∀ fuel, n < fuel → ComputeMaxFlow fuel scenario1 1 2 = some (G1, m) :=
  ⟨by decide, ComputeMaxFlow_terminates scenario1 (by decide) 1 2 (by decide) (by decide)⟩

/-- C5 fails as stated. On the valid network with the antiparallel edges
`1 → 2` (capacity 5) and `2 → 1` (capacity 3), `ComputeMaxFlow(1, 2)` leaves
flow `-5` on the edge `2 → 1` of capacity 3. -/
theorem flow_bounds_counterexample :
    ValidNetwork antiparallel ∧
    ComputeMaxFlow 2 antiparallel 1 2 = some (antiparallelFinal, 5) ∧
    ∃ e ∈ adj antiparallelFinal 2, 0 < e.c ∧ ¬ (0 ≤ e.f ∧ e.f ≤ e.c) := by
  decide

/-- C5, amended. After `ComputeMaxFlow(s, t)` on a valid network, every edge
`u → v` of positive capacity has its flow at most its capacity and at least
minus the capacity of the opposite edge `v → u` (zero when there is none), so
`0 ≤ flow ≤ capacity` whenever no opposite edge of positive capacity exists. -/
theorem flow_bounds (G : GRAPH) (hG : ValidNetwork G) (s t : Nat)
    (hs : 1 ≤ s ∧ s ≤ G.V) (ht : 1 ≤ t ∧ t ≤ G.V) :
    ∃ (n : Nat) (G1 : GRAPH) (m : Int),
      (∀ fuel, n < fuel → ComputeMaxFlow fuel G s t = some (G1, m)) ∧
      ∀ u, 1 ≤ u → u ≤ G.V → ∀ e ∈ adj G1 u, 0 < e.c →
        - Cp G e.y u ≤ e.f ∧ e.f ≤ e.c ∧ (Cp G e.y u = 0 → 0 ≤ e.f) := by
  obtain ⟨n, G1, m, hst, _, hrun⟩ := ComputeMaxFlow_ends hG.1.runnable hG.le_MAX hs ht
  obtain ⟨G0, hext, hshape, inv⟩ := augmentedState_inv hG.1.runnable hG.le_MAX hs ht hst
  refine ⟨n, G1, m, hrun, ?_⟩
  intro u h1 h2 e he hc
  have hV : G1.V = G.V := hshape.V.trans hext.V
  have hy := inv.hrange u h1 (by rw [hV]; exact h2) e he
  have hnn : 0 ≤ Cp G1 e.y u := by
    rw [hshape.Cp_eq, hext.Cp_same]
    exact hG.1.Cp_nonneg hy.1 (by rw [← hV]; exact hy.2) u
  have := inv.edge_bounds h1 (by rw [hV]; exact h2) he hc hnn
  rw [hshape.Cp_eq, hext.Cp_same] at this
  exact ⟨this.1, this.2, fun h0 => by rw [h0] at this; simpa using this.1⟩

/-- Witness for the amended C5 on the antiparallel network. -/
theorem flow_bounds_witness :
    ValidNetwork antiparallel ∧
    ∃ (n : Nat) (G1 : GRAPH) (m : Int),
      (∀ fuel, n < fuel → ComputeMaxFlow fuel antiparallel 1 2 = some (G1, m)) ∧
      ∀ u, 1 ≤ u → u ≤ antiparallel.V → ∀ e ∈ adj G1 u, 0 < e.c →
        - Cp antiparallel e.y u ≤ e.f ∧ e.f ≤ e.c ∧ (Cp antiparallel e.y u = 0 → 0 ≤ e.f) :=
  ⟨by decide, flow_bounds antiparallel (by decide) 1 2 (by decide) (by decide)⟩

/-- C6. After every augmentation of `ComputeMaxFlow` on a valid network (and
already before the first), for every edge `u → v` of positive capacity the
first edge to `u` in the adjacency list of `v`, which is the companion the
augmentation updates, exists and carries the negated flow. -/
theorem companion_flow_negated (G : GRAPH) (hG : ValidNetwork G) (s t : Nat)
    (hs : 1 ≤ s ∧ s ≤ G.V) (ht : 1 ≤ t ∧ t ≤ G.V) (n : Nat) (G1 : GRAPH) (m : Int)
    (h : augmentedState G s t n = some (G1, m)) :
    ∀ u, 1 ≤ u → u ≤ G.V → ∀ e ∈ adj G1 u, 0 < e.c →
      ∃ e1, firstEdge (adj G1 e.y) u = some e1 ∧ e1.f = - e.f := by
  obtain ⟨G0, hext, hshape, inv⟩ := augmentedState_inv hG.1.runnable hG.le_MAX hs ht h
  intro u h1 h2 e he hc
  have hV : G1.V = G.V := hshape.V.trans hext.V
  exact inv.companion h1 (by rw [hV]; exact h2) he hc

/-- Witness for C6: scenario 1 after its single augmentation. -/
theorem companion_flow_negated_witness :
    ValidNetwork scenario1 ∧ augmentedState scenario1 1 2 1 = some (scenario1Final, 5) ∧
    ∀ u, 1 ≤ u → u ≤ scenario1.V → ∀ e ∈ adj scenario1Final u, 0 < e.c →
      ∃ e1, firstEdge (adj scenario1Final e.y) u = some e1 ∧ e1.f = - e.f :=
  ⟨by decide, by decide,
    companion_flow_negated scenario1 (by decide) 1 2 (by decide) (by decide) 1 scenario1Final 5
      (by decide)⟩

/-- C9. For every valid network whose needs sum to zero, in the network that
`NeedBasedFlow` returns, `checkFeasibility` returns `1` (all edges out of the
super-source `V + 1` saturated) if and only if every edge into the super-sink
`V + 2`, from whatever vertex, has its flow equal to its capacity. -/
theorem sink_saturation_iff (G : GRAPH) (hG : ValidNetwork G)
    (h0 : ∑ i ∈ Finset.Icc 1 G.V, need G i = 0) :
    ∃ (n : Nat) (G1 : GRAPH), (∀ fuel, n < fuel → NeedBasedFlow fuel G = some G1) ∧
      (checkFeasibility G1 = 1 ↔
        ∀ u, 1 ≤ u → u ≤ G.V + 2 → ∀ e ∈ adj G1 u, e.y = G.V + 2 → e.f = e.c) := by
  have hnet := netNeed_of_sum_zero h0
  obtain ⟨n, G0, G1, m, hrun, hext, hshape, inv, _⟩ := NeedBasedFlow_run hG hnet
  obtain ⟨h1, h2⟩ := feasibility_core hG.1 hext hshape inv
  refine ⟨n, G1, hrun, ?_⟩
  rw [h1, h2, ← supply_eq_demand h0]
  by_cases hmin : ∀ i, 1 ≤ i → i ≤ G.V → need G i ≠ INT_MIN
  · rw [source_saturated_iff hG.1 hmin hext hshape inv]
    exact ⟨fun h => h.2, fun h => ⟨hnet, h⟩⟩
  · push_neg at hmin
    obtain ⟨v0, hv1, hv2, hv0⟩ := hmin
    obtain ⟨hnot, hlt⟩ := source_dead hG.1 ⟨hv1, hv2⟩ hv0 hext hshape inv
    exact ⟨fun h => absurd h.2 hnot, fun h => absurd h (ne_of_lt hlt)⟩

/-- Witness for C9 on scenario 3. -/
theorem sink_saturation_iff_witness :
    ValidNetwork scenario3 ∧ ∑ i ∈ Finset.Icc 1 scenario3.V, need scenario3 i = 0 ∧
    ∃ (n : Nat) (G1 : GRAPH), (∀ fuel, n < fuel → NeedBasedFlow fuel scenario3 = some G1) ∧
      (checkFeasibility G1 = 1 ↔
        ∀ u, 1 ≤ u → u ≤ scenario3.V + 2 → ∀ e ∈ adj G1 u, e.y = scenario3.V + 2 → e.f = e.c) :=
  ⟨by decide, by decide, sink_saturation_iff scenario3 (by decide) (by decide)⟩

/-- C11 does not hold of the code. On the file `V = 3`, `E = 3` with the
triples `1 2 1`, `1 3 1`, `1 3 1` the list of vertex 1 ends with two edges
`1 → 3` of capacity 1 each, because the last node of a list is never compared
with the new edge; on `V = 4`, `E = 4` with `1 2 1`, `1 3 1`, `1 4 1`, `1 3 1`
the merge into the middle node cuts the list behind it and the edge `1 → 4` is
lost.  A repeat of the first node is merged as intended. -/
theorem ReadGraph_merge_defect :
    (ReadGraph 3 3 [0, 0, 0] [(1, 2, 1), (1, 3, 1), (1, 3, 1)]).map (fun G => adj G 1) =
      some [⟨2, 1, 0⟩, ⟨3, 1, 0⟩, ⟨3, 1, 0⟩] ∧
    (ReadGraph 4 4 [0, 0, 0, 0] [(1, 2, 1), (1, 3, 1), (1, 4, 1), (1, 3, 1)]).map
        (fun G => adj G 1) =
      some [⟨2, 1, 0⟩, ⟨3, 2, 0⟩] ∧
    (ReadGraph 3 3 [0, 0, 0] [(1, 2, 1), (1, 3, 1), (1, 2, 1)]).map (fun G => adj G 1) =
      some [⟨2, 2, 0⟩, ⟨3, 1, 0⟩] := by
  decide

/-- C12 does not hold of the code. On the valid network with the edges
`1 → 2` (capacity 5) and `2 → 1` (capacity 3) the reverse-edge pass leaves two
edges `2 → 1` in the list of vertex 2: the scan for an existing reverse edge
stops before the last node, so the edge `(1, 0, 0)` is appended although
`2 → 1` is there. -/
theorem addReverseEdges_duplicate_companion :
    ValidNetwork antiparallel ∧ (∃ e ∈ adj antiparallel 1, e.y = 2 ∧ 0 < e.c) ∧
    (addReverseEdges antiparallel).map (fun G => (adj G 2).filter (fun e => e.y = 1)) =
      some [⟨1, 3, 0⟩, ⟨1, 0, 0⟩] := by
  decide

/-- C13 does not hold of the code. On scenario 1 the first pass adds the
reverse edge `(1, 0, 0)` to the list of vertex 2; a second pass on the result
adds it once more, because the scan for an existing reverse edge never looks
at the last node of the list. -/
theorem addReverseEdges_second_pass :
    ValidNetwork scenario1 ∧ addReverseEdges scenario1 = some scenario1Residual ∧
    (addReverseEdges scenario1Residual).map (fun G => adj G 2) =
      some [⟨1, 0, 0⟩, ⟨1, 0, 0⟩] ∧
    addReverseEdges scenario1Residual ≠ some scenario1Residual := by
  decide

/-- C14 fails as stated. `ComputeMaxFlow` compares neither `s` nor `t` with
`V` and has no error result.  On scenario 1 (two vertices) the requests
`ComputeMaxFlow(1, 3)` and `ComputeMaxFlow(1, 0)` are not rejected: the
reverse-edge pass changes the network, the search runs (it discovers vertex 2
and sets `parent[2] = 1`), and the function returns normally with total 0, as
it does when there is no augmenting path. -/
theorem ComputeMaxFlow_no_rejection :
    ¬ (1 ≤ 3 ∧ 3 ≤ scenario1.V) ∧ ¬ (1 ≤ 0 ∧ 0 ≤ scenario1.V) ∧
    ComputeMaxFlow 1 scenario1 1 3 = some (scenario1Residual, 0) ∧
    ComputeMaxFlow 1 scenario1 1 0 = some (scenario1Residual, 0) ∧
    scenario1Residual ≠ scenario1 ∧
    BFS 1 3 scenario1Residual (List.replicate 3 0) = some (0, [-1, 0, 1]) ∧
    ¬ (∀ fuel, ComputeMaxFlow fuel scenario1 1 3 = none) := by
  refine ⟨by decide, by decide, by decide, by decide, by decide, by decide, ?_⟩
  intro h
  exact absurd (h 1) (by decide)

/-- C14, amended. `ComputeMaxFlow` performs no range check. For every valid
network, every source id `s` in `1..V` and every sink id `t` outside `1..V`,
it runs the reverse-edge pass and one search, which returns `0`, and returns
normally (with any fuel `≥ 1`) with total `0`, every flow still `0`. -/
theorem ComputeMaxFlow_sink_out_of_range (G : GRAPH) (hG : ValidNetwork G) (s t : Nat)
    (hs : 1 ≤ s ∧ s ≤ G.V) (ht : ¬ (1 ≤ t ∧ t ≤ G.V)) :
    ∃ G1, addReverseEdges G = some G1 ∧
      (∀ p, (BFS s t G1 p).map Prod.fst = some 0) ∧
      (∀ fuel, 0 < fuel → ComputeMaxFlow fuel G s t = some (G1, 0)) ∧
      ∀ u, 1 ≤ u → u ≤ G.V → ∀ e ∈ adj G1 u, e.f = 0 := by
  obtain ⟨G1, hG1, hext, hz, hrun⟩ := ComputeMaxFlow_no_sink hG hs ht
  exact ⟨G1, hG1, hz, hrun,
    fun u h1 h2 => hext.flows_zero (fun e he => ((hG.1.at h1 h2).1 e he).2.2.2)⟩

/-- Witness for the amended C14: scenario 1 with source 1 and sink id 3. -/
theorem ComputeMaxFlow_sink_out_of_range_witness :
    ValidNetwork scenario1 ∧ ¬ (1 ≤ 3 ∧ 3 ≤ scenario1.V) ∧
    ∃ G1, addReverseEdges scenario1 = some G1 ∧
      (∀ p, (BFS 1 3 G1 p).map Prod.fst = some 0) ∧
      (∀ fuel, 0 < fuel → ComputeMaxFlow fuel scenario1 1 3 = some (G1, 0)) ∧
      ∀ u, 1 ≤ u → u ≤ scenario1.V → ∀ e ∈ adj G1 u, e.f = 0 :=
  ⟨by decide, by decide,
    ComputeMaxFlow_sink_out_of_range scenario1 (by decide) 1 3 (by decide) (by decide)⟩

/-- C16 does not hold of the code. On the network `detour` (after the
reverse-edge pass) `BFS(1, 3)` returns 10 and records the path `3, 2, 1` of two
edges, although the edge `1 → 3` of residual capacity 1 is a path of one edge:
the search keeps running after the sink is reached and replaces `parent[t]`
whenever a larger bottleneck turns up. -/
theorem BFS_path_not_shortest :
    ValidNetwork detour ∧ addReverseEdges detour = some detourResidual ∧
    BFS 1 3 detourResidual (List.replicate 4 0) = some (10, [-1, 0, 1, 2]) ∧
    parentWalk [-1, 0, 1, 2] 1 4 3 = some [3, 2, 1] ∧
    ∃ e ∈ adj detourResidual 1, e.y = 3 ∧ 0 < e.c - e.f := by
  decide

/-- C17 does not hold of the code. On the network `detour` (after the
reverse-edge pass) `BFS(1, 3)` returns 10, while the only path with the fewest
edges is the single edge `1 → 3`, whose residual capacity is 1. -/
theorem BFS_value_not_among_shortest :
    (BFS 1 3 detourResidual (List.replicate 4 0)).map Prod.fst = some 10 ∧
    (∃ e ∈ adj detourResidual 1, e.y = 3 ∧ 0 < e.c - e.f) ∧
    ∀ e ∈ adj detourResidual 1, e.y = 3 → e.c - e.f = 1 := by
  decide

/-- C18. On a network state (`V ≤ 10000`, in-range destinations, residual
capacities within the range of `int`) in which no vertex has two outgoing
edges to the same destination, `BFS(s, t)` returns, and whenever the value `b`
it returns is positive, the walk back along `parent` from `t` reaches `s`
within `V + 1` vertices without repeating a vertex, and `b` is the minimum of
`c - f` over the edges `parent[v] → v` of that chain: it is one of them and at
most each. -/
theorem BFS_bottleneck (G : GRAPH) (hG : SearchState G) (hnp : NoParallel G)
    (hfit : ResidualsFit G) (s t : Nat) (hs : 1 ≤ s ∧ s ≤ G.V) (ht : 1 ≤ t ∧ t ≤ G.V)
    (parent0 : List Int) :
    ∃ b parent, BFS s t G parent0 = some (b, parent) ∧
      (0 < b →
        ∃ chain, parentWalk parent s (G.V + 1) t = some chain ∧ chain.Nodup ∧
          chain.head? = some t ∧ chain.getLast? = some s ∧
          b ∈ chainResiduals G chain ∧ ∀ r ∈ chainResiduals G chain, b ≤ r) := by
  by_cases hst : s = t
  · exact ⟨0, parent0, by rw [BFS, if_pos hst], fun h => absurd h (lt_irrefl _)⟩
  · obtain ⟨b, parent, hB, _, _⟩ := BFS_value (hG.ctx hs hst) parent0
    exact ⟨b, parent, hB, fun hb => BFS_chain (hG.ctx hs hst) ht hnp hfit hB hb⟩

/-- Witness for C18 on the network `detour` after the reverse-edge pass:
`BFS(1, 3)` returns 10 along the chain `3, 2, 1`, whose edges have residual
capacities 10 and 10. -/
theorem BFS_bottleneck_witness :
    SearchState detourResidual ∧ NoParallel detourResidual ∧ ResidualsFit detourResidual ∧
    BFS 1 3 detourResidual [] = some (10, [-1, 0, 1, 2]) ∧
    parentWalk [-1, 0, 1, 2] 1 (detourResidual.V + 1) 3 = some [3, 2, 1] ∧
    chainResiduals detourResidual [3, 2, 1] = [10, 10] ∧
    ∃ b parent, BFS 1 3 detourResidual [] = some (b, parent) ∧
      (0 < b →
        ∃ chain, parentWalk parent 1 (detourResidual.V + 1) 3 = some chain ∧ chain.Nodup ∧
          chain.head? = some 3 ∧ chain.getLast? = some 1 ∧
          b ∈ chainResiduals detourResidual chain ∧
          ∀ r ∈ chainResiduals detourResidual chain, b ≤ r) :=
  ⟨by decide, by decide, by decide, by decide, by decide, by decide,
    BFS_bottleneck detourResidual (by decide) (by decide) (by decide) 1 3 (by decide)
      (by decide) []⟩

/-- C19. On a well-formed network with at most `10002` vertices (every valid
network, and the network with the two synthetic vertices that `NeedBasedFlow`
hands over), after the reverse-edge pass and any number `n` of augmentations
of `ComputeMaxFlow(s, t)` every edge of every adjacency list `1..V` has
`c - f ≥ 0`; the loop ends in such a state. -/
theorem residual_nonneg (G : GRAPH) (wf : WellFormed G) (hV : G.V ≤ 10002) (s t : Nat)
    (hs : 1 ≤ s ∧ s ≤ G.V) (ht : 1 ≤ t ∧ t ≤ G.V) :
    (∀ (n : Nat) (G1 : GRAPH) (m : Int), augmentedState G s t n = some (G1, m) →
      ∀ u, 1 ≤ u → u ≤ G.V → ∀ e ∈ adj G1 u, 0 ≤ e.c - e.f) ∧
    ∃ (n : Nat) (G1 : GRAPH) (m : Int), augmentedState G s t n = some (G1, m) ∧
      ∀ fuel, n < fuel → ComputeMaxFlow fuel G s t = some (G1, m) := by
  have hV1 : G.V ≤ MAX + 2 := by rw [MAX_eq]; exact hV
  constructor
  · intro n G1 m h u h1 h2 e he
    obtain ⟨G0, hext, hshape, inv⟩ := augmentedState_inv wf.runnable hV1 hs ht h
    have hVeq : G1.V = G.V := hshape.V.trans hext.V
    exact inv.list_residual h1 (by rw [hVeq]; exact h2)
      (fun v => by rw [hshape.Cp_eq, hext.Cp_same]; exact wf.Cp_nonneg h1 h2 v) he
  · obtain ⟨n, G1, m, hstate, _, hrun⟩ := ComputeMaxFlow_ends wf.runnable hV1 hs ht
    exact ⟨n, G1, m, hstate, hrun⟩

/-- Witness for C19 on the antiparallel network, whose single augmentation
leaves the residual capacities `0, 0, 8, 0`. -/
theorem residual_nonneg_witness :
    WellFormed antiparallel ∧ augmentedState antiparallel 1 2 1 = some (antiparallelFinal, 5) ∧
    (∀ (n : Nat) (G1 : GRAPH) (m : Int), augmentedState antiparallel 1 2 n = some (G1, m) →
      ∀ u, 1 ≤ u → u ≤ antiparallel.V → ∀ e ∈ adj G1 u, 0 ≤ e.c - e.f) ∧
    ∃ (n : Nat) (G1 : GRAPH) (m : Int), augmentedState antiparallel 1 2 n = some (G1, m) ∧
      ∀ fuel, n < fuel → ComputeMaxFlow fuel antiparallel 1 2 = some (G1, m) :=
  ⟨by decide, by decide,
    residual_nonneg antiparallel (by decide) (by decide) 1 2 (by decide) (by decide)⟩

/-- C20. During a call `BFS(s, t)` on a network state with `V ≤ 10000` and
in-range destinations (`s` a vertex id, `t` arbitrary), which runs to
completion, no vertex is passed to `enqueue` twice and the sink never; at
every call both queues hold fewer than `V` items (so never more than `V`
afterwards) and are not full, so the branch of `enqueue` that drops the item
is not taken. -/
theorem BFS_enqueue_once (G : GRAPH) (hG : SearchState G) (s t : Nat)
    (hs : 1 ≤ s ∧ s ≤ G.V) (parent0 : List Int) :
    (∃ r, BFS s t G parent0 = some r) ∧
    ((bfsCalls s t G).map (fun c => c.2.2)).Nodup ∧
    t ∉ (bfsCalls s t G).map (fun c => c.2.2) ∧
    ∀ c ∈ bfsCalls s t G, c.1.size < G.V ∧ c.2.1.size < G.V ∧
      isFull c.1 = false ∧ isFull c.2.1 = false := by
  by_cases hst : s = t
  · refine ⟨⟨(0, parent0), by rw [BFS, if_pos hst]⟩, ?_⟩
    simp [bfsCalls, hst]
  · obtain ⟨st1, hrun, _, _, hcalls⟩ := BFS_search (hG.ctx hs hst) parent0
    refine ⟨⟨_, hrun⟩, hcalls.1, ?_, ?_⟩
    · intro hmem
      rw [List.mem_map] at hmem
      obtain ⟨c, hc, hct⟩ := hmem
      exact (hcalls.2 c hc).1 hct
    · intro c hc
      obtain ⟨_, _, h3, h4, h5, h6⟩ := hcalls.2 c hc
      exact ⟨h3, h4, h5, h6⟩

/-- Witness for C20 on the diamond of scenario 2: `BFS(1, 4)` enqueues the
vertices 1, 2, 3, in this order. -/
theorem BFS_enqueue_once_witness :
    SearchState scenario2 ∧ (bfsCalls 1 4 scenario2).map (fun c => c.2.2) = [1, 2, 3] ∧
    (∃ r, BFS 1 4 scenario2 [] = some r) ∧
    ((bfsCalls 1 4 scenario2).map (fun c => c.2.2)).Nodup ∧
    4 ∉ (bfsCalls 1 4 scenario2).map (fun c => c.2.2) ∧
    ∀ c ∈ bfsCalls 1 4 scenario2, c.1.size < scenario2.V ∧ c.2.1.size < scenario2.V ∧
      isFull c.1 = false ∧ isFull c.2.1 = false :=
  ⟨by decide, by decide, BFS_enqueue_once scenario2 (by decide) 1 4 (by decide) []⟩

/-- C21. On a valid network, in every state reached after the reverse-edge
pass and any number `n` of augmentations, `BFS` returns, and when its value
`b` is positive the walk back along `parent` from `t` reaches `s`; for every
consecutive pair `cur, prev` of that chain the list of `prev` has an edge to
`cur` and the list of `cur` has an edge to `prev`, and the flow update returns
a network: neither scanning loop runs past the end of a list. -/
theorem augment_lookups_succeed (G : GRAPH) (hG : ValidNetwork G) (s t : Nat)
    (hs : 1 ≤ s ∧ s ≤ G.V) (ht : 1 ≤ t ∧ t ≤ G.V) (n : Nat) (G1 : GRAPH) (m : Int)
    (h : augmentedState G s t n = some (G1, m)) (p0 : List Int) :
    ∃ b parent, BFS s t G1 p0 = some (b, parent) ∧
      (0 < b → ∃ chain G2, parentWalk parent s (G1.V + 1) t = some chain ∧
        List.Chain' (fun cur prev => (∃ e ∈ adj G1 prev, e.y = cur) ∧
          (∃ e ∈ adj G1 cur, e.y = prev)) chain ∧
        augment parent s b (G1.V + 1) t G1 = some G2) := by
  obtain ⟨G0, hext, hshape, inv⟩ := augmentedState_inv hG.1.runnable hG.le_MAX hs ht h
  have hV : G1.V = G.V := hshape.V.trans hext.V
  by_cases hst : s = t
  · exact ⟨0, p0, by rw [BFS, if_pos hst], fun hb => absurd hb (lt_irrefl _)⟩
  · exact loop_lookups inv (by rw [hV]; exact hG.le_MAX) (by rw [hV]; exact hs)
      (by rw [hV]; exact ht) hst p0

/-- Witness for C21 on scenario 1 after the reverse-edge pass: `BFS(1, 2)`
returns 5 with the chain `2, 1`, and the flow update gives the final network. -/
theorem augment_lookups_succeed_witness :
    ValidNetwork scenario1 ∧ augmentedState scenario1 1 2 0 = some (scenario1Residual, 0) ∧
    BFS 1 2 scenario1Residual [] = some (5, [-1, 0, 1]) ∧
    parentWalk [-1, 0, 1] 1 3 2 = some [2, 1] ∧
    augment [-1, 0, 1] 1 5 3 2 scenario1Residual = some scenario1Final ∧
    ∃ b parent, BFS 1 2 scenario1Residual [] = some (b, parent) ∧
      (0 < b → ∃ chain G2, parentWalk parent 1 (scenario1Residual.V + 1) 2 = some chain ∧
        List.Chain' (fun cur prev => (∃ e ∈ adj scenario1Residual prev, e.y = cur) ∧
          (∃ e ∈ adj scenario1Residual cur, e.y = prev)) chain ∧
        augment parent 1 b (scenario1Residual.V + 1) 2 scenario1Residual = some G2) :=
  ⟨by decide, by decide, by decide, by decide, by decide,
    augment_lookups_succeed scenario1 (by decide) 1 2 (by decide) (by decide) 0
      scenario1Residual 0 (by decide) []⟩

end FordFulkerson
